import Mathlib

set_option linter.unusedVariables false

namespace FolderSync

/-! Shallow embedding of `src/main.py`, a one-way periodic folder
synchroniser.  Paths are modelled as the character lists underlying the
Python path strings (so that `str.replace`, `os.path.join`, and the
`os.walk` traversal can be modelled exactly as the source computes them),
and the filesystem is a finite association list from paths to nodes,
observed and mutated in place during a tick exactly as the source does. -/

/-- Filesystem paths: the character list underlying a Python path string.
`os.path.join cwd name` is `cwd ++ '/' :: name`. -/
abbrev Path := List Char

/-- One filesystem node: a directory, or a file with byte content, a
modification time, and a readability flag.  `readable = false` models a
file whose `open(..., 'rb')` raises `OSError` (e.g. permission denied),
which is the error-injection point the spec discusses for the content
oracle (`are_same_files`, src/main.py lines 48-56). -/
inductive Node
  | dir : Node
  | file (content : List Nat) (mtime : Nat) (readable : Bool) : Node
deriving DecidableEq

instance : Inhabited Node := ⟨Node.dir⟩

/-- The live filesystem: a finite association list from paths to nodes. -/
abbrev FS := List (Path × Node)

/-- Lookup of the node stored at a path (first matching entry). -/
def getNode : FS → Path → Option Node
  | [], _ => none
  | (q, n) :: t, p => if p = q then some n else getNode t p

/-- `os.path.isdir`. -/
def isdirB (fs : FS) (p : Path) : Bool := getNode fs p = some Node.dir

/-- `os.path.isfile`. -/
def isfileB (fs : FS) (p : Path) : Bool :=
  match getNode fs p with
  | some (Node.file _ _ _) => true
  | _ => false

/-- Store a node at a path: replace the first existing entry for that key,
or append a fresh entry. -/
def setNode : FS → Path → Node → FS
  | [], p, n => [(p, n)]
  | (q, m) :: t, p, n => if p = q then (p, n) :: t else (q, m) :: setNode t p n

/-- `p` lies strictly under the directory `root` (string-wise:
`root ++ "/"` is a prefix of `p`). -/
def underB (root p : Path) : Bool := (root ++ ['/']).isPrefixOf p

/-- `pat` occurs as a contiguous sublist of `t` (Python substring test). -/
def containsSub : Path → Path → Bool
  | [], pat => pat.isEmpty
  | c :: t, pat => pat.isPrefixOf (c :: t) || containsSub t pat

/-- Python `s.replace(pat, rep)`: scan left to right, replacing each
leftmost non-overlapping occurrence of `pat`.  This is exactly how the
source computes both the source→replica path map
(`source_file_path.replace(source, replica)`, src/main.py lines 70, 81)
and the inverse map (lines 102, 113).  (For the empty pattern Python
inserts `rep` everywhere; the roots handed to the sync are never empty,
and this model leaves `s` unchanged in that case.) -/
def replaceAllF : Nat → Path → Path → Path → Path
  | 0, s, _, _ => s
  | fuel + 1, s, pat, rep =>
    match s with
    | [] => []
    | c :: s' =>
      if pat.isPrefixOf (c :: s') ∧ pat ≠ [] then
        rep ++ replaceAllF fuel ((c :: s').drop pat.length) pat rep
      else c :: replaceAllF fuel s' pat rep

/-- Python `s.replace(pat, rep)` proper: the scan consumes at least one
character of `s` per step, so `s.length` steps always suffice. -/
def replaceAll (s pat rep : Path) : Path := replaceAllF s.length s pat rep

/-- `os.path.dirname` (enough of it for paths of the shape the sync
produces: everything before the final slash). -/
def dirnameOf (p : Path) : Path := (((p.reverse).dropWhile (fun c => c ≠ '/')).drop 1).reverse

/-- `os.path.basename`: everything after the final slash. -/
def basenameOf (p : Path) : Path := ((p.reverse).takeWhile (fun c => c ≠ '/')).reverse

/-- The name under which `k` is a direct child of directory `cwd`
(`k = cwd ++ "/" ++ n` with `n` a nonempty slash-free name), if any. -/
def childNameOf? (cwd k : Path) : Option Path :=
  if (cwd ++ ['/']).isPrefixOf k then
    let n := k.drop (cwd.length + 1)
    if n ≠ [] ∧ n.contains '/' = false then some n else none
  else none

/-- The directory names in `os.walk`'s triple for `cwd`: names of direct
children of `cwd` that are directories (listing order is the entry order
of the association list; the OS listing order is unspecified and the
source does not rely on it). -/
def dirChildren (fs : FS) (cwd : Path) : List Path :=
  fs.filterMap fun kv =>
    match childNameOf? cwd kv.1, kv.2 with
    | some n, Node.dir => some n
    | _, _ => none

/-- The file names in `os.walk`'s triple for `cwd`. -/
def fileChildren (fs : FS) (cwd : Path) : List Path :=
  fs.filterMap fun kv =>
    match childNameOf? cwd kv.1, kv.2 with
    | some n, Node.file _ _ _ => some n
    | _, _ => none

/-- `os.makedirs(p)` (src/main.py line 75): recursively ensure the parent
exists, then create `p`; returns the (possibly partially extended)
filesystem and a success flag (`false` models the raised `OSError`:
target already exists, or a parent turns out not to be a directory). -/
def makedirsF : Nat → FS → Path → FS × Bool
  | 0, fs, _ => (fs, false)
  | fuel + 1, fs, p =>
    let head := dirnameOf p
    let st : FS × Bool :=
      if head ≠ [] ∧ getNode fs head = none then makedirsF fuel fs head else (fs, true)
    match st with
    | (fs₁, true) =>
      if getNode fs₁ p = none ∧ (head = [] ∨ isdirB fs₁ head) then
        (setNode fs₁ p Node.dir, true)
      else (fs₁, false)
    | (fs₁, false) => (fs₁, false)

/-- The recursion of `os.makedirs` shortens the path by at least one
character per step, so `p.length` steps always suffice. -/
def makedirsFS (fs : FS) (p : Path) : FS × Bool := makedirsF p.length fs p

/-- Whether writing a file at `dst` finds its parent directory in place
(`open(dst, 'wb')` succeeds path-wise); a path with no parent component
is resolved relative to the working directory, which exists. -/
def parentOkB (fs : FS) (dst : Path) : Bool := dirnameOf dst = [] || isdirB fs (dirnameOf dst)

/-- `shutil.copy2(src, dst)` (src/main.py line 86): if `dst` is a
directory the copy goes *into* it under `src`'s basename; the content and
the modification time are both copied.  `none` models the raised
`OSError` (source unreadable/missing/a directory, destination directory
collision, or missing destination parent). -/
def copy2FS (fs : FS) (src dst : Path) : Option FS :=
  let dst' := if isdirB fs dst then dst ++ '/' :: basenameOf src else dst
  match getNode fs src with
  | some (Node.file c t true) =>
    if isdirB fs dst' then none
    else if parentOkB fs dst' then some (setNode fs dst' (Node.file c t true)) else none
  | _ => none

/-- `shutil.rmtree(p)` (src/main.py line 107): remove the directory `p`
and every entry below it in one operation; `none` models the raised
`OSError` when `p` is not a directory. -/
def rmtreeFS (fs : FS) (p : Path) : Option FS :=
  if isdirB fs p then
    some (fs.filter fun kv => ¬ (kv.1 = p ∨ underB p kv.1 = true))
  else none

/-- `os.remove(p)` (src/main.py line 118); `none` models the raised
`OSError` when `p` is not a file. -/
def osRemoveFS (fs : FS) (p : Path) : Option FS :=
  if isfileB fs p then some (fs.filter fun kv => kv.1 ≠ p) else none

/-- `are_same_files` (src/main.py lines 48-56): read both files fully and
compare their md5 digests.  Digest equality is modelled as byte-content
equality (the spec treats the collision probability as negligible).
`none` models the `OSError` raised when either path cannot be opened and
read (missing, unreadable, or a directory). -/
def are_same_files (fs : FS) (f1 f2 : Path) : Option Bool :=
  match getNode fs f1, getNode fs f2 with
  | some (Node.file c1 _ true), some (Node.file c2 _ true) => some (c1 == c2)
  | _, _ => none

/-- One log line, as emitted by the source's logger: an informational
action line or an error line (src/main.py lines 73, 77, 84, 88, 105,
109, 116, 120). -/
inductive Ev
  | creating (p : Path)
  | errCreating (p : Path)
  | copying (src dst : Path)
  | errCopying (src dst : Path)
  | removingDir (p : Path)
  | errRemovingDir (p : Path)
  | removingFile (p : Path)
  | errRemovingFile (p : Path)
deriving DecidableEq

abbrev Log := List Ev

/-- Whether a log line is an error line (`logger.error`). -/
def Ev.isError : Ev → Bool
  | Ev.errCreating _ => true
  | Ev.errCopying _ _ => true
  | Ev.errRemovingDir _ => true
  | Ev.errRemovingFile _ => true
  | _ => false

/-- A tick segment with no per-entry errors logged. -/
def noErrorsB (log : Log) : Bool := log.all fun e => ¬ e.isError

/-- Outcome of a walk over one phase: completed, aborted by an uncaught
`OSError` escaping `are_same_files` (nothing in the source catches it),
or out of model fuel (the walk was not fully explored; no claim is made
about such runs). -/
inductive WalkRes
  | done (fs : FS) (log : Log)
  | ioErr (fs : FS) (log : Log)
  | fuelOut
deriving DecidableEq

/-- The body of the folder loop of `add_files_to_replica`
(src/main.py lines 68-77) for a single folder name. -/
def processFolder (source replica : Path) (fs : FS) (log : Log) (cwd n : Path) : FS × Log :=
  let sp := cwd ++ '/' :: n
  let rp := replaceAll sp source replica
  if isdirB fs rp then (fs, log)
  else
    match makedirsFS fs rp with
    | (fs', true) => (fs', log ++ [Ev.creating rp])
    | (fs', false) => (fs', log ++ [Ev.creating rp, Ev.errCreating rp])

/-- The folder loop of `add_files_to_replica` over one `os.walk` triple. -/
def addFolders (source replica cwd : Path) (folders : List Path) (fs : FS) (log : Log) :
    FS × Log :=
  folders.foldl (fun st n => processFolder source replica st.1 st.2 cwd n) (fs, log)

/-- The copy attempt of src/main.py lines 84-88: log the action, try
`shutil.copy2`, and log an error on failure. -/
def copyAttempt (fs : FS) (log : Log) (sp rp : Path) : FS × Log :=
  let log' := log ++ [Ev.copying sp rp]
  match copy2FS fs sp rp with
  | some fs' => (fs', log')
  | none => (fs, log' ++ [Ev.errCopying sp rp])

/-- The body of the file loop of `add_files_to_replica` (src/main.py
lines 79-88) for a single file name.  The `or` on line 83 short-circuits:
`are_same_files` runs only when the replica path is a file, and if it
raises (`none`) nothing catches the exception (`none` result here). -/
def processFile (source replica : Path) (fs : FS) (log : Log) (cwd n : Path) :
    Option (FS × Log) :=
  let sp := cwd ++ '/' :: n
  let rp := replaceAll sp source replica
  if isfileB fs rp then
    match are_same_files fs sp rp with
    | none => none
    | some true => some (fs, log)
    | some false => some (copyAttempt fs log sp rp)
  else some (copyAttempt fs log sp rp)

/-- The file loop of `add_files_to_replica` over one `os.walk` triple; an
uncaught `OSError` from `are_same_files` aborts with the filesystem and
log as they stand. -/
def addFiles (source replica cwd : Path) : List Path → FS → Log → WalkRes
  | [], fs, log => WalkRes.done fs log
  | n :: ns, fs, log =>
    match processFile source replica fs log cwd n with
    | none => WalkRes.ioErr fs log
    | some (fs', log') => addFiles source replica cwd ns fs' log'

/-- Descend into each directory of an `os.walk` triple in turn,
propagating an abort. -/
def runChildren (walk : Path → FS → Log → WalkRes) (cwd : Path) :
    List Path → FS → Log → WalkRes
  | [], fs, log => WalkRes.done fs log
  | n :: ns, fs, log =>
    match walk (cwd ++ '/' :: n) fs log with
    | WalkRes.done fs' log' => runChildren walk cwd ns fs' log'
    | e => e

/-- The `os.walk(source)` loop of `add_files_to_replica` (src/main.py
lines 67-88), top-down and lazy: each directory's listing is taken from
the live filesystem when the directory is visited, a directory that is
gone (or not a directory) when reached yields nothing, folders are
processed before files, and then the walk descends into the listed
subdirectories in order. -/
def addWalk (source replica : Path) : Nat → Path → FS → Log → WalkRes
  | 0, _, _, _ => WalkRes.fuelOut
  | fuel + 1, cwd, fs, log =>
    if isdirB fs cwd then
      let folders := dirChildren fs cwd
      let files := fileChildren fs cwd
      let st1 := addFolders source replica cwd folders fs log
      match addFiles source replica cwd files st1.1 st1.2 with
      | WalkRes.done fs2 log2 => runChildren (addWalk source replica fuel) cwd folders fs2 log2
      | e => e
    else WalkRes.done fs log

/-- `add_files_to_replica` (src/main.py lines 59-88). -/
def add_files_to_replica (fuel : Nat) (source replica : Path) (fs : FS) (log : Log) : WalkRes :=
  addWalk source replica fuel source fs log

/-- The body of the folder loop of `remove_files_from_replica`
(src/main.py lines 100-109) for a single folder name. -/
def processRmFolder (source replica : Path) (fs : FS) (log : Log) (cwd n : Path) : FS × Log :=
  let rp := cwd ++ '/' :: n
  let sp := replaceAll rp replica source
  if isdirB fs sp then (fs, log)
  else
    match rmtreeFS fs rp with
    | some fs' => (fs', log ++ [Ev.removingDir rp])
    | none => (fs, log ++ [Ev.removingDir rp, Ev.errRemovingDir rp])

/-- The body of the file loop of `remove_files_from_replica`
(src/main.py lines 111-120) for a single file name. -/
def processRmFile (source replica : Path) (fs : FS) (log : Log) (cwd n : Path) : FS × Log :=
  let rp := cwd ++ '/' :: n
  let sp := replaceAll rp replica source
  if isfileB fs sp then (fs, log)
  else
    match osRemoveFS fs rp with
    | some fs' => (fs', log ++ [Ev.removingFile rp])
    | none => (fs, log ++ [Ev.removingFile rp, Ev.errRemovingFile rp])

/-- Descend into each directory of a replica-side `os.walk` triple. -/
def rmChildren (walk : Path → FS → Log → Option (FS × Log)) (cwd : Path) :
    List Path → FS → Log → Option (FS × Log)
  | [], fs, log => some (fs, log)
  | n :: ns, fs, log =>
    match walk (cwd ++ '/' :: n) fs log with
    | some (fs', log') => rmChildren walk cwd ns fs' log'
    | none => none

/-- The folder loop of `remove_files_from_replica` over one `os.walk`
triple. -/
def removeFolders (source replica cwd : Path) (folders : List Path) (fs : FS) (log : Log) :
    FS × Log :=
  folders.foldl (fun st n => processRmFolder source replica st.1 st.2 cwd n) (fs, log)

/-- The file loop of `remove_files_from_replica` over one `os.walk`
triple. -/
def removeFiles (source replica cwd : Path) (files : List Path) (fs : FS) (log : Log) :
    FS × Log :=
  files.foldl (fun st n => processRmFile source replica st.1 st.2 cwd n) (fs, log)

/-- The `os.walk(replica)` loop of `remove_files_from_replica`
(src/main.py lines 99-120), lazy top-down: a subtree removed by
`shutil.rmtree` is not descended into, because by the time the walk
reaches it the directory no longer exists. -/
def removeWalk (source replica : Path) : Nat → Path → FS → Log → Option (FS × Log)
  | 0, _, _, _ => none
  | fuel + 1, cwd, fs, log =>
    if isdirB fs cwd then
      let folders := dirChildren fs cwd
      let files := fileChildren fs cwd
      let st1 := removeFolders source replica cwd folders fs log
      let st2 := removeFiles source replica cwd files st1.1 st1.2
      rmChildren (removeWalk source replica fuel) cwd folders st2.1 st2.2
    else some (fs, log)

/-- `remove_files_from_replica` (src/main.py lines 91-120). -/
def remove_files_from_replica (fuel : Nat) (source replica : Path) (fs : FS) (log : Log) :
    Option (FS × Log) :=
  removeWalk source replica fuel replica fs log

/-- Outcome of one call to `sync_folders`: normal completion, an uncaught
`OSError` escaping `are_same_files`, the `ValueError` raised on a bad
root (the filesystem it carries is the filesystem at raise time), or out
of model fuel. -/
inductive SyncResult
  | ok (fs : FS) (log : Log)
  | ioError (fs : FS) (log : Log)
  | valueError (fs : FS)
  | fuelOut
deriving DecidableEq

/-- `sync_folders` (src/main.py lines 123-139): check both roots are
directories (raising `ValueError` otherwise), then run
`add_files_to_replica` followed by `remove_files_from_replica`. -/
def sync_folders (fuel : Nat) (source replica : Path) (fs : FS) : SyncResult :=
  if isdirB fs source = false then SyncResult.valueError fs
  else if isdirB fs replica = false then SyncResult.valueError fs
  else
    match add_files_to_replica fuel source replica fs [] with
    | WalkRes.fuelOut => SyncResult.fuelOut
    | WalkRes.ioErr fs' log' => SyncResult.ioError fs' log'
    | WalkRes.done fs' log' =>
      match remove_files_from_replica fuel source replica fs' log' with
      | none => SyncResult.fuelOut
      | some (fs'', log'') => SyncResult.ok fs'' log''

/-- Whether a tick completed normally. -/
def SyncResult.isOk : SyncResult → Bool
  | SyncResult.ok _ _ => true
  | _ => false

/-- The filesystem carried by a tick outcome. -/
def SyncResult.fsOf : SyncResult → FS
  | SyncResult.ok fs _ => fs
  | SyncResult.ioError fs _ => fs
  | SyncResult.valueError fs => fs
  | SyncResult.fuelOut => []

/-- The log carried by a tick outcome. -/
def SyncResult.logOf : SyncResult → Log
  | SyncResult.ok _ l => l
  | SyncResult.ioError _ l => l
  | _ => []

/-! Spec-side predicates: the path-mapping rule, well-formedness of a
filesystem snapshot, and the mirror invariant the spec claims a tick
establishes.  These follow the spec's wording and are only compared with
what the embedded code computes. -/

/-- The suffix of `k` after the root prefix `root` (for `k = root ++ rest`
this is `rest`, beginning with the slash). -/
def tailFrom (root k : Path) : Path := k.drop root.length

/-- The relative part of `k` under directory `root`
(for `k = root ++ '/' :: rel` this is `rel`). -/
def keyRel (root k : Path) : Path := k.drop (root.length + 1)

/-- A single path component: nonempty and slash-free. -/
def validNameB (n : Path) : Bool := !n.isEmpty && !(n.contains '/')

/-- Scanner for well-formed relative paths; the flag is `true` at the
start of a component (where a further name character is required) and
`false` once inside a component. -/
def validRelAux : Bool → Path → Bool
  | true, [] => false
  | false, [] => true
  | true, c :: rest => if c = '/' then false else validRelAux false rest
  | false, c :: rest => if c = '/' then validRelAux true rest else validRelAux false rest

/-- A well-formed relative path: one or more nonempty slash-free
components separated by single slashes. -/
def validRelB (rel : Path) : Bool := validRelAux true rel

/-- The spec's mapping rule
`replica_path = replica_root + relative(path, source_root)`: pure root
prefix substitution. -/
def specMap (s r k : Path) : Path := r ++ tailFrom s k

/-- The keys of `fs` are distinct (true of a real filesystem listing). -/
abbrev nodupKeys (fs : FS) : Prop := (fs.map Prod.fst).Nodup

/-- Neither root string is a prefix of the other (in particular the two
roots differ and neither tree sits inside the other). -/
def indepRootsB (s r : Path) : Bool := !(s.isPrefixOf r) && !(r.isPrefixOf s)

/-- Every key under either root has a suffix that mentions neither root
string again, so Python's replace-all `str.replace` agrees with the
spec's prefix substitution on every path the sync touches. -/
def safeKeysB (fs : FS) (s r : Path) : Bool :=
  fs.all fun kv =>
    (!(underB s kv.1) || (!(containsSub (tailFrom s kv.1) s) && !(containsSub (tailFrom s kv.1) r))) &&
    (!(underB r kv.1) || !(containsSub (tailFrom r kv.1) r))

/-- `root` is a directory and every key strictly under it is a
well-formed relative path whose parent directory exists: the subtree is
an honest directory tree reachable by `os.walk`. -/
def dirClosedB (fs : FS) (root : Path) : Bool :=
  isdirB fs root &&
  (fs.all fun kv =>
    !(underB root kv.1) || (validRelB (keyRel root kv.1) && isdirB fs (dirnameOf kv.1)))

/-- No file under the source root faces a directory at its mapped replica
path (such a pair makes `shutil.copy2` silently copy *into* the
directory instead of replacing it). -/
def noConflictB (fs : FS) (s r : Path) : Bool :=
  fs.all fun kv =>
    !(underB s kv.1 && (match kv.2 with | Node.file _ _ _ => true | _ => false)) ||
    !(isdirB fs (specMap s r kv.1))

/-- Every file in the snapshot can be opened and read. -/
def readableAllB (fs : FS) : Bool :=
  fs.all fun kv => match kv.2 with | Node.file _ _ rd => rd | _ => true

/-- Content-level agreement of a node with the node found on the other
side (modification times and permission bits are not part of the spec's
post-tick invariant). -/
def nodeEq2 (n : Node) (o : Option Node) : Bool :=
  match n, o with
  | Node.dir, some Node.dir => true
  | Node.file c _ _, some (Node.file c' _ _) => c == c'
  | _, _ => false

/-- The spec's post-tick invariant: every entry under the source root has
an entry of matching kind and content at its mapped replica path, and
every entry under the replica root has a matching entry at its
inverse-mapped source path (no orphans). -/
def mirrorsB (fs : FS) (s r : Path) : Bool :=
  fs.all fun kv =>
    (!(underB s kv.1) || nodeEq2 kv.2 (getNode fs (specMap s r kv.1))) &&
    (!(underB r kv.1) || nodeEq2 kv.2 (getNode fs (specMap r s kv.1)))

/-- The well-formedness package under which the spec's claims are
re-established for the code: distinct keys, independent roots,
replace-safe suffixes, two honest directory trees, and no file-vs-dir
conflicts between the two trees. -/
def wfInputB (fs : FS) (s r : Path) : Bool :=
  decide (nodupKeys fs) && indepRootsB s r && safeKeysB fs s r &&
  dirClosedB fs s && dirClosedB fs r && noConflictB fs s r

/-! Concrete snapshots used to exercise the claims on explicit inputs.
Roots are `/s` (source) and `/r` (replica) throughout. -/

/-- Source root `/s`. -/
def sR : Path := ['/', 's']

/-- Replica root `/r`. -/
def rR : Path := ['/', 'r']

/-- Snapshot for convergence: source has file `/s/f`, replica has a
*directory* at the mapped path `/r/f`. -/
def fsC1 : FS :=
  [(['/', 's'], Node.dir), (['/', 's', '/', 'f'], Node.file [1] 1 true),
   (['/', 'r'], Node.dir), (['/', 'r', '/', 'f'], Node.dir)]

/-- Snapshot for the oracle-failure claim: `/s/a` exists on both sides
but the replica copy is unreadable; `/s/b` is missing from the replica. -/
def fsC2 : FS :=
  [(['/', 's'], Node.dir), (['/', 's', '/', 'a'], Node.file [1] 1 true),
   (['/', 's', '/', 'b'], Node.file [2] 2 true),
   (['/', 'r'], Node.dir), (['/', 'r', '/', 'a'], Node.file [1] 1 false)]

/-- Snapshot for idempotence: same shape as `fsC1` (file vs directory),
with different content. -/
def fsC4 : FS :=
  [(['/', 's'], Node.dir), (['/', 's', '/', 'g'], Node.file [7] 3 true),
   (['/', 'r'], Node.dir), (['/', 'r', '/', 'g'], Node.dir)]

/-- Snapshot for the pruner claim: the replica holds an orphaned
directory `/r/d` (with a file `/r/d/x` inside) and an orphaned file
`/r/g`; the source has no counterpart for either. -/
def fsC5 : FS :=
  [(['/', 's'], Node.dir), (['/', 'r'], Node.dir),
   (['/', 'r', '/', 'd'], Node.dir),
   (['/', 'r', '/', 'd', '/', 'x'], Node.file [6] 1 true),
   (['/', 'r', '/', 'g'], Node.file [8] 2 true)]

/-- Snapshot on which the code's replace-all map diverges from the
spec's inverse map: the replica holds a directory `/r/r` whose
inverse-mapped source path `/s/r` is absent, yet
`"/r/r".replace("/r", "/s")` yields `/s/s`, which *is* a directory. -/
def fsC5x : FS :=
  [(['/', 's'], Node.dir), (['/', 'r'], Node.dir),
   (['/', 's', '/', 's'], Node.dir), (['/', 'r', '/', 'r'], Node.dir)]

/-- A snapshot in which the replica already mirrors the source: file
`a` and directory `d` with file `d/x` on both sides, with differing
modification times (content is what the comparator checks). -/
def fsMir : FS :=
  [(['/', 's'], Node.dir), (['/', 'r'], Node.dir),
   (['/', 's', '/', 'a'], Node.file [1] 1 true),
   (['/', 'r', '/', 'a'], Node.file [1] 5 true),
   (['/', 's', '/', 'd'], Node.dir), (['/', 'r', '/', 'd'], Node.dir),
   (['/', 's', '/', 'd', '/', 'x'], Node.file [2] 1 true),
   (['/', 'r', '/', 'd', '/', 'x'], Node.file [2] 9 true)]

/-- Snapshot for the comparator claim: source file `/s/h`, replica
directory at the mapped path `/r/h`. -/
def fsC6 : FS :=
  [(['/', 's'], Node.dir), (['/', 's', '/', 'h'], Node.file [4] 9 true),
   (['/', 'r'], Node.dir), (['/', 'r', '/', 'h'], Node.dir)]

/-- Snapshot for the creation-failure claim: source directory `/s/d`
with file `/s/d/x`; the replica has a *file* at the mapped path `/r/d`,
so `os.makedirs` fails. -/
def fsC7 : FS :=
  [(['/', 's'], Node.dir), (['/', 's', '/', 'd'], Node.dir),
   (['/', 's', '/', 'd', '/', 'x'], Node.file [9] 1 true),
   (['/', 'r'], Node.dir), (['/', 'r', '/', 'd'], Node.file [5] 2 true)]

/-- Snapshot for the no-source-mutation claim: the source root `/r/s`
sits *inside* the replica root `/r`. -/
def fsC8 : FS :=
  [(['/', 'r'], Node.dir), (['/', 'r', '/', 's'], Node.dir),
   (['/', 'r', '/', 's', '/', 'x'], Node.file [3] 1 true)]

/-- Snapshot for the comparator witness: `/s/a` content-equal on both
sides (different mtime), `/s/b` missing from the replica. -/
def fsW6 : FS :=
  [(['/', 's'], Node.dir), (['/', 's', '/', 'a'], Node.file [1] 1 true),
   (['/', 's', '/', 'b'], Node.file [2] 2 true),
   (['/', 'r'], Node.dir), (['/', 'r', '/', 'a'], Node.file [1] 7 true)]

/-- The spec's own test scenario (section 8): source holds `a/x` and
`b`; the replica holds a content-equal `a/x`, a stale `b` and an orphan
`c`. One errorless tick must overwrite `b` and delete `c`. -/
def fsStale : FS :=
  [(['/', 's'], Node.dir), (['/', 'r'], Node.dir),
   (['/', 's', '/', 'a'], Node.dir),
   (['/', 's', '/', 'a', '/', 'x'], Node.file [1] 1 true),
   (['/', 's', '/', 'b'], Node.file [2] 2 true),
   (['/', 'r', '/', 'a'], Node.dir),
   (['/', 'r', '/', 'a', '/', 'x'], Node.file [1] 4 true),
   (['/', 'r', '/', 'b'], Node.file [9] 5 true),
   (['/', 'r', '/', 'c'], Node.file [3] 6 true)]

/-- Every key present in `fs` is still present (with some node) in
`fs'`: the additive phase never deletes an entry. -/
def keysMono (fs fs' : FS) : Prop :=
  ∀ q v, getNode fs q = some v → ∃ v', getNode fs' q = some v'

/-- `fs'` is a value-preserving restriction of `fs`: the removal phase
only deletes entries, never creates or rewrites one. -/
def submapOf (fs' fs : FS) : Prop :=
  ∀ q v, getNode fs' q = some v → getNode fs q = some v

/-- A node the additive phase may legitimately have written at `q`: a
directory created for a mapped source directory, or a file copied (with
content and mtime) from a readable mapped source file. -/
def addWritten (fs0 : FS) (s r q : Path) (v : Node) : Prop :=
  ∃ rel, q = r ++ '/' :: rel ∧ validRelB rel = true ∧
    ((getNode fs0 (s ++ '/' :: rel) = some Node.dir ∧ v = Node.dir) ∨
      (∃ c t, getNode fs0 (s ++ '/' :: rel) = some (Node.file c t true) ∧
        v = Node.file c t true))

/-- Invariant of the additive phase relative to the tick-start snapshot
`fs0`: keys are still distinct, every key reads either as in `fs0` or as
a legitimately written mapped node, and directories never disappear. -/
def addInvP (fs0 fs : FS) (s r : Path) : Prop :=
  nodupKeys fs ∧
    (∀ q, getNode fs q = getNode fs0 q ∨
      ∃ v, getNode fs q = some v ∧ addWritten fs0 s r q v) ∧
    (∀ q, isdirB fs0 q = true → isdirB fs q = true)

/-- The comparator's obligation for the source entry at relative path
`rel` is established in `fs`: a mapped directory exists, or a mapped
file with the source's content exists. -/
def mappedDone (fs0 fs : FS) (s r rel : Path) : Prop :=
  (getNode fs0 (s ++ '/' :: rel) = some Node.dir →
    isdirB fs (r ++ '/' :: rel) = true) ∧
  (∀ c t rd, getNode fs0 (s ++ '/' :: rel) = some (Node.file c t rd) →
    ∃ t', getNode fs (r ++ '/' :: rel) = some (Node.file c t' true))

/-- The pruner keeps a replica entry exactly when the inverse-mapped
source path carries an entry of the same kind. -/
def keepCondP (fs : FS) (s r q : Path) : Prop :=
  (getNode fs q = some Node.dir ∧ isdirB fs (s ++ tailFrom r q) = true) ∨
    (∃ c t rd, getNode fs q = some (Node.file c t rd) ∧
      isfileB fs (s ++ tailFrom r q) = true)

/-- One segment of the additive phase: every key reads as before the
segment, or as a legitimately written mapped node. -/
def addStep (fs0 : FS) (s r : Path) (fsa fsb : FS) : Prop :=
  ∀ q, getNode fsb q = getNode fsa q ∨ ∃ v, getNode fsb q = some v ∧ addWritten fs0 s r q v

/-- Directories survive a segment (the additive phase never overwrites
or removes a directory node). -/
def dirPres (fsa fsb : FS) : Prop :=
  ∀ q, getNode fsa q = some Node.dir → getNode fsb q = some Node.dir

/-- One segment of the removal phase: every key reads as before the
segment or has been deleted, and deletions happen only under the
replica root. -/
def rmStep (r : Path) (fsa fsb : FS) : Prop :=
  ∀ q, getNode fsb q = getNode fsa q ∨ (underB r q = true ∧ getNode fsb q = none)

/-- Every tick-start entry in the subtree of `base` has its comparator
obligation established in `fs`. -/
def mappedAll (fs0 fs : FS) (s r base : Path) : Prop :=
  ∀ k v, getNode fs0 k = some v → underB base k = true → mappedDone fs0 fs s r (keyRel s k)

/-- A replica key carrying the mapped image of a tick-start source
entry: a directory image of a source directory, or a readable file image
carrying the source file's content. -/
def mappedPair (fs0 : FS) (s r k : Path) (v : Node) : Prop :=
  ∃ rel, k = r ++ '/' :: rel ∧
    ((getNode fs0 (s ++ '/' :: rel) = some Node.dir ∧ v = Node.dir) ∨
     (∃ c t rd t2, getNode fs0 (s ++ '/' :: rel) = some (Node.file c t rd) ∧
       v = Node.file c t2 true))

/-- Zone-closed removal state relative to the phase-start snapshot
`fs1`: whenever any strict descendant of `p` is still present, `p`
itself still reads as it did in `fs1`. -/
def zoneClosed (fs1 fsx : FS) : Prop :=
  ∀ p q v, underB p q = true → getNode fsx q = some v → getNode fsx p = getNode fs1 p

/-! Lemmas about the association-list filesystem operations. -/

theorem getNode_setNode_self (fs : FS) (p : Path) (n : Node) :
    getNode (setNode fs p n) p = some n := by
  induction fs with
  | nil => simp [setNode, getNode]
  | cons kv t ih =>
    obtain ⟨q, m⟩ := kv
    by_cases h : p = q <;> simp [setNode, getNode, h, ih]

theorem getNode_setNode_ne (fs : FS) (p q : Path) (n : Node) (h : q ≠ p) :
    getNode (setNode fs p n) q = getNode fs q := by
  induction fs with
  | nil => simp [setNode, getNode, h]
  | cons kv t ih =>
    obtain ⟨k, m⟩ := kv
    by_cases hp : p = k
    · subst hp
      simp [setNode, getNode, h]
    · by_cases hq : q = k <;> simp [setNode, getNode, hp, hq, ih]

theorem getNode_filterKeys (P : Path × Node → Bool) (fs : FS) (q : Path)
    (hP : ∀ kv kv' : Path × Node, kv.1 = kv'.1 → P kv = P kv') :
    getNode (fs.filter P) q =
      if P (q, Node.dir) = true then getNode fs q else none := by
  induction fs with
  | nil => simp [getNode]
  | cons kv t ih =>
    obtain ⟨k, m⟩ := kv
    by_cases hq : q = k
    · subst hq
      have hPk : P (q, m) = P (q, Node.dir) := hP _ _ rfl
      by_cases h : P (q, Node.dir) = true
      · simp [List.filter, hPk, h, getNode]
      · have : P (q, m) = false := by
          rw [hPk]
          exact Bool.not_eq_true _ ▸ (by simpa using h)
        simp [List.filter, this, h, ih]
    · by_cases h : P (k, m) = true <;> simp [List.filter, h, getNode, hq, ih]

theorem getNode_mem {fs : FS} {p : Path} {v : Node} (h : getNode fs p = some v) :
    (p, v) ∈ fs := by
  induction fs with
  | nil => simp [getNode] at h
  | cons kv t ih =>
    obtain ⟨k, m⟩ := kv
    by_cases hq : p = k
    · subst hq
      simp [getNode] at h
      simp [h]
    · simp [getNode, hq] at h
      exact List.mem_cons_of_mem _ (ih h)

theorem mem_getNode {fs : FS} {p : Path} {v : Node} (hnd : nodupKeys fs)
    (h : (p, v) ∈ fs) : getNode fs p = some v := by
  induction fs with
  | nil => simp at h
  | cons kv t ih =>
    obtain ⟨k, m⟩ := kv
    rcases List.mem_cons.mp h with h1 | h1
    · rw [show p = k from congrArg Prod.fst h1]
      simp [getNode]
      exact (congrArg Prod.snd h1).symm
    · have hk : p ≠ k := by
        intro hpk
        have hmem : p ∈ t.map Prod.fst := List.mem_map_of_mem Prod.fst h1
        have h3 : (k :: t.map Prod.fst).Nodup := by simpa [nodupKeys] using hnd
        exact (List.nodup_cons.mp h3).1 (hpk ▸ hmem)
      simp [getNode, hk]
      exact ih (List.Nodup.of_cons hnd) h1

theorem getNode_isSome_mem {fs : FS} {p : Path} (h : getNode fs p ≠ none) :
    p ∈ fs.map Prod.fst := by
  match hv : getNode fs p with
  | none => exact absurd hv h
  | some v => exact List.mem_map_of_mem Prod.fst (getNode_mem hv)

theorem setNode_mapFst_mem {fs : FS} {p x : Path} {n : Node}
    (h : x ∈ (setNode fs p n).map Prod.fst) : x ∈ fs.map Prod.fst ∨ x = p := by
  induction fs with
  | nil =>
    simp [setNode] at h
    exact Or.inr h
  | cons kv t ih =>
    obtain ⟨k, m⟩ := kv
    by_cases hp : p = k
    · subst hp
      simp [setNode] at h
      rcases h with h | h
      · exact Or.inr h
      · exact Or.inl (by simp [h])
    · simp [setNode, hp] at h
      rcases h with h | h
      · exact Or.inl (by simp [h])
      · rcases ih (by simpa using h) with h2 | h2
        · exact Or.inl (by simp; exact Or.inr (by simpa using h2))
        · exact Or.inr h2

theorem nodupKeys_setNode {fs : FS} (p : Path) (n : Node) (hnd : nodupKeys fs) :
    nodupKeys (setNode fs p n) := by
  induction fs with
  | nil => simp [setNode, nodupKeys]
  | cons kv t ih =>
    obtain ⟨k, m⟩ := kv
    have hknot : k ∉ t.map Prod.fst := by
      have h3 : (k :: t.map Prod.fst).Nodup := by simpa [nodupKeys] using hnd
      exact (List.nodup_cons.mp h3).1
    have hndt : nodupKeys t := List.Nodup.of_cons hnd
    by_cases hp : p = k
    · subst hp
      simpa [setNode, nodupKeys] using And.intro (by simpa using hknot) hndt
    · have hset : nodupKeys (setNode t p n) := ih hndt
      have hknotset : k ∉ (setNode t p n).map Prod.fst := by
        intro hx
        rcases setNode_mapFst_mem hx with h2 | h2
        · exact hknot h2
        · exact hp h2.symm
      have hgoal : setNode ((k, m) :: t) p n = (k, m) :: setNode t p n := by
        simp [setNode, hp]
      rw [hgoal]
      simpa [nodupKeys, List.nodup_cons] using And.intro (by simpa using hknotset) hset

theorem nodupKeys_filter (P : Path × Node → Bool) {fs : FS} (hnd : nodupKeys fs) :
    nodupKeys (fs.filter P) := by
  exact List.Nodup.sublist (List.Sublist.map Prod.fst (List.filter_sublist fs)) hnd

/-! Path algebra. -/

theorem underB_iff {root k : Path} : underB root k = true ↔ ∃ rel, k = root ++ '/' :: rel := by
  constructor
  · intro h
    rcases List.isPrefixOf_iff_prefix.mp h with ⟨t, ht⟩
    exact ⟨t, by rw [← ht]; simp⟩
  · rintro ⟨rel, rfl⟩
    exact List.isPrefixOf_iff_prefix.mpr ⟨rel, by simp⟩

theorem underB_join (root rel : Path) : underB root (root ++ '/' :: rel) = true :=
  underB_iff.mpr ⟨rel, rfl⟩

theorem keyRel_join (root rel : Path) : keyRel root (root ++ '/' :: rel) = rel := by
  have : root ++ '/' :: rel = (root ++ ['/']) ++ rel := by simp
  rw [keyRel, this]
  have hl : root.length + 1 = (root ++ ['/']).length := by simp
  rw [hl, List.drop_left]

theorem tailFrom_append (root rest : Path) : tailFrom root (root ++ rest) = rest := by
  rw [tailFrom, List.drop_left]

theorem tailFrom_join (root rel : Path) : tailFrom root (root ++ '/' :: rel) = '/' :: rel :=
  tailFrom_append root ('/' :: rel)

theorem join_inj {cwd n₁ n₂ : Path} : cwd ++ '/' :: n₁ = cwd ++ '/' :: n₂ ↔ n₁ = n₂ := by
  constructor
  · intro h
    have := List.append_cancel_left h
    simpa using this
  · intro h
    rw [h]

theorem underB_extend {a b : Path} (h : underB a b = true) (t : Path) :
    underB a (b ++ t) = true := by
  rcases underB_iff.mp h with ⟨rel, rfl⟩
  exact underB_iff.mpr ⟨rel ++ t, by simp⟩

theorem underB_trans {a b c : Path} (h1 : underB a b = true) (h2 : underB b c = true) :
    underB a c = true := by
  rcases underB_iff.mp h2 with ⟨rel, rfl⟩
  exact underB_extend h1 ('/' :: rel)

theorem appendSlash_pre {s r : Path} (h : (s ++ ['/']) <+: (r ++ ['/'])) : s <+: r := by
  have hlen : s.length + 1 ≤ r.length + 1 := by
    have := h.length_le
    simpa using this
  have hlen' : s.length ≤ r.length := Nat.le_of_succ_le_succ hlen
  have htake : s ++ ['/'] = (r ++ ['/']).take (s.length + 1) := by
    have h0 := List.prefix_iff_eq_take.mp h
    simpa using h0
  by_cases heq : s.length = r.length
  · have hfull : (r ++ ['/']).take (s.length + 1) = r ++ ['/'] := by
      have hlen2 : (r ++ ['/']).length = s.length + 1 := by simp [heq]
      rw [← hlen2, List.take_length]
    have hsr : s = r := List.append_cancel_right (htake.trans hfull)
    exact hsr ▸ List.prefix_refl s
  · have hlt : s.length + 1 ≤ r.length := by omega
    have : (r ++ ['/']).take (s.length + 1) = r.take (s.length + 1) := by
      exact List.take_append_of_le_length hlt
    rw [this] at htake
    have hpre : s ++ ['/'] <+: r := by
      rw [htake]
      exact List.take_prefix _ _
    exact (List.prefix_append s ['/']).trans hpre

theorem namePre_eq_aux :
    ∀ n₁ n₂ : Path, '/' ∉ n₁ → '/' ∉ n₂ → (n₁ ++ ['/']) <+: (n₂ ++ ['/']) → n₁ = n₂ := by
  intro n₁
  induction n₁ with
  | nil =>
    intro n₂ h₁ h₂ h
    cases n₂ with
    | nil => rfl
    | cons b t₂ =>
      exfalso
      rw [List.nil_append, List.cons_append] at h
      have hb := (List.cons_prefix_cons.mp h).1
      exact h₂ (by simp [← hb])
  | cons a t₁ ih =>
    intro n₂ h₁ h₂ h
    cases n₂ with
    | nil =>
      exfalso
      rw [List.cons_append, List.nil_append] at h
      have ha := (List.cons_prefix_cons.mp h).1
      exact h₁ (by simp [ha])
    | cons b t₂ =>
      rw [List.cons_append, List.cons_append] at h
      obtain ⟨hab, hrest⟩ := List.cons_prefix_cons.mp h
      have ht₁ : '/' ∉ t₁ := fun hx => h₁ (List.mem_cons_of_mem _ hx)
      have ht₂ : '/' ∉ t₂ := fun hx => h₂ (List.mem_cons_of_mem _ hx)
      rw [hab, ih t₂ ht₁ ht₂ hrest]

theorem namePre_eq {n₁ n₂ : Path} (h₁ : n₁.contains '/' = false)
    (h₂ : n₂.contains '/' = false) (h : (n₁ ++ ['/']) <+: (n₂ ++ ['/'])) : n₁ = n₂ :=
  namePre_eq_aux n₁ n₂ (by simpa using h₁) (by simpa using h₂) h

theorem indep_no_sPre_r {s r : Path} (hind : indepRootsB s r = true) : ¬ (s <+: r) := by
  intro hpre
  have hb := List.isPrefixOf_iff_prefix.mpr hpre
  simp [indepRootsB] at hind
  rw [hind.1] at hb
  exact Bool.false_ne_true hb

theorem indep_no_rPre_s {s r : Path} (hind : indepRootsB s r = true) : ¬ (r <+: s) := by
  intro hpre
  have hb := List.isPrefixOf_iff_prefix.mpr hpre
  simp [indepRootsB] at hind
  rw [hind.2] at hb
  exact Bool.false_ne_true hb

theorem roots_zone_disjoint {s r k : Path} (hind : indepRootsB s r = true)
    (hs : underB s k = true) (hr : underB r k = true) : False := by
  have hs' : (s ++ ['/']) <+: k := List.isPrefixOf_iff_prefix.mp hs
  have hr' : (r ++ ['/']) <+: k := List.isPrefixOf_iff_prefix.mp hr
  rcases List.prefix_or_prefix_of_prefix hs' hr' with h | h
  · exact indep_no_sPre_r hind (appendSlash_pre h)
  · exact indep_no_rPre_s hind (appendSlash_pre h)

theorem root_not_under {s r : Path} (hind : indepRootsB s r = true) :
    underB s r = false ∧ underB r s = false := by
  constructor
  · by_contra h
    have h' : underB s r = true := by simpa using h
    have h2 : (s ++ ['/']) <+: r := List.isPrefixOf_iff_prefix.mp h'
    exact indep_no_sPre_r hind ((List.prefix_append s ['/']).trans h2)
  · by_contra h
    have h' : underB r s = true := by simpa using h
    have h2 : (r ++ ['/']) <+: s := List.isPrefixOf_iff_prefix.mp h'
    exact indep_no_rPre_s hind ((List.prefix_append r ['/']).trans h2)

/-! Well-formed relative paths. -/

theorem validRelAux_false_of_noSlash {l : Path} (h : l.contains '/' = false) :
    validRelAux false l = true := by
  simp at h
  induction l with
  | nil => rfl
  | cons c t ih =>
    have hc : ¬ c = '/' := fun hx => h (by simp [hx])
    have ht : '/' ∉ t := fun hx => h (List.mem_cons_of_mem _ hx)
    simpa [validRelAux, hc] using ih ht

theorem validRelAux_false_append {n rest : Path} (h : n.contains '/' = false) :
    validRelAux false (n ++ rest) = validRelAux false rest := by
  simp at h
  induction n with
  | nil => rfl
  | cons c t ih =>
    have hc : ¬ c = '/' := fun hx => h (by simp [hx])
    have ht : '/' ∉ t := fun hx => h (List.mem_cons_of_mem _ hx)
    simpa [validRelAux, hc] using ih ht

theorem validRelB_name {n : Path} (h : validNameB n = true) : validRelB n = true := by
  simp [validNameB] at h
  obtain ⟨hne, hsl⟩ := h
  cases n with
  | nil => simp at hne
  | cons c t =>
    have hc : ¬ c = '/' := by
      intro hx
      rw [hx] at hsl
      simp [List.contains_cons] at hsl
    have ht : t.contains '/' = false := by
      simp
      exact fun hx => hsl (List.mem_cons_of_mem _ hx)
    simp [validRelB, validRelAux, hc]
    exact validRelAux_false_of_noSlash ht

theorem validRelB_join {n rest : Path} (h : validNameB n = true) :
    validRelB (n ++ '/' :: rest) = validRelB rest := by
  simp [validNameB] at h
  obtain ⟨hne, hsl⟩ := h
  cases n with
  | nil => simp at hne
  | cons c t =>
    have hc : ¬ c = '/' := by
      intro hx
      rw [hx] at hsl
      simp [List.contains_cons] at hsl
    have ht : t.contains '/' = false := by
      simp
      exact fun hx => hsl (List.mem_cons_of_mem _ hx)
    show validRelAux true (c :: (t ++ '/' :: rest)) = validRelB rest
    rw [show validRelAux true (c :: (t ++ '/' :: rest)) = validRelAux false (t ++ '/' :: rest) by
      simp [validRelAux, hc]]
    rw [validRelAux_false_append ht]
    simp [validRelAux, validRelB]

theorem validRelAux_false_decomp :
    ∀ t : Path, validRelAux false t = true →
      t.contains '/' = false ∨
        ∃ n rest, t = n ++ '/' :: rest ∧ n.contains '/' = false ∧ validRelB rest = true := by
  intro t
  induction t with
  | nil => intro _; exact Or.inl rfl
  | cons c t' ih =>
    intro h
    by_cases hc : c = '/'
    · subst hc
      simp [validRelAux] at h
      exact Or.inr ⟨[], t', by simp, rfl, h⟩
    · have h' : validRelAux false t' = true := by simpa [validRelAux, hc] using h
      rcases ih h' with h2 | ⟨n, rest, rfl, hn, hrest⟩
      · left
        simp at h2 ⊢
        exact ⟨fun hx => hc hx.symm, h2⟩
      · right
        refine ⟨c :: n, rest, by simp, ?_, hrest⟩
        simp at hn ⊢
        exact ⟨fun hx => hc hx.symm, hn⟩

theorem validRelB_decomp {rel : Path} (h : validRelB rel = true) :
    validNameB rel = true ∨
      ∃ n rest, rel = n ++ '/' :: rest ∧ validNameB n = true ∧ validRelB rest = true := by
  cases rel with
  | nil => simp [validRelB, validRelAux] at h
  | cons c t =>
    have hc : ¬ c = '/' := by
      intro hx
      rw [hx] at h
      simp [validRelB, validRelAux] at h
    have h' : validRelAux false t = true := by simpa [validRelB, validRelAux, hc] using h
    rcases validRelAux_false_decomp t h' with h2 | ⟨n, rest, rfl, hn, hrest⟩
    · left
      simp [validNameB, List.contains_cons]
      simp at h2
      constructor
      · intro hx
        exact hc hx.symm
      · simpa using h2
    · right
      refine ⟨c :: n, rest, by simp, ?_, hrest⟩
      simp [validNameB, List.contains_cons]
      constructor
      · intro hx
        exact hc hx.symm
      · simpa using hn

/-! Python `str.replace` on the paths the sync manipulates. -/

theorem replaceAllF_noOccur :
    ∀ fuel (str pat rep : Path), str.length ≤ fuel → containsSub str pat = false →
      replaceAllF fuel str pat rep = str := by
  intro fuel
  induction fuel with
  | zero => intro str pat rep _ _; rfl
  | succ f ih =>
    intro str pat rep hlen hocc
    cases str with
    | nil => rfl
    | cons c t =>
      have h2 : pat.isPrefixOf (c :: t) = false ∧ containsSub t pat = false := by
        rw [containsSub] at hocc
        exact ⟨by simpa using (Bool.or_eq_false_iff.mp hocc).1,
          (Bool.or_eq_false_iff.mp hocc).2⟩
      have hcond : ¬ (pat.isPrefixOf (c :: t) ∧ pat ≠ []) := by
        intro hx
        rw [h2.1] at hx
        exact Bool.false_ne_true hx.1
      simp only [replaceAllF, if_neg hcond]
      rw [ih t pat rep (by simpa using Nat.le_of_succ_le_succ hlen) h2.2]

theorem replaceAll_of_pre {pat rest rep : Path} (hne : pat ≠ [])
    (hocc : containsSub rest pat = false) : replaceAll (pat ++ rest) pat rep = rep ++ rest := by
  cases pat with
  | nil => exact absurd rfl hne
  | cons c pat' =>
    show replaceAllF ((c :: pat') ++ rest).length ((c :: pat') ++ rest) (c :: pat') rep
      = rep ++ rest
    have hlen : ((c :: pat') ++ rest).length = (pat' ++ rest).length + 1 := by simp
    rw [hlen]
    have hpre : (c :: pat').isPrefixOf ((c :: pat') ++ rest) = true :=
      List.isPrefixOf_iff_prefix.mpr (List.prefix_append _ _)
    have hcond : (c :: pat').isPrefixOf (c :: (pat' ++ rest)) ∧ (c :: pat') ≠ [] := by
      refine ⟨?_, by simp⟩
      have hx : (c :: pat') ++ rest = c :: (pat' ++ rest) := by simp
      rw [← hx]
      exact hpre
    show replaceAllF ((pat' ++ rest).length + 1) (c :: (pat' ++ rest)) (c :: pat') rep
      = rep ++ rest
    simp only [replaceAllF, if_pos hcond]
    have hdrop : (c :: (pat' ++ rest)).drop (c :: pat').length = rest := by
      have : c :: (pat' ++ rest) = (c :: pat') ++ rest := by simp
      rw [this, List.drop_left]
    rw [hdrop]
    rw [replaceAllF_noOccur _ rest (c :: pat') rep (by simp) hocc]

/-! `os.path.dirname` / `os.path.basename` on joined paths. -/

theorem dirnameOf_append (A rest : Path) :
    dirnameOf (A ++ '/' :: rest) =
      if rest.contains '/' = true then A ++ '/' :: dirnameOf rest else A := by
  rw [dirnameOf]
  have hrev : (A ++ '/' :: rest).reverse = rest.reverse ++ '/' :: A.reverse := by simp
  rw [hrev]
  by_cases h : rest.contains '/' = true
  · have hne : List.dropWhile (fun c => c ≠ '/') rest.reverse ≠ [] := by
      intro h0
      have hall := List.dropWhile_eq_nil_iff.mp h0
      simp at h
      have hmem : '/' ∈ rest.reverse := by simpa using h
      have := hall _ hmem
      simp at this
    rw [List.dropWhile_append, if_neg (by simpa [List.isEmpty_iff] using hne)]
    cases hdw : List.dropWhile (fun c => c ≠ '/') rest.reverse with
    | nil => exact absurd hdw hne
    | cons d dw' =>
      rw [if_pos h]
      have hd1 : ((d :: dw') ++ '/' :: A.reverse).drop 1 = dw' ++ '/' :: A.reverse := by simp
      rw [hd1]
      rw [show (dw' ++ '/' :: A.reverse).reverse = A ++ '/' :: dw'.reverse by simp]
      rw [dirnameOf, hdw]
      simp
  · have hall : List.dropWhile (fun c => c ≠ '/') rest.reverse = [] := by
      apply List.dropWhile_eq_nil_iff.mpr
      intro x hx
      simp at h ⊢
      intro hxeq
      rw [hxeq] at hx
      exact h (by simpa using hx)
    rw [List.dropWhile_append, if_pos (by rw [hall]; rfl)]
    rw [if_neg h]
    have hstep : List.dropWhile (fun c => c ≠ '/') ('/' :: A.reverse) = '/' :: A.reverse := by
      rw [List.dropWhile_cons]
      simp
    rw [hstep]
    simp

theorem basenameOf_append (A rest : Path) :
    basenameOf (A ++ '/' :: rest) =
      if rest.contains '/' = true then basenameOf rest else rest := by
  rw [basenameOf]
  have hrev : (A ++ '/' :: rest).reverse = rest.reverse ++ '/' :: A.reverse := by simp
  rw [hrev]
  by_cases h : rest.contains '/' = true
  · have hlt : (List.takeWhile (fun c => c ≠ '/') rest.reverse).length ≠ rest.reverse.length := by
      intro h0
      have heq : List.takeWhile (fun c => c ≠ '/') rest.reverse = rest.reverse :=
        List.IsPrefix.eq_of_length (List.takeWhile_prefix _) h0
      have hall := List.takeWhile_eq_self_iff.mp heq
      simp at h
      have hmem : '/' ∈ rest.reverse := by simpa using h
      have := hall _ hmem
      simp at this
    rw [List.takeWhile_append, if_neg hlt]
    rw [if_pos h, basenameOf]
  · have hall : List.takeWhile (fun c => c ≠ '/') rest.reverse = rest.reverse := by
      apply List.takeWhile_eq_self_iff.mpr
      intro x hx
      simp at h ⊢
      intro hxeq
      rw [hxeq] at hx
      exact h (by simpa using hx)
    rw [List.takeWhile_append, if_pos (by rw [hall])]
    rw [if_neg h]
    have hstep : List.takeWhile (fun c => c ≠ '/') ('/' :: A.reverse) = [] := by
      rw [List.takeWhile_cons]
      simp
    rw [hstep]
    simp

theorem validNameB_length_pos {n : Path} (h : validNameB n = true) : 0 < n.length := by
  simp [validNameB] at h
  exact List.length_pos.mpr h.1

theorem validRelB_backSplit_aux :
    ∀ N, ∀ rel : Path, rel.length ≤ N → validRelB rel = true → rel.contains '/' = true →
      ∃ rel' n, rel = rel' ++ '/' :: n ∧ validRelB rel' = true ∧ validNameB n = true ∧
        dirnameOf rel = rel' ∧ basenameOf rel = n := by
  intro N
  induction N with
  | zero =>
    intro rel hlen h _
    have : rel = [] := List.length_eq_zero.mp (Nat.le_zero.mp hlen)
    rw [this] at h
    simp [validRelB, validRelAux] at h
  | succ N ih =>
    intro rel hlen h hsl
    rcases validRelB_decomp h with hname | ⟨n0, rest, rfl, hn0, hrest⟩
    · exfalso
      simp [validNameB] at hname
      exact hname.2 (by simpa using hsl)
    · by_cases hrsl : rest.contains '/' = true
      · have hlrest : rest.length ≤ N := by
          have h1 := validNameB_length_pos hn0
          have h2 : (n0 ++ '/' :: rest).length = n0.length + 1 + rest.length := by
            simp
            omega
          omega
        obtain ⟨rel'', n, hre, hvrel'', hvn, hdn, hbn⟩ := ih rest hlrest hrest hrsl
        refine ⟨n0 ++ '/' :: rel'', n, ?_, ?_, hvn, ?_, ?_⟩
        · rw [hre]
          simp
        · rw [validRelB_join hn0]
          exact hvrel''
        · rw [dirnameOf_append, if_pos hrsl, hdn]
        · rw [basenameOf_append, if_pos hrsl, hbn]
      · have hrne : rest ≠ [] := by
          intro h0
          rw [h0] at hrest
          simp [validRelB, validRelAux] at hrest
        have hvn : validNameB rest = true := by
          simp [validNameB]
          refine ⟨hrne, by simpa using hrsl⟩
        refine ⟨n0, rest, rfl, validRelB_name hn0, hvn, ?_, ?_⟩
        · rw [dirnameOf_append, if_neg (by simpa using hrsl)]
        · rw [basenameOf_append, if_neg (by simpa using hrsl)]

theorem validRelB_backSplit {rel : Path} (h : validRelB rel = true)
    (hsl : rel.contains '/' = true) :
    ∃ rel' n, rel = rel' ++ '/' :: n ∧ validRelB rel' = true ∧ validNameB n = true ∧
      dirnameOf rel = rel' ∧ basenameOf rel = n :=
  validRelB_backSplit_aux rel.length rel (Nat.le_refl _) h hsl

/-! Child enumeration: the `os.walk` listings. -/

theorem childNameOf?_join {cwd n : Path} (h : validNameB n = true) :
    childNameOf? cwd (cwd ++ '/' :: n) = some n := by
  simp [validNameB] at h
  have hpre : (cwd ++ ['/']).isPrefixOf (cwd ++ '/' :: n) = true := by
    apply List.isPrefixOf_iff_prefix.mpr
    exact ⟨n, by simp⟩
  rw [childNameOf?, if_pos hpre]
  have hdrop : (cwd ++ '/' :: n).drop (cwd.length + 1) = n := keyRel_join cwd n
  simp only [hdrop]
  rw [if_pos]
  refine ⟨h.1, by simpa using h.2⟩

theorem childNameOf?_inv {cwd k n : Path} (h : childNameOf? cwd k = some n) :
    k = cwd ++ '/' :: n ∧ validNameB n = true := by
  rw [childNameOf?] at h
  by_cases hpre : (cwd ++ ['/']).isPrefixOf k = true
  · rw [if_pos hpre] at h
    simp only at h
    by_cases hcon : k.drop (cwd.length + 1) ≠ [] ∧ (k.drop (cwd.length + 1)).contains '/' = false
    · rw [if_pos hcon] at h
      have hn : n = k.drop (cwd.length + 1) := by
        injection h with h'
        exact h'.symm
      rcases List.isPrefixOf_iff_prefix.mp hpre with ⟨t, ht⟩
      have hk : k = cwd ++ '/' :: t := by
        rw [← ht]
        simp
      have hteq : k.drop (cwd.length + 1) = t := by
        rw [hk]
        exact keyRel_join cwd t
      have h1 : t ≠ [] := by
        rw [← hteq]
        exact hcon.1
      have h2 : t.contains '/' = false := by
        rw [← hteq]
        exact hcon.2
      constructor
      · rw [hk, hn, hteq]
      · rw [hn, hteq]
        simp [validNameB]
        exact ⟨h1, by simpa using h2⟩
    · rw [if_neg hcon] at h
      exact absurd h (by simp)
  · rw [if_neg hpre] at h
    exact absurd h (by simp)

theorem dirChildren_sound {fs : FS} {cwd n : Path} (hnd : nodupKeys fs)
    (h : n ∈ dirChildren fs cwd) :
    getNode fs (cwd ++ '/' :: n) = some Node.dir ∧ validNameB n = true := by
  rw [dirChildren] at h
  rcases List.mem_filterMap.mp h with ⟨⟨k, v⟩, hmem, hf⟩
  cases hc : childNameOf? cwd k with
  | none => rw [hc] at hf; simp at hf
  | some m =>
    rw [hc] at hf
    cases v with
    | dir =>
      simp at hf
      obtain ⟨hk, hvn⟩ := childNameOf?_inv hc
      rw [hf] at hk hvn
      exact ⟨hk ▸ mem_getNode hnd hmem, hvn⟩
    | file c t rd => simp at hf

theorem dirChildren_complete {fs : FS} {cwd n : Path}
    (h : getNode fs (cwd ++ '/' :: n) = some Node.dir) (hvn : validNameB n = true) :
    n ∈ dirChildren fs cwd := by
  rw [dirChildren]
  apply List.mem_filterMap.mpr
  refine ⟨(cwd ++ '/' :: n, Node.dir), getNode_mem h, ?_⟩
  rw [childNameOf?_join hvn]

theorem fileChildren_sound {fs : FS} {cwd n : Path} (hnd : nodupKeys fs)
    (h : n ∈ fileChildren fs cwd) :
    (∃ c t rd, getNode fs (cwd ++ '/' :: n) = some (Node.file c t rd)) ∧
      validNameB n = true := by
  rw [fileChildren] at h
  rcases List.mem_filterMap.mp h with ⟨⟨k, v⟩, hmem, hf⟩
  cases hc : childNameOf? cwd k with
  | none => rw [hc] at hf; simp at hf
  | some m =>
    rw [hc] at hf
    cases v with
    | dir => simp at hf
    | file c t rd =>
      simp at hf
      obtain ⟨hk, hvn⟩ := childNameOf?_inv hc
      rw [hf] at hk hvn
      exact ⟨⟨c, t, rd, hk ▸ mem_getNode hnd hmem⟩, hvn⟩

theorem fileChildren_complete {fs : FS} {cwd n : Path} {c : List Nat} {t : Nat} {rd : Bool}
    (h : getNode fs (cwd ++ '/' :: n) = some (Node.file c t rd)) (hvn : validNameB n = true) :
    n ∈ fileChildren fs cwd := by
  rw [fileChildren]
  apply List.mem_filterMap.mpr
  refine ⟨(cwd ++ '/' :: n, Node.file c t rd), getNode_mem h, ?_⟩
  rw [childNameOf?_join hvn]

/-- Exhaustive case analysis of one `sync_folders` call, relating its
outcome to the root checks and the two phases. -/
theorem sync_folders_cases (fuel : Nat) (source replica : Path) (fs : FS) :
    (isdirB fs source = false ∧
      sync_folders fuel source replica fs = SyncResult.valueError fs) ∨
    (isdirB fs source = true ∧ isdirB fs replica = false ∧
      sync_folders fuel source replica fs = SyncResult.valueError fs) ∨
    (isdirB fs source = true ∧ isdirB fs replica = true ∧
      ((add_files_to_replica fuel source replica fs [] = WalkRes.fuelOut ∧
          sync_folders fuel source replica fs = SyncResult.fuelOut) ∨
        (∃ fs₁ log₁, add_files_to_replica fuel source replica fs [] = WalkRes.ioErr fs₁ log₁ ∧
          sync_folders fuel source replica fs = SyncResult.ioError fs₁ log₁) ∨
        (∃ fs₁ log₁, add_files_to_replica fuel source replica fs [] = WalkRes.done fs₁ log₁ ∧
          ((remove_files_from_replica fuel source replica fs₁ log₁ = none ∧
              sync_folders fuel source replica fs = SyncResult.fuelOut) ∨
            (∃ fs₂ log₂,
              remove_files_from_replica fuel source replica fs₁ log₁ = some (fs₂, log₂) ∧
              sync_folders fuel source replica fs = SyncResult.ok fs₂ log₂))))) := by
  by_cases h1 : isdirB fs source = false
  · exact Or.inl ⟨h1, by simp [sync_folders, h1]⟩
  · have h1' : isdirB fs source = true := by simpa using h1
    by_cases h2 : isdirB fs replica = false
    · exact Or.inr (Or.inl ⟨h1', h2, by simp [sync_folders, h1, h2]⟩)
    · have h2' : isdirB fs replica = true := by simpa using h2
      refine Or.inr (Or.inr ⟨h1', h2', ?_⟩)
      cases ha : add_files_to_replica fuel source replica fs [] with
      | fuelOut => exact Or.inl ⟨rfl, by simp [sync_folders, h1, h2, ha]⟩
      | ioErr f l => exact Or.inr (Or.inl ⟨f, l, rfl, by simp [sync_folders, h1, h2, ha]⟩)
      | done f l =>
        refine Or.inr (Or.inr ⟨f, l, rfl, ?_⟩)
        cases hr : remove_files_from_replica fuel source replica f l with
        | none => exact Or.inl ⟨rfl, by simp [sync_folders, h1, h2, ha, hr]⟩
        | some st =>
          exact Or.inr ⟨st.1, st.2, by simp [hr], by simp [sync_folders, h1, h2, ha, hr]⟩

/-! Claim C10. -/

/-- Claim C10: if `sync_folders` raises `ValueError` because the source
or replica root is not an existing directory, the check happens before
any filesystem operation, so the filesystem is completely unchanged when
the exception is raised. -/
theorem C10_valueError_unchanged (fuel : Nat) (source replica : Path) (fs fs' : FS)
    (h : sync_folders fuel source replica fs = SyncResult.valueError fs') :
    fs' = fs ∧ (isdirB fs source = false ∨ isdirB fs replica = false) := by
  rcases sync_folders_cases fuel source replica fs with
    ⟨h1, he⟩ | ⟨h1, h2, he⟩ |
    ⟨h1, h2, ⟨_, he⟩ | ⟨f, l, _, he⟩ | ⟨f, l, _, ⟨_, he⟩ | ⟨f2, l2, _, he⟩⟩⟩
  · rw [he] at h
    injection h with h3
    exact ⟨h3.symm, Or.inl h1⟩
  · rw [he] at h
    injection h with h3
    exact ⟨h3.symm, Or.inr h2⟩
  all_goals (rw [he] at h; exact absurd h (by simp))

/-- Witness for C10 at a concrete input (empty filesystem: neither root
is a directory, the tick raises and the filesystem is untouched). -/
theorem C10_valueError_unchanged_witness :
    ([] : FS) = ([] : FS) ∧ (isdirB [] sR = false ∨ isdirB [] rR = false) :=
  C10_valueError_unchanged 5 sR rR [] [] (by decide)

/-! Claim C3. -/

/-- Claim C3 (code bug): the source computes the replica path with
Python `str.replace`, which substitutes *every* occurrence of the source
root string, not just the root prefix.  At source root `/s` and replica
root `/r`, the two distinct source paths `/s/s/x` and `/s/r/x` are both
mapped to `/r/r/x` — the mapping is not injective and disagrees with the
spec's rule `replica_path = replica_root + relative(path, source_root)`
(which gives `/r/s/x` for the first path). -/
theorem C3_mapping_replaceAll_bug :
    replaceAll ['/', 's', '/', 's', '/', 'x'] sR rR = ['/', 'r', '/', 'r', '/', 'x'] ∧
    replaceAll ['/', 's', '/', 'r', '/', 'x'] sR rR = ['/', 'r', '/', 'r', '/', 'x'] ∧
    specMap sR rR ['/', 's', '/', 's', '/', 'x'] = ['/', 'r', '/', 's', '/', 'x'] ∧
    replaceAll ['/', 's', '/', 's', '/', 'x'] sR rR ≠
      specMap sR rR ['/', 's', '/', 's', '/', 'x'] := by decide

/-! Claim C2. -/

/-- Counterexample for C2: on `fsC2` the replica copy of `/s/a` is
unreadable, so the md5 comparison raises.  The claim says the entry is
then treated as "not equal", a copy is attempted, and traversal
continues to `/s/b`.  Instead the tick aborts with the uncaught
`OSError`: the filesystem is unchanged (no copy of `/s/a` was attempted,
`/s/b` was never visited, nothing was removed) and the log is empty. -/
theorem C2_cex_ioError_aborts :
    sync_folders 10 sR rR fsC2 = SyncResult.ioError fsC2 [] := by decide

/-- Claim C2 as amended: when `are_same_files` fails to read either
file, the `OSError` propagates uncaught — no copy is attempted for that
entry, the file loop stops with the filesystem and log as they stand,
and an `ioError` tick outcome always originates from this abort inside
`add_files_to_replica` (the removal phase never runs). -/
theorem C2_amended_oracle_failure_aborts :
    (∀ (source replica cwd n : Path) (ns : List Path) (fs : FS) (log : Log),
      isfileB fs (replaceAll (cwd ++ '/' :: n) source replica) = true →
      are_same_files fs (cwd ++ '/' :: n) (replaceAll (cwd ++ '/' :: n) source replica) = none →
      addFiles source replica cwd (n :: ns) fs log = WalkRes.ioErr fs log) ∧
    (∀ (fuel : Nat) (source replica : Path) (fs fs' : FS) (log' : Log),
      sync_folders fuel source replica fs = SyncResult.ioError fs' log' →
      add_files_to_replica fuel source replica fs [] = WalkRes.ioErr fs' log') := by
  constructor
  · intro source replica cwd n ns fs log hfile hfail
    rw [addFiles]
    rw [show processFile source replica fs log cwd n = none by
      rw [processFile]
      simp only [hfile, if_pos]
      rw [hfail]]
  · intro fuel source replica fs fs' log' h
    rcases sync_folders_cases fuel source replica fs with
      ⟨h1, he⟩ | ⟨h1, h2, he⟩ |
      ⟨h1, h2, ⟨_, he⟩ | ⟨f, l, ha, he⟩ | ⟨f, l, ha, ⟨_, he⟩ | ⟨f2, l2, _, he⟩⟩⟩
    · rw [he] at h
      exact absurd h (by simp)
    · rw [he] at h
      exact absurd h (by simp)
    · rw [he] at h
      exact absurd h (by simp)
    · rw [he] at h
      injection h with hfs hlog
      rw [← hfs, ← hlog]
      exact ha
    · rw [he] at h
      exact absurd h (by simp)
    · rw [he] at h
      exact absurd h (by simp)

/-- Witness for the amended C2 at concrete inputs: the unreadable
replica file aborts the file loop of `fsC2` immediately, and the
`ioError` outcome of the `fsC2` tick is the add-phase abort. -/
theorem C2_amended_oracle_failure_aborts_witness :
    addFiles sR rR sR [['a'], ['b']] fsC2 [] = WalkRes.ioErr fsC2 [] ∧
    add_files_to_replica 10 sR rR fsC2 [] = WalkRes.ioErr fsC2 [] :=
  ⟨C2_amended_oracle_failure_aborts.1 sR rR sR ['a'] [['b']] fsC2 [] (by decide) (by decide),
   C2_amended_oracle_failure_aborts.2 10 sR rR fsC2 fsC2 [] (by decide)⟩

/-! Claim C6. -/

/-- Counterexample for C6: on `fsC6` the mapped replica path `/r/h` of
the source file `/s/h` exists as a *directory*, so `f'` "does not exist
as a file" and the claim requires a copy *to* `/r/h`, overwriting.
Instead `shutil.copy2` copies *into* the directory: the comparator pass
leaves `/r/h` a directory and writes `/r/h/h`. -/
theorem C6_cex_copy_into_dir :
    add_files_to_replica 10 sR rR fsC6 [] =
      WalkRes.done (fsC6 ++ [(['/', 'r', '/', 'h', '/', 'h'], Node.file [4] 9 true)])
        [Ev.copying ['/', 's', '/', 'h'] ['/', 'r', '/', 'h']] ∧
    getNode (fsC6 ++ [(['/', 'r', '/', 'h', '/', 'h'], Node.file [4] 9 true)])
      ['/', 'r', '/', 'h'] = some Node.dir := by decide

/-- Claim C6 as amended: for a file entry, when the mapped replica path
is a content-equal file nothing happens; when it is missing or a
content-unequal file a copy is attempted; and when additionally the
mapped path is not a directory and its parent directory exists, the copy
stores exactly the source's content and modification time at the mapped
path, overwriting, with the action logged. -/
theorem C6_amended_comparator :
    ∀ (source replica cwd n : Path) (ns : List Path) (fs : FS) (log : Log),
      (isfileB fs (replaceAll (cwd ++ '/' :: n) source replica) = true →
        are_same_files fs (cwd ++ '/' :: n) (replaceAll (cwd ++ '/' :: n) source replica) =
          some true →
        addFiles source replica cwd (n :: ns) fs log = addFiles source replica cwd ns fs log) ∧
      (isfileB fs (replaceAll (cwd ++ '/' :: n) source replica) = false →
        addFiles source replica cwd (n :: ns) fs log =
          addFiles source replica cwd ns
            (copyAttempt fs log (cwd ++ '/' :: n)
              (replaceAll (cwd ++ '/' :: n) source replica)).1
            (copyAttempt fs log (cwd ++ '/' :: n)
              (replaceAll (cwd ++ '/' :: n) source replica)).2) ∧
      (isfileB fs (replaceAll (cwd ++ '/' :: n) source replica) = true →
        are_same_files fs (cwd ++ '/' :: n) (replaceAll (cwd ++ '/' :: n) source replica) =
          some false →
        addFiles source replica cwd (n :: ns) fs log =
          addFiles source replica cwd ns
            (copyAttempt fs log (cwd ++ '/' :: n)
              (replaceAll (cwd ++ '/' :: n) source replica)).1
            (copyAttempt fs log (cwd ++ '/' :: n)
              (replaceAll (cwd ++ '/' :: n) source replica)).2) ∧
      (∀ (sp rp : Path) (c : List Nat) (t : Nat),
        getNode fs sp = some (Node.file c t true) → isdirB fs rp = false →
        isdirB fs (dirnameOf rp) = true →
        copyAttempt fs log sp rp =
          (setNode fs rp (Node.file c t true), log ++ [Ev.copying sp rp])) := by
  intro source replica cwd n ns fs log
  refine ⟨?_, ?_, ?_, ?_⟩
  · intro hfile heq
    rw [addFiles]
    rw [show processFile source replica fs log cwd n = some (fs, log) by
      rw [processFile]
      simp only [hfile, if_pos]
      rw [heq]]
  · intro hfile
    rw [addFiles]
    rw [show processFile source replica fs log cwd n =
        some (copyAttempt fs log (cwd ++ '/' :: n)
          (replaceAll (cwd ++ '/' :: n) source replica)) by
      rw [processFile]
      simp only [hfile]
      simp]
  · intro hfile hneq
    rw [addFiles]
    rw [show processFile source replica fs log cwd n =
        some (copyAttempt fs log (cwd ++ '/' :: n)
          (replaceAll (cwd ++ '/' :: n) source replica)) by
      rw [processFile]
      simp only [hfile, if_pos]
      rw [hneq]]
  · intro sp rp c t hsrc hnd hpar
    rw [copyAttempt]
    have hc : copy2FS fs sp rp = some (setNode fs rp (Node.file c t true)) := by
      simp [copy2FS, hnd, hsrc, parentOkB, hpar]
    rw [hc]

/-- Witness for the amended C6 on `fsW6`: the content-equal file `/s/a`
produces no action, the missing file `/s/b` produces a copy attempt, and
the copy writes content `[2]` with mtime `2` at `/r/b`. -/
theorem C6_amended_comparator_witness :
    (addFiles sR rR sR [['a'], ['b']] fsW6 [] = addFiles sR rR sR [['b']] fsW6 []) ∧
    (addFiles sR rR sR [['b']] fsW6 [] =
      addFiles sR rR sR []
        (copyAttempt fsW6 [] ['/', 's', '/', 'b'] ['/', 'r', '/', 'b']).1
        (copyAttempt fsW6 [] ['/', 's', '/', 'b'] ['/', 'r', '/', 'b']).2) ∧
    (copyAttempt fsW6 [] ['/', 's', '/', 'b'] ['/', 'r', '/', 'b'] =
      (setNode fsW6 ['/', 'r', '/', 'b'] (Node.file [2] 2 true),
        [Ev.copying ['/', 's', '/', 'b'] ['/', 'r', '/', 'b']])) := by
  refine ⟨?_, ?_, ?_⟩
  · exact (C6_amended_comparator sR rR sR ['a'] [['b']] fsW6 []).1 (by decide) (by decide)
  · have h := (C6_amended_comparator sR rR sR ['b'] [] fsW6 []).2.1 (by decide)
    simpa using h
  · have h := (C6_amended_comparator sR rR sR ['b'] [] fsW6 []).2.2.2
      ['/', 's', '/', 'b'] ['/', 'r', '/', 'b'] [2] 2 (by decide) (by decide) (by decide)
    simpa using h

/-! Claim C7. -/

/-- Counterexample for C7: on `fsC7` creating the mapped folder `/r/d`
fails (a file sits there), and the claim says all remaining replica-side
operations for that subtree are skipped this tick.  Instead the walk
descends into `/s/d` and still attempts the copy of `/s/d/x` (logging
the attempt and its own error). -/
theorem C7_cex_subtree_not_skipped :
    (sync_folders 10 sR rR fsC7).logOf.contains
      (Ev.copying ['/', 's', '/', 'd', '/', 'x'] ['/', 'r', '/', 'd', '/', 'x']) = true ∧
    (sync_folders 10 sR rR fsC7).logOf.contains (Ev.errCreating ['/', 'r', '/', 'd']) = true ∧
    (sync_folders 10 sR rR fsC7).logOf.contains
      (Ev.errCopying ['/', 's', '/', 'd', '/', 'x'] ['/', 'r', '/', 'd', '/', 'x']) = true := by
  decide

/-- Claim C7 as amended: a failed folder creation is logged as an error
and the folder loop simply moves on to the remaining entries (the
filesystem keeps whatever `os.makedirs` left); the walk still descends
into the failed subtree, where each descendant copy is attempted
individually and fails with its own logged error when its parent is not
a directory. -/
theorem C7_amended_creation_failure :
    (∀ (source replica cwd n : Path) (ns : List Path) (fs : FS) (log : Log),
      isdirB fs (replaceAll (cwd ++ '/' :: n) source replica) = false →
      (makedirsFS fs (replaceAll (cwd ++ '/' :: n) source replica)).2 = false →
      addFolders source replica cwd (n :: ns) fs log =
        addFolders source replica cwd ns
          (makedirsFS fs (replaceAll (cwd ++ '/' :: n) source replica)).1
          (log ++ [Ev.creating (replaceAll (cwd ++ '/' :: n) source replica),
            Ev.errCreating (replaceAll (cwd ++ '/' :: n) source replica)])) ∧
    (∀ (fs : FS) (log : Log) (sp rp : Path) (c : List Nat) (t : Nat),
      getNode fs sp = some (Node.file c t true) →
      isdirB fs rp = false →
      dirnameOf rp ≠ [] →
      isdirB fs (dirnameOf rp) = false →
      copyAttempt fs log sp rp = (fs, log ++ [Ev.copying sp rp, Ev.errCopying sp rp])) := by
  constructor
  · intro source replica cwd n ns fs log hnd hmk
    have hstep : processFolder source replica fs log cwd n =
        ((makedirsFS fs (replaceAll (cwd ++ '/' :: n) source replica)).1,
          log ++ [Ev.creating (replaceAll (cwd ++ '/' :: n) source replica),
            Ev.errCreating (replaceAll (cwd ++ '/' :: n) source replica)]) := by
      rw [processFolder]
      simp only [hnd, Bool.false_eq_true, if_false]
      have : makedirsFS fs (replaceAll (cwd ++ '/' :: n) source replica) =
          ((makedirsFS fs (replaceAll (cwd ++ '/' :: n) source replica)).1, false) := by
        rw [← hmk]
      rw [this]
    rw [addFolders, List.foldl_cons, hstep]
    rfl
  · intro fs log sp rp c t hsrc hnd hdn hpar
    have hc : copy2FS fs sp rp = none := by
      simp [copy2FS, hnd, hsrc, parentOkB, hpar, hdn]
    rw [copyAttempt, hc]
    simp

/-- Witness for the amended C7 on `fsC7`: the failed creation of `/r/d`
is logged and the loop continues; the descendant copy attempt of
`/s/d/x` fails with its own error. -/
theorem C7_amended_creation_failure_witness :
    (addFolders sR rR sR [['d']] fsC7 [] =
      addFolders sR rR sR [] fsC7
        [Ev.creating ['/', 'r', '/', 'd'], Ev.errCreating ['/', 'r', '/', 'd']]) ∧
    (copyAttempt fsC7 [] ['/', 's', '/', 'd', '/', 'x'] ['/', 'r', '/', 'd', '/', 'x'] =
      (fsC7, [Ev.copying ['/', 's', '/', 'd', '/', 'x'] ['/', 'r', '/', 'd', '/', 'x'],
        Ev.errCopying ['/', 's', '/', 'd', '/', 'x'] ['/', 'r', '/', 'd', '/', 'x']])) := by
  constructor
  · have h := C7_amended_creation_failure.1 sR rR sR ['d'] [] fsC7 [] (by decide) (by decide)
    simpa using h
  · have h := C7_amended_creation_failure.2 fsC7 []
      ['/', 's', '/', 'd', '/', 'x'] ['/', 'r', '/', 'd', '/', 'x'] [9] 1
      (by decide) (by decide) (by decide) (by decide)
    simpa using h

/-! Counterexamples for C1, C4 and C8 (their amended statements follow
from the phase analyses further below). -/

/-- Counterexample for C1: on `fsC1` (source file `/s/f`, replica
*directory* `/r/f`) a tick completes with no per-entry error, yet the
replica does not match the source: the copy went *into* the directory,
the pruner then removed the directory together with the fresh copy, and
the converged state lacks `/r/f` entirely. -/
theorem C1_cex_not_convergent :
    sync_folders 10 sR rR fsC1 =
      SyncResult.ok
        [(['/', 's'], Node.dir), (['/', 's', '/', 'f'], Node.file [1] 1 true),
          (['/', 'r'], Node.dir)]
        [Ev.copying ['/', 's', '/', 'f'] ['/', 'r', '/', 'f'],
          Ev.removingDir ['/', 'r', '/', 'f']] ∧
    noErrorsB [Ev.copying ['/', 's', '/', 'f'] ['/', 'r', '/', 'f'],
      Ev.removingDir ['/', 'r', '/', 'f']] = true ∧
    mirrorsB [(['/', 's'], Node.dir), (['/', 's', '/', 'f'], Node.file [1] 1 true),
      (['/', 'r'], Node.dir)] sR rR = false := by decide

/-- Counterexample for C4: on `fsC4` (source file `/s/g`, replica
directory `/r/g`) two back-to-back ticks both complete, and the second
tick still performs an action (it copies `/s/g`, which the first tick's
pruner had removed together with the conflicting directory). -/
theorem C4_cex_second_run_acts :
    (sync_folders 10 sR rR fsC4).isOk = true ∧
    (sync_folders 10 sR rR (sync_folders 10 sR rR fsC4).fsOf).isOk = true ∧
    (sync_folders 10 sR rR (sync_folders 10 sR rR fsC4).fsOf).logOf ≠ [] := by decide

/-- Counterexample for C8: with the source root `/r/s` sitting inside
the replica root `/r` (both are valid existing directories), a tick
completes and *deletes the whole source tree*: the pruner inverse-maps
`/r/s` to `/r/s/s`, finds no directory there, and removes `/r/s`. -/
theorem C8_cex_source_mutated :
    (sync_folders 10 ['/', 'r', '/', 's'] rR fsC8).isOk = true ∧
    getNode (sync_folders 10 ['/', 'r', '/', 's'] rR fsC8).fsOf ['/', 'r', '/', 's'] = none ∧
    getNode fsC8 ['/', 'r', '/', 's'] = some Node.dir := by decide

/-! Effect shape of the two phases: the additive phase only creates or
overwrites entries, the removal phase only deletes them. -/

theorem keysMono_refl (fs : FS) : keysMono fs fs := fun q v h => ⟨v, h⟩

theorem keysMono_trans {a b c : FS} (h1 : keysMono a b) (h2 : keysMono b c) : keysMono a c := by
  intro q v h
  rcases h1 q v h with ⟨v', h'⟩
  exact h2 q v' h'

theorem keysMono_setNode (fs : FS) (p : Path) (n : Node) : keysMono fs (setNode fs p n) := by
  intro q v h
  by_cases hq : q = p
  · exact ⟨n, hq ▸ getNode_setNode_self fs p n⟩
  · exact ⟨v, (getNode_setNode_ne fs p q n hq).trans h⟩

theorem makedirsF_mono : ∀ (fuel : Nat) (fs : FS) (p : Path),
    keysMono fs (makedirsF fuel fs p).1 := by
  intro fuel
  induction fuel with
  | zero => intro fs p; exact keysMono_refl fs
  | succ fuel ih =>
    intro fs p
    have hbody : makedirsF (fuel + 1) fs p =
        (match (if dirnameOf p ≠ [] ∧ getNode fs (dirnameOf p) = none
            then makedirsF fuel fs (dirnameOf p) else (fs, true)) with
          | (fs₁, true) =>
            if getNode fs₁ p = none ∧ (dirnameOf p = [] ∨ isdirB fs₁ (dirnameOf p)) then
              (setNode fs₁ p Node.dir, true)
            else (fs₁, false)
          | (fs₁, false) => (fs₁, false)) := rfl
    cases hst : (if dirnameOf p ≠ [] ∧ getNode fs (dirnameOf p) = none
        then makedirsF fuel fs (dirnameOf p) else (fs, true)) with
    | mk fs₁ ok =>
      have hmono1 : keysMono fs fs₁ := by
        by_cases hc : dirnameOf p ≠ [] ∧ getNode fs (dirnameOf p) = none
        · rw [if_pos hc] at hst
          have h2 := ih fs (dirnameOf p)
          rw [hst] at h2
          exact h2
        · rw [if_neg hc] at hst
          injection hst with h1 h2
          rw [← h1]
          exact keysMono_refl fs
      rw [hbody, hst]
      cases ok with
      | true =>
        by_cases hc2 : getNode fs₁ p = none ∧ (dirnameOf p = [] ∨ isdirB fs₁ (dirnameOf p) = true)
        · simpa [hc2] using keysMono_trans hmono1 (keysMono_setNode fs₁ p Node.dir)
        · simpa [hc2] using hmono1
      | false => simpa using hmono1

theorem makedirsFS_mono (fs : FS) (p : Path) : keysMono fs (makedirsFS fs p).1 :=
  makedirsF_mono p.length fs p

theorem copy2FS_eq_of_src {fs : FS} {sp rp : Path} {c : List Nat} {t : Nat}
    (hsrc : getNode fs sp = some (Node.file c t true)) :
    copy2FS fs sp rp =
      (if isdirB fs (if isdirB fs rp = true then rp ++ '/' :: basenameOf sp else rp) = true
        then none
        else
          if parentOkB fs (if isdirB fs rp = true then rp ++ '/' :: basenameOf sp else rp) = true
          then some (setNode fs (if isdirB fs rp = true then rp ++ '/' :: basenameOf sp else rp)
            (Node.file c t true))
          else none) := by
  simp only [copy2FS, hsrc]

theorem copy2FS_none_of_src {fs : FS} {sp rp : Path}
    (hsrc : ∀ c t, getNode fs sp ≠ some (Node.file c t true)) : copy2FS fs sp rp = none := by
  simp only [copy2FS]

theorem walkRes_done_ne_ioErr {f : FS} {l : Log} {f' : FS} {l' : Log} :
    WalkRes.ioErr f l ≠ WalkRes.done f' l' := by simp

theorem copy2FS_some_inv {fs : FS} {sp rp : Path} {fs' : FS} (h : copy2FS fs sp rp = some fs') :
    ∃ c t, getNode fs sp = some (Node.file c t true) ∧
      ((isdirB fs rp = false ∧ parentOkB fs rp = true ∧
          fs' = setNode fs rp (Node.file c t true)) ∨
        (isdirB fs rp = true ∧ isdirB fs (rp ++ '/' :: basenameOf sp) = false ∧
          parentOkB fs (rp ++ '/' :: basenameOf sp) = true ∧
          fs' = setNode fs (rp ++ '/' :: basenameOf sp) (Node.file c t true))) := by
  have hsrc : ∃ c t, getNode fs sp = some (Node.file c t true) := by
    by_contra hno
    push_neg at hno
    rw [copy2FS_none_of_src hno] at h
    exact absurd h (by simp)
  obtain ⟨c, t, hsrc⟩ := hsrc
  refine ⟨c, t, hsrc, ?_⟩
  rw [copy2FS_eq_of_src hsrc] at h
  by_cases hd : isdirB fs rp = true
  · rw [if_pos hd] at h
    by_cases h2 : isdirB fs (rp ++ '/' :: basenameOf sp) = true
    · rw [if_pos h2] at h
      exact absurd h (by simp)
    · rw [if_neg h2] at h
      by_cases h3 : parentOkB fs (rp ++ '/' :: basenameOf sp) = true
      · rw [if_pos h3] at h
        injection h with h4
        exact Or.inr ⟨hd, by simpa using h2, h3, h4.symm⟩
      · rw [if_neg h3] at h
        exact absurd h (by simp)
  · rw [if_neg hd] at h
    by_cases h2 : isdirB fs rp = true
    · exact absurd h2 hd
    · rw [if_neg h2] at h
      by_cases h3 : parentOkB fs rp = true
      · rw [if_pos h3] at h
        injection h with h4
        exact Or.inl ⟨by simpa using hd, h3, h4.symm⟩
      · rw [if_neg h3] at h
        exact absurd h (by simp)

theorem copy2FS_mono {fs : FS} {sp rp : Path} {fs' : FS} (h : copy2FS fs sp rp = some fs') :
    keysMono fs fs' := by
  rcases copy2FS_some_inv h with ⟨c, t, hsrc, ⟨_, _, rfl⟩ | ⟨_, _, _, rfl⟩⟩ <;>
    exact keysMono_setNode _ _ _

theorem copyAttempt_mono (fs : FS) (log : Log) (sp rp : Path) :
    keysMono fs (copyAttempt fs log sp rp).1 := by
  have hbody : copyAttempt fs log sp rp =
      (match copy2FS fs sp rp with
        | some fs' => (fs', log ++ [Ev.copying sp rp])
        | none => (fs, (log ++ [Ev.copying sp rp]) ++ [Ev.errCopying sp rp])) := rfl
  cases hc : copy2FS fs sp rp with
  | none => rw [hbody, hc]; exact keysMono_refl fs
  | some f => rw [hbody, hc]; exact copy2FS_mono hc

theorem processFolder_mono (source replica : Path) (fs : FS) (log : Log) (cwd n : Path) :
    keysMono fs (processFolder source replica fs log cwd n).1 := by
  rw [processFolder]
  by_cases hc : isdirB fs (replaceAll (cwd ++ '/' :: n) source replica) = true
  · simp only [hc, if_true]
    exact keysMono_refl fs
  · simp only [hc, Bool.false_eq_true, if_false]
    cases hmk : makedirsFS fs (replaceAll (cwd ++ '/' :: n) source replica) with
    | mk f ok =>
      have h2 := makedirsFS_mono fs (replaceAll (cwd ++ '/' :: n) source replica)
      rw [hmk] at h2
      cases ok <;> simpa using h2

theorem addFolders_mono (source replica cwd : Path) :
    ∀ (folders : List Path) (fs : FS) (log : Log),
      keysMono fs (addFolders source replica cwd folders fs log).1 := by
  intro folders
  induction folders with
  | nil => intro fs log; exact keysMono_refl fs
  | cons n ns ih =>
    intro fs log
    rw [addFolders, List.foldl_cons]
    cases hp : processFolder source replica fs log cwd n with
    | mk f l =>
      have h1 := processFolder_mono source replica fs log cwd n
      rw [hp] at h1
      have h2 := ih f l
      rw [addFolders] at h2
      exact keysMono_trans h1 h2

theorem processFile_mono {source replica : Path} {fs : FS} {log : Log} {cwd n : Path}
    {fs' : FS} {log' : Log} (h : processFile source replica fs log cwd n = some (fs', log')) :
    keysMono fs fs' := by
  rw [processFile] at h
  split at h
  · split at h
    · simp at h
    · injection h with h2
      have h3 := congrArg Prod.fst h2
      simp at h3
      rw [← h3]
      exact keysMono_refl fs
    · injection h with h2
      have h3 := congrArg Prod.fst h2
      simp at h3
      rw [← h3]
      exact copyAttempt_mono fs log _ _
  · injection h with h2
    have h3 := congrArg Prod.fst h2
    simp at h3
    rw [← h3]
    exact copyAttempt_mono fs log _ _

theorem addFiles_mono (source replica cwd : Path) :
    ∀ (files : List Path) (fs : FS) (log : Log) (fs' : FS) (log' : Log),
      (addFiles source replica cwd files fs log = WalkRes.done fs' log' ∨
        addFiles source replica cwd files fs log = WalkRes.ioErr fs' log') →
      keysMono fs fs' := by
  intro files
  induction files with
  | nil =>
    intro fs log fs' log' h
    rcases h with h | h <;> rw [addFiles] at h
    · injection h with h1 h2
      rw [← h1]
      exact keysMono_refl fs
    · simp at h
  | cons n ns ih =>
    intro fs log fs' log' h
    rcases h with h | h <;> rw [addFiles] at h <;>
      (cases hp : processFile source replica fs log cwd n with
        | none =>
          rw [hp] at h
          first
            | (injection h with h1 h2; rw [← h1]; exact keysMono_refl fs)
            | simp at h
        | some st =>
          rw [hp] at h
          have h1 : keysMono fs st.1 := processFile_mono (by rw [hp])
          have h2 := ih st.1 st.2 fs' log' (by
            first
              | exact Or.inl h
              | exact Or.inr h)
          exact keysMono_trans h1 h2)

theorem runChildren_mono (walk : Path → FS → Log → WalkRes)
    (hwalk : ∀ cwd' fs log fs' log',
      (walk cwd' fs log = WalkRes.done fs' log' ∨ walk cwd' fs log = WalkRes.ioErr fs' log') →
      keysMono fs fs') :
    ∀ (ns : List Path) (cwd : Path) (fs : FS) (log : Log) (fs' : FS) (log' : Log),
      (runChildren walk cwd ns fs log = WalkRes.done fs' log' ∨
        runChildren walk cwd ns fs log = WalkRes.ioErr fs' log') →
      keysMono fs fs' := by
  intro ns
  induction ns with
  | nil =>
    intro cwd fs log fs' log' h
    rcases h with h | h <;> rw [runChildren] at h
    · injection h with h1 h2
      rw [← h1]
      exact keysMono_refl fs
    · simp at h
  | cons n ns ih =>
    intro cwd fs log fs' log' h
    rcases h with h | h <;> rw [runChildren] at h
    · cases hw : walk (cwd ++ '/' :: n) fs log with
      | done f l =>
        rw [hw] at h
        exact keysMono_trans (hwalk _ _ _ _ _ (Or.inl hw)) (ih cwd f l fs' log' (Or.inl h))
      | ioErr f l =>
        rw [hw] at h
        exact absurd (show WalkRes.ioErr f l = WalkRes.done fs' log' from h)
          walkRes_done_ne_ioErr
      | fuelOut =>
        rw [hw] at h
        exact absurd (show WalkRes.fuelOut = WalkRes.done fs' log' from h) (by simp)
    · cases hw : walk (cwd ++ '/' :: n) fs log with
      | done f l =>
        rw [hw] at h
        exact keysMono_trans (hwalk _ _ _ _ _ (Or.inl hw)) (ih cwd f l fs' log' (Or.inr h))
      | ioErr f l =>
        rw [hw] at h
        have h' : WalkRes.ioErr f l = WalkRes.ioErr fs' log' := h
        injection h' with h1 h2
        rw [← h1]
        exact hwalk _ _ _ _ _ (Or.inr hw)
      | fuelOut =>
        rw [hw] at h
        exact absurd (show WalkRes.fuelOut = WalkRes.ioErr fs' log' from h) (by simp)

theorem addWalk_mono (source replica : Path) :
    ∀ (fuel : Nat) (cwd : Path) (fs : FS) (log : Log) (fs' : FS) (log' : Log),
      (addWalk source replica fuel cwd fs log = WalkRes.done fs' log' ∨
        addWalk source replica fuel cwd fs log = WalkRes.ioErr fs' log') →
      keysMono fs fs' := by
  intro fuel
  induction fuel with
  | zero =>
    intro cwd fs log fs' log' h
    rcases h with h | h <;> (rw [addWalk] at h; simp at h)
  | succ fuel ih =>
    intro cwd fs log fs' log' h
    have hbody : addWalk source replica (fuel + 1) cwd fs log =
        (if isdirB fs cwd then
          match addFiles source replica cwd (fileChildren fs cwd)
              (addFolders source replica cwd (dirChildren fs cwd) fs log).1
              (addFolders source replica cwd (dirChildren fs cwd) fs log).2 with
          | WalkRes.done fs2 log2 =>
            runChildren (addWalk source replica fuel) cwd (dirChildren fs cwd) fs2 log2
          | e => e
        else WalkRes.done fs log) := rfl
    rw [hbody] at h
    by_cases hdir : isdirB fs cwd = true
    · rw [if_pos hdir] at h
      have hm1 := addFolders_mono source replica cwd (dirChildren fs cwd) fs log
      cases ha : addFiles source replica cwd (fileChildren fs cwd)
          (addFolders source replica cwd (dirChildren fs cwd) fs log).1
          (addFolders source replica cwd (dirChildren fs cwd) fs log).2 with
      | done f2 l2 =>
        rw [ha] at h
        have hm2 : keysMono (addFolders source replica cwd (dirChildren fs cwd) fs log).1 f2 :=
          addFiles_mono source replica cwd _ _ _ _ _ (Or.inl ha)
        have hm3 : keysMono f2 fs' :=
          runChildren_mono (addWalk source replica fuel)
            (fun cwd' fs0 log0 fs1 log1 hh => ih cwd' fs0 log0 fs1 log1 hh)
            (dirChildren fs cwd) cwd f2 l2 fs' log' h
        exact keysMono_trans (keysMono_trans hm1 hm2) hm3
      | ioErr f2 l2 =>
        rw [ha] at h
        have hm2 : keysMono (addFolders source replica cwd (dirChildren fs cwd) fs log).1 f2 :=
          addFiles_mono source replica cwd _ _ _ _ _ (Or.inr ha)
        rcases h with h | h
        · simp at h
        · injection h with h1 h2
          rw [← h1]
          exact keysMono_trans hm1 hm2
      | fuelOut =>
        rw [ha] at h
        rcases h with h | h <;> simp at h
    · rw [if_neg hdir] at h
      rcases h with h | h
      · injection h with h1 h2
        rw [← h1]
        exact keysMono_refl fs
      · simp at h

theorem submapOf_refl (fs : FS) : submapOf fs fs := fun _ _ h => h

theorem submapOf_trans {a b c : FS} (h1 : submapOf a b) (h2 : submapOf b c) : submapOf a c :=
  fun q v h => h2 q v (h1 q v h)

theorem getNode_rmtree_filter (fs : FS) (p q : Path) :
    getNode (fs.filter fun kv => ¬ (kv.1 = p ∨ underB p kv.1 = true)) q =
      if q = p ∨ underB p q = true then none else getNode fs q := by
  induction fs with
  | nil => by_cases h : q = p ∨ underB p q = true <;> simp [getNode, h]
  | cons kv t ih =>
    obtain ⟨k, m⟩ := kv
    by_cases hk : k = p ∨ underB p k = true
    · rw [show List.filter (fun kv => decide ¬(kv.1 = p ∨ underB p kv.1 = true)) ((k, m) :: t) =
          List.filter (fun kv => decide ¬(kv.1 = p ∨ underB p kv.1 = true)) t by
        simp [List.filter, hk]]
      rw [ih]
      by_cases hq : q = p ∨ underB p q = true
      · rw [if_pos hq, if_pos hq]
      · rw [if_neg hq, if_neg hq]
        have hqk : q ≠ k := by
          intro hx
          rw [hx] at hq
          exact hq hk
        simp [getNode, hqk]
    · rw [show List.filter (fun kv => decide ¬(kv.1 = p ∨ underB p kv.1 = true)) ((k, m) :: t) =
          (k, m) :: List.filter (fun kv => decide ¬(kv.1 = p ∨ underB p kv.1 = true)) t by
        simp [List.filter, hk]]
      by_cases hq : q = k
      · subst hq
        have hqc : ¬ (q = p ∨ underB p q = true) := hk
        simp [getNode, hqc]
      · simp only [getNode, if_neg hq]
        rw [ih]

theorem getNode_osRemove_filter (fs : FS) (p q : Path) :
    getNode (fs.filter fun kv => kv.1 ≠ p) q = if q = p then none else getNode fs q := by
  induction fs with
  | nil => by_cases h : q = p <;> simp [getNode, h]
  | cons kv t ih =>
    obtain ⟨k, m⟩ := kv
    by_cases hk : k = p
    · rw [show List.filter (fun kv => decide (kv.1 ≠ p)) ((k, m) :: t) =
          List.filter (fun kv => decide (kv.1 ≠ p)) t by simp [List.filter, hk]]
      rw [ih]
      by_cases hq : q = p
      · rw [if_pos hq, if_pos hq]
      · rw [if_neg hq, if_neg hq]
        have hqk : q ≠ k := by
          intro hx
          rw [hx, hk] at hq
          exact hq rfl
        simp [getNode, hqk]
    · rw [show List.filter (fun kv => decide (kv.1 ≠ p)) ((k, m) :: t) =
          (k, m) :: List.filter (fun kv => decide (kv.1 ≠ p)) t by simp [List.filter, hk]]
      by_cases hq : q = k
      · subst hq
        have hqp : ¬ q = p := hk
        simp [getNode, hqp]
      · simp only [getNode, if_neg hq]
        rw [ih]

theorem rmtreeFS_some_inv {fs : FS} {p : Path} {fs' : FS} (h : rmtreeFS fs p = some fs') :
    isdirB fs p = true ∧
      ∀ q, getNode fs' q = if q = p ∨ underB p q = true then none else getNode fs q := by
  rw [rmtreeFS] at h
  by_cases hd : isdirB fs p = true
  · rw [if_pos hd] at h
    injection h with h2
    refine ⟨hd, fun q => ?_⟩
    rw [← h2]
    exact getNode_rmtree_filter fs p q
  · rw [if_neg hd] at h
    exact absurd h (by simp)

theorem osRemoveFS_some_inv {fs : FS} {p : Path} {fs' : FS} (h : osRemoveFS fs p = some fs') :
    isfileB fs p = true ∧ ∀ q, getNode fs' q = if q = p then none else getNode fs q := by
  rw [osRemoveFS] at h
  by_cases hd : isfileB fs p = true
  · rw [if_pos hd] at h
    injection h with h2
    refine ⟨hd, fun q => ?_⟩
    rw [← h2]
    exact getNode_osRemove_filter fs p q
  · rw [if_neg hd] at h
    exact absurd h (by simp)

theorem processRmFolder_sub (source replica : Path) (fs : FS) (log : Log) (cwd n : Path) :
    submapOf (processRmFolder source replica fs log cwd n).1 fs := by
  rw [processRmFolder]
  by_cases hc : isdirB fs (replaceAll (cwd ++ '/' :: n) replica source) = true
  · simp only [hc, if_true]
    exact submapOf_refl fs
  · simp only [hc, Bool.false_eq_true, if_false]
    cases hr : rmtreeFS fs (cwd ++ '/' :: n) with
    | none => exact submapOf_refl fs
    | some f =>
      intro q v hv
      have h2 := (rmtreeFS_some_inv hr).2 q
      simp only at hv
      rw [h2] at hv
      by_cases hq : q = cwd ++ '/' :: n ∨ underB (cwd ++ '/' :: n) q = true
      · rw [if_pos hq] at hv
        exact absurd hv (by simp)
      · rw [if_neg hq] at hv
        exact hv

theorem processRmFile_sub (source replica : Path) (fs : FS) (log : Log) (cwd n : Path) :
    submapOf (processRmFile source replica fs log cwd n).1 fs := by
  rw [processRmFile]
  by_cases hc : isfileB fs (replaceAll (cwd ++ '/' :: n) replica source) = true
  · simp only [hc, if_true]
    exact submapOf_refl fs
  · simp only [hc, Bool.false_eq_true, if_false]
    cases hr : osRemoveFS fs (cwd ++ '/' :: n) with
    | none => exact submapOf_refl fs
    | some f =>
      intro q v hv
      have h2 := (osRemoveFS_some_inv hr).2 q
      simp only at hv
      rw [h2] at hv
      by_cases hq : q = cwd ++ '/' :: n
      · rw [if_pos hq] at hv
        exact absurd hv (by simp)
      · rw [if_neg hq] at hv
        exact hv

theorem removeFolders_sub (source replica cwd : Path) :
    ∀ (folders : List Path) (fs : FS) (log : Log),
      submapOf (removeFolders source replica cwd folders fs log).1 fs := by
  intro folders
  induction folders with
  | nil => intro fs log; exact submapOf_refl fs
  | cons n ns ih =>
    intro fs log
    rw [removeFolders, List.foldl_cons]
    cases hp : processRmFolder source replica fs log cwd n with
    | mk f l =>
      have h1 := processRmFolder_sub source replica fs log cwd n
      rw [hp] at h1
      have h2 := ih f l
      rw [removeFolders] at h2
      exact submapOf_trans h2 h1

theorem removeFiles_sub (source replica cwd : Path) :
    ∀ (files : List Path) (fs : FS) (log : Log),
      submapOf (removeFiles source replica cwd files fs log).1 fs := by
  intro files
  induction files with
  | nil => intro fs log; exact submapOf_refl fs
  | cons n ns ih =>
    intro fs log
    rw [removeFiles, List.foldl_cons]
    cases hp : processRmFile source replica fs log cwd n with
    | mk f l =>
      have h1 := processRmFile_sub source replica fs log cwd n
      rw [hp] at h1
      have h2 := ih f l
      rw [removeFiles] at h2
      exact submapOf_trans h2 h1

theorem rmChildren_sub (walk : Path → FS → Log → Option (FS × Log))
    (hwalk : ∀ cwd' fs log fs' log', walk cwd' fs log = some (fs', log') → submapOf fs' fs) :
    ∀ (ns : List Path) (cwd : Path) (fs : FS) (log : Log) (fs' : FS) (log' : Log),
      rmChildren walk cwd ns fs log = some (fs', log') → submapOf fs' fs := by
  intro ns
  induction ns with
  | nil =>
    intro cwd fs log fs' log' h
    rw [rmChildren] at h
    injection h with h2
    rw [show fs' = fs from (congrArg Prod.fst h2).symm.trans rfl]
    exact submapOf_refl fs
  | cons n ns ih =>
    intro cwd fs log fs' log' h
    rw [rmChildren] at h
    cases hw : walk (cwd ++ '/' :: n) fs log with
    | none =>
      rw [hw] at h
      exact absurd h (by simp)
    | some st =>
      rw [hw] at h
      have h1 : submapOf st.1 fs := hwalk _ _ _ _ _ (by rw [hw])
      exact submapOf_trans (ih cwd st.1 st.2 fs' log' h) h1

theorem removeWalk_sub (source replica : Path) :
    ∀ (fuel : Nat) (cwd : Path) (fs : FS) (log : Log) (fs' : FS) (log' : Log),
      removeWalk source replica fuel cwd fs log = some (fs', log') → submapOf fs' fs := by
  intro fuel
  induction fuel with
  | zero =>
    intro cwd fs log fs' log' h
    rw [removeWalk] at h
    exact absurd h (by simp)
  | succ fuel ih =>
    intro cwd fs log fs' log' h
    have hbody : removeWalk source replica (fuel + 1) cwd fs log =
        (if isdirB fs cwd then
          rmChildren (removeWalk source replica fuel) cwd (dirChildren fs cwd)
            (removeFiles source replica cwd (fileChildren fs cwd)
              (removeFolders source replica cwd (dirChildren fs cwd) fs log).1
              (removeFolders source replica cwd (dirChildren fs cwd) fs log).2).1
            (removeFiles source replica cwd (fileChildren fs cwd)
              (removeFolders source replica cwd (dirChildren fs cwd) fs log).1
              (removeFolders source replica cwd (dirChildren fs cwd) fs log).2).2
        else some (fs, log)) := rfl
    rw [hbody] at h
    by_cases hdir : isdirB fs cwd = true
    · rw [if_pos hdir] at h
      have h1 := removeFolders_sub source replica cwd (dirChildren fs cwd) fs log
      have h2 := removeFiles_sub source replica cwd (fileChildren fs cwd)
        (removeFolders source replica cwd (dirChildren fs cwd) fs log).1
        (removeFolders source replica cwd (dirChildren fs cwd) fs log).2
      have h3 := rmChildren_sub (removeWalk source replica fuel)
        (fun cwd' fs0 log0 fs1 log1 hh => ih cwd' fs0 log0 fs1 log1 hh)
        (dirChildren fs cwd) cwd _ _ fs' log' h
      exact submapOf_trans (submapOf_trans h3 h2) h1
    · rw [if_neg hdir] at h
      injection h with h2
      rw [show fs' = fs from (congrArg Prod.fst h2).symm.trans rfl]
      exact submapOf_refl fs

/-! Claim C9. -/

/-- Claim C9: phase separation of effects — `add_files_to_replica` only
creates directories and copies files and never removes a replica entry
(every key present before is present after, whether the phase completes
or aborts on an uncaught oracle error), while `remove_files_from_replica`
only removes entries and never creates a directory or writes file content
(its result is a value-preserving restriction of its input). -/
theorem C9_phase_separation :
    (∀ (fuel : Nat) (source replica : Path) (fs : FS) (log : Log) (fs' : FS) (log' : Log),
      (add_files_to_replica fuel source replica fs log = WalkRes.done fs' log' ∨
        add_files_to_replica fuel source replica fs log = WalkRes.ioErr fs' log') →
      keysMono fs fs') ∧
    (∀ (fuel : Nat) (source replica : Path) (fs : FS) (log : Log) (fs' : FS) (log' : Log),
      remove_files_from_replica fuel source replica fs log = some (fs', log') →
      submapOf fs' fs) := by
  constructor
  · intro fuel source replica fs log fs' log' h
    exact addWalk_mono source replica fuel source fs log fs' log' h
  · intro fuel source replica fs log fs' log' h
    exact removeWalk_sub source replica fuel replica fs log fs' log' h

/-- Witness for C9 at concrete runs: the additive pass on `fsW6` only
adds (`/r/b` appears, nothing disappears), and the removal pass on
`fsC1` only removes (the orphaned `/r/f` subtree). -/
theorem C9_phase_separation_witness :
    keysMono fsW6
      [(['/', 's'], Node.dir), (['/', 's', '/', 'a'], Node.file [1] 1 true),
        (['/', 's', '/', 'b'], Node.file [2] 2 true),
        (['/', 'r'], Node.dir), (['/', 'r', '/', 'a'], Node.file [1] 7 true),
        (['/', 'r', '/', 'b'], Node.file [2] 2 true)] ∧
    submapOf
      [(['/', 's'], Node.dir), (['/', 's', '/', 'f'], Node.file [1] 1 true),
        (['/', 'r'], Node.dir)] fsC1 :=
  ⟨C9_phase_separation.1 10 sR rR fsW6 [] _ [Ev.copying ['/', 's', '/', 'b'] ['/', 'r', '/', 'b']]
      (Or.inl (by decide)),
    C9_phase_separation.2 10 sR rR fsC1 [] _ [Ev.removingDir ['/', 'r', '/', 'f']] (by decide)⟩

/-! Sibling subtrees of one directory are disjoint. -/

theorem pre_append_cancel {l a b : Path} (h : (l ++ a) <+: (l ++ b)) : a <+: b := by
  rcases h with ⟨t, ht⟩
  rw [List.append_assoc] at ht
  exact ⟨t, List.append_cancel_left ht⟩

theorem inSub_slashPre {base q : Path} (h : q = base ∨ underB base q = true) :
    (base ++ ['/']) <+: (q ++ ['/']) := by
  rcases h with rfl | h
  · exact List.prefix_refl _
  · have h2 : (base ++ ['/']) <+: q := List.isPrefixOf_iff_prefix.mp h
    exact h2.trans (List.prefix_append q ['/'])

theorem sibling_zones_disjoint {cwd n m q : Path} (hn : validNameB n = true)
    (hm : validNameB m = true) (hne : n ≠ m)
    (hq1 : q = cwd ++ '/' :: n ∨ underB (cwd ++ '/' :: n) q = true)
    (hq2 : q = cwd ++ '/' :: m ∨ underB (cwd ++ '/' :: m) q = true) : False := by
  have hnc : n.contains '/' = false := by
    simp [validNameB] at hn
    simpa using hn.2
  have hmc : m.contains '/' = false := by
    simp [validNameB] at hm
    simpa using hm.2
  have h1 := inSub_slashPre hq1
  have h2 := inSub_slashPre hq2
  rcases List.prefix_or_prefix_of_prefix h1 h2 with h3 | h3
  · have h4 : (n ++ ['/']) <+: (m ++ ['/']) := by
      apply pre_append_cancel (l := cwd ++ ['/'])
      have e1 : (cwd ++ ['/']) ++ (n ++ ['/']) = (cwd ++ '/' :: n) ++ ['/'] := by simp
      have e2 : (cwd ++ ['/']) ++ (m ++ ['/']) = (cwd ++ '/' :: m) ++ ['/'] := by simp
      rw [e1, e2]
      exact h3
    exact hne (namePre_eq hnc hmc h4)
  · have h4 : (m ++ ['/']) <+: (n ++ ['/']) := by
      apply pre_append_cancel (l := cwd ++ ['/'])
      have e1 : (cwd ++ ['/']) ++ (n ++ ['/']) = (cwd ++ '/' :: n) ++ ['/'] := by simp
      have e2 : (cwd ++ ['/']) ++ (m ++ ['/']) = (cwd ++ '/' :: m) ++ ['/'] := by simp
      rw [e1, e2]
      exact h3
    exact hne (namePre_eq hmc hnc h4).symm

theorem underB_ne {b p : Path} (h : underB b p = true) : p ≠ b := by
  intro he
  have h2 := (List.isPrefixOf_iff_prefix.mp h).length_le
  rw [he] at h2
  simp at h2

theorem isdir_false_of_sub {fs' fs : FS} (h : submapOf fs' fs) {p : Path}
    (hf : isdirB fs p = false) : isdirB fs' p = false := by
  by_contra hx
  have hx' : getNode fs' p = some Node.dir := by
    have : isdirB fs' p = true := by simpa using hx
    simpa [isdirB] using this
  have := h p Node.dir hx'
  rw [isdirB, this] at hf
  simp at hf

theorem isfile_false_of_sub {fs' fs : FS} (h : submapOf fs' fs) {p : Path}
    (hf : isfileB fs p = false) : isfileB fs' p = false := by
  by_contra hx
  have hx' : ∃ c t rd, getNode fs' p = some (Node.file c t rd) := by
    have hx2 : isfileB fs' p = true := by simpa using hx
    rw [isfileB] at hx2
    match hg : getNode fs' p with
    | some (Node.file c t rd) => exact ⟨c, t, rd, rfl⟩
    | some Node.dir => rw [hg] at hx2; simp at hx2
    | none => rw [hg] at hx2; simp at hx2
  obtain ⟨c, t, rd, hx'⟩ := hx'
  have := h p (Node.file c t rd) hx'
  rw [isfileB, this] at hf
  simp at hf

theorem processRmFolder_log (source replica : Path) (fs : FS) (log : Log) (cwd m : Path) :
    (processRmFolder source replica fs log cwd m).2 = log ∨
    (processRmFolder source replica fs log cwd m).2 =
      log ++ [Ev.removingDir (cwd ++ '/' :: m)] ∨
    (processRmFolder source replica fs log cwd m).2 =
      log ++ [Ev.removingDir (cwd ++ '/' :: m), Ev.errRemovingDir (cwd ++ '/' :: m)] := by
  rw [processRmFolder]
  by_cases hc : isdirB fs (replaceAll (cwd ++ '/' :: m) replica source) = true
  · rw [if_pos hc]
    exact Or.inl rfl
  · rw [if_neg hc]
    cases hr : rmtreeFS fs (cwd ++ '/' :: m) with
    | some f => exact Or.inr (Or.inl rfl)
    | none => exact Or.inr (Or.inr rfl)

theorem processRmFolder_preserveZone (source replica : Path) (fs : FS) (log : Log)
    (cwd m n q : Path) (hn : validNameB n = true) (hm : validNameB m = true) (hne : n ≠ m)
    (hq : q = cwd ++ '/' :: n ∨ underB (cwd ++ '/' :: n) q = true) :
    getNode (processRmFolder source replica fs log cwd m).1 q = getNode fs q := by
  rw [processRmFolder]
  by_cases hc : isdirB fs (replaceAll (cwd ++ '/' :: m) replica source) = true
  · simp only [hc, if_true]
  · simp only [hc, Bool.false_eq_true, if_false]
    cases hr : rmtreeFS fs (cwd ++ '/' :: m) with
    | none => rfl
    | some f =>
      simp only
      rw [(rmtreeFS_some_inv hr).2 q]
      rw [if_neg]
      intro hx
      exact sibling_zones_disjoint hn hm hne hq hx

theorem processRmFolder_orphan (source replica : Path) (fs : FS) (log : Log) (cwd n : Path)
    (hdir : getNode fs (cwd ++ '/' :: n) = some Node.dir)
    (hnot : isdirB fs (replaceAll (cwd ++ '/' :: n) replica source) = false) :
    (∀ q, (q = cwd ++ '/' :: n ∨ underB (cwd ++ '/' :: n) q = true) →
      getNode (processRmFolder source replica fs log cwd n).1 q = none) ∧
    (processRmFolder source replica fs log cwd n).2 =
      log ++ [Ev.removingDir (cwd ++ '/' :: n)] := by
  rw [processRmFolder]
  simp only [hnot, Bool.false_eq_true, if_false]
  have hr : rmtreeFS fs (cwd ++ '/' :: n) =
      some (fs.filter fun kv => ¬ (kv.1 = cwd ++ '/' :: n ∨ underB (cwd ++ '/' :: n) kv.1 = true)) := by
    rw [rmtreeFS, if_pos (by simpa [isdirB] using hdir)]
  rw [hr]
  refine ⟨fun q hq => ?_, rfl⟩
  simp only
  rw [getNode_rmtree_filter, if_pos hq]

theorem removeFolders_preserveZone (source replica cwd n : Path) (hn : validNameB n = true) :
    ∀ (ms : List Path) (fs : FS) (log : Log),
      (∀ m ∈ ms, validNameB m = true ∧ m ≠ n) →
      ∀ q, (q = cwd ++ '/' :: n ∨ underB (cwd ++ '/' :: n) q = true) →
        getNode (removeFolders source replica cwd ms fs log).1 q = getNode fs q := by
  intro ms
  induction ms with
  | nil => intro fs log _ q hq; rfl
  | cons m ms ih =>
    intro fs log hms q hq
    have hstep : removeFolders source replica cwd (m :: ms) fs log =
        removeFolders source replica cwd ms
          (processRmFolder source replica fs log cwd m).1
          (processRmFolder source replica fs log cwd m).2 := by
      rw [removeFolders, removeFolders, List.foldl_cons]
    rw [hstep]
    rw [ih _ _ (fun x hx => hms x (List.mem_cons_of_mem _ hx)) q hq]
    exact processRmFolder_preserveZone source replica fs log cwd m n q hn
      (hms m (List.mem_cons_self _ _)).1 (fun he => (hms m (List.mem_cons_self _ _)).2 he.symm) hq

theorem removeFolders_logEvents (source replica cwd : Path) :
    ∀ (ms : List Path) (fs : FS) (log : Log),
      ∃ dlog, (removeFolders source replica cwd ms fs log).2 = log ++ dlog ∧
        ∀ e ∈ dlog, ∃ m, m ∈ ms ∧
          (e = Ev.removingDir (cwd ++ '/' :: m) ∨ e = Ev.errRemovingDir (cwd ++ '/' :: m)) := by
  intro ms
  induction ms with
  | nil => intro fs log; exact ⟨[], by simp [removeFolders], by simp⟩
  | cons m ms ih =>
    intro fs log
    have hstep : removeFolders source replica cwd (m :: ms) fs log =
        removeFolders source replica cwd ms
          (processRmFolder source replica fs log cwd m).1
          (processRmFolder source replica fs log cwd m).2 := by
      rw [removeFolders, removeFolders, List.foldl_cons]
    rw [hstep]
    rcases processRmFolder_log source replica fs log cwd m with hl | hl | hl <;> rw [hl]
    · obtain ⟨dl, hdl, hev⟩ := ih (processRmFolder source replica fs log cwd m).1 log
      exact ⟨dl, hdl, fun e he => by
        obtain ⟨m', hm', he'⟩ := hev e he
        exact ⟨m', List.mem_cons_of_mem _ hm', he'⟩⟩
    · obtain ⟨dl, hdl, hev⟩ := ih (processRmFolder source replica fs log cwd m).1
        (log ++ [Ev.removingDir (cwd ++ '/' :: m)])
      refine ⟨[Ev.removingDir (cwd ++ '/' :: m)] ++ dl, by rw [hdl]; simp, fun e he => ?_⟩
      rcases List.mem_append.mp he with he | he
      · simp at he
        exact ⟨m, List.mem_cons_self _ _, Or.inl he⟩
      · obtain ⟨m', hm', he'⟩ := hev e he
        exact ⟨m', List.mem_cons_of_mem _ hm', he'⟩
    · obtain ⟨dl, hdl, hev⟩ := ih (processRmFolder source replica fs log cwd m).1
        (log ++ [Ev.removingDir (cwd ++ '/' :: m), Ev.errRemovingDir (cwd ++ '/' :: m)])
      refine ⟨[Ev.removingDir (cwd ++ '/' :: m), Ev.errRemovingDir (cwd ++ '/' :: m)] ++ dl,
        by rw [hdl]; simp, fun e he => ?_⟩
      rcases List.mem_append.mp he with he | he
      · rcases List.mem_cons.mp he with he | he
        · exact ⟨m, List.mem_cons_self _ _, Or.inl he⟩
        · simp at he
          exact ⟨m, List.mem_cons_self _ _, Or.inr he⟩
      · obtain ⟨m', hm', he'⟩ := hev e he
        exact ⟨m', List.mem_cons_of_mem _ hm', he'⟩

theorem removeFolders_orphan (source replica cwd n : Path) :
    ∀ (ms : List Path) (fs : FS) (log : Log),
      (∀ m ∈ ms, validNameB m = true) → ms.Nodup → n ∈ ms → validNameB n = true →
      getNode fs (cwd ++ '/' :: n) = some Node.dir →
      isdirB fs (replaceAll (cwd ++ '/' :: n) replica source) = false →
      (∀ q, (q = cwd ++ '/' :: n ∨ underB (cwd ++ '/' :: n) q = true) →
        getNode (removeFolders source replica cwd ms fs log).1 q = none) ∧
      (∃ dlog, (removeFolders source replica cwd ms fs log).2 = log ++ dlog ∧
        dlog.count (Ev.removingDir (cwd ++ '/' :: n)) = 1 ∧
        (∀ p, underB (cwd ++ '/' :: n) p = true →
          dlog.count (Ev.removingDir p) = 0 ∧ dlog.count (Ev.removingFile p) = 0)) := by
  intro ms
  induction ms with
  | nil => intro fs log _ _ hmem; simp at hmem
  | cons m ms ih =>
    intro fs log hval hnd hmem hn hdir hnot
    have hstep : ∀ fs0 log0, removeFolders source replica cwd (m :: ms) fs0 log0 =
        removeFolders source replica cwd ms
          (processRmFolder source replica fs0 log0 cwd m).1
          (processRmFolder source replica fs0 log0 cwd m).2 := by
      intro fs0 log0
      rw [removeFolders, removeFolders, List.foldl_cons]
    by_cases hmn : m = n
    · subst hmn
      have horph := processRmFolder_orphan source replica fs log cwd m hdir hnot
      have hnotin : m ∉ ms := (List.nodup_cons.mp hnd).1
      have hmsprop : ∀ x ∈ ms, validNameB x = true ∧ x ≠ m := by
        intro x hx
        refine ⟨hval x (List.mem_cons_of_mem _ hx), ?_⟩
        intro he
        rw [he] at hx
        exact hnotin hx
      constructor
      · intro q hq
        rw [hstep]
        rw [removeFolders_preserveZone source replica cwd m hn ms _ _ hmsprop q hq]
        exact horph.1 q hq
      · obtain ⟨dl, hdl, hev⟩ := removeFolders_logEvents source replica cwd ms
          (processRmFolder source replica fs log cwd m).1
          (processRmFolder source replica fs log cwd m).2
        refine ⟨[Ev.removingDir (cwd ++ '/' :: m)] ++ dl, ?_, ?_, ?_⟩
        · rw [hstep, hdl, horph.2]
          simp
        · rw [List.count_append]
          have h0 : dl.count (Ev.removingDir (cwd ++ '/' :: m)) = 0 := by
            rw [List.count_eq_zero]
            intro hin
            obtain ⟨m', hm', he'⟩ := hev _ hin
            rcases he' with he' | he'
            · have : cwd ++ '/' :: m = cwd ++ '/' :: m' := by injection he'
              exact hnotin (join_inj.mp this ▸ hm')
            · exact Ev.noConfusion he'
          rw [h0]
          simp
        · intro p hp
          constructor
          · rw [List.count_append, List.count_eq_zero.mpr, List.count_eq_zero.mpr]
            · intro hin
              obtain ⟨m', hm', he'⟩ := hev _ hin
              rcases he' with he' | he'
              · have hpm : p = cwd ++ '/' :: m' := by injection he'
                exact sibling_zones_disjoint hn (hmsprop m' hm').1
                  (fun hx => (hmsprop m' hm').2 hx.symm) (Or.inr hp) (Or.inl hpm)
              · exact Ev.noConfusion he'
            · intro hin
              simp at hin
              exact underB_ne hp (by rw [hin])
          · rw [List.count_append, List.count_eq_zero.mpr, List.count_eq_zero.mpr]
            · intro hin
              obtain ⟨m', hm', he'⟩ := hev _ hin
              rcases he' with he' | he' <;> exact Ev.noConfusion he'
            · intro hin
              simp at hin
    · have hvm : validNameB m = true := hval m (List.mem_cons_self _ _)
      have hmem' : n ∈ ms := by
        rcases List.mem_cons.mp hmem with he | he
        · exact absurd he.symm hmn
        · exact he
      have hsub := processRmFolder_sub source replica fs log cwd m
      have hdir' : getNode (processRmFolder source replica fs log cwd m).1 (cwd ++ '/' :: n) =
          some Node.dir := by
        rw [processRmFolder_preserveZone source replica fs log cwd m n _ hn hvm
          (fun he => hmn he.symm) (Or.inl rfl)]
        exact hdir
      have hnot' : isdirB (processRmFolder source replica fs log cwd m).1
          (replaceAll (cwd ++ '/' :: n) replica source) = false :=
        isdir_false_of_sub hsub hnot
      have hihres := ih (processRmFolder source replica fs log cwd m).1
        (processRmFolder source replica fs log cwd m).2
        (fun x hx => hval x (List.mem_cons_of_mem _ hx)) (List.nodup_cons.mp hnd).2
        hmem' hn hdir' hnot'
      constructor
      · intro q hq
        rw [hstep]
        exact hihres.1 q hq
      · obtain ⟨dl, hdl, hcount, hund⟩ := hihres.2
        rcases processRmFolder_log source replica fs log cwd m with hl | hl | hl
        · exact ⟨dl, by rw [hstep, hdl, hl], hcount, hund⟩
        · refine ⟨[Ev.removingDir (cwd ++ '/' :: m)] ++ dl, ?_, ?_, ?_⟩
          · rw [hstep, hdl, hl]
            simp
          · rw [List.count_append, List.count_eq_zero.mpr, hcount]
            intro hin
            simp at hin
            exact hmn hin.symm
          · intro p hp
            have h2 := hund p hp
            constructor
            · rw [List.count_append, List.count_eq_zero.mpr, h2.1]
              intro hin
              simp at hin
              exact sibling_zones_disjoint hn hvm (fun he => hmn he.symm)
                (Or.inr hp) (Or.inl hin)
            · rw [List.count_append, List.count_eq_zero.mpr, h2.2]
              intro hin
              simp at hin
        · refine ⟨[Ev.removingDir (cwd ++ '/' :: m), Ev.errRemovingDir (cwd ++ '/' :: m)] ++ dl,
            ?_, ?_, ?_⟩
          · rw [hstep, hdl, hl]
            simp
          · rw [List.count_append, List.count_eq_zero.mpr, hcount]
            intro hin
            rcases List.mem_cons.mp hin with he | he
            · have : cwd ++ '/' :: n = cwd ++ '/' :: m := by injection he
              exact hmn (join_inj.mp this).symm
            · simp at he
          · intro p hp
            have h2 := hund p hp
            constructor
            · rw [List.count_append, List.count_eq_zero.mpr, h2.1]
              intro hin
              rcases List.mem_cons.mp hin with he | he
              · have hpm : p = cwd ++ '/' :: m := by injection he
                exact sibling_zones_disjoint hn hvm (fun he2 => hmn he2.symm)
                  (Or.inr hp) (Or.inl hpm)
              · simp at he
            · rw [List.count_append, List.count_eq_zero.mpr, h2.2]
              intro hin
              rcases List.mem_cons.mp hin with he | he
              · exact Ev.noConfusion he
              · simp at he

theorem removeWalk_skip (source replica : Path) (fuel : Nat) (cwd : Path) (fs : FS) (log : Log)
    (h : isdirB fs cwd = false) :
    removeWalk source replica (fuel + 1) cwd fs log = some (fs, log) := by
  have hbody : removeWalk source replica (fuel + 1) cwd fs log =
      (if isdirB fs cwd then
        rmChildren (removeWalk source replica fuel) cwd (dirChildren fs cwd)
          (removeFiles source replica cwd (fileChildren fs cwd)
            (removeFolders source replica cwd (dirChildren fs cwd) fs log).1
            (removeFolders source replica cwd (dirChildren fs cwd) fs log).2).1
          (removeFiles source replica cwd (fileChildren fs cwd)
            (removeFolders source replica cwd (dirChildren fs cwd) fs log).1
            (removeFolders source replica cwd (dirChildren fs cwd) fs log).2).2
      else some (fs, log)) := rfl
  rw [hbody, if_neg (by simp [h])]

theorem processRmFile_log (source replica : Path) (fs : FS) (log : Log) (cwd m : Path) :
    (processRmFile source replica fs log cwd m).2 = log ∨
    (processRmFile source replica fs log cwd m).2 =
      log ++ [Ev.removingFile (cwd ++ '/' :: m)] ∨
    (processRmFile source replica fs log cwd m).2 =
      log ++ [Ev.removingFile (cwd ++ '/' :: m), Ev.errRemovingFile (cwd ++ '/' :: m)] := by
  rw [processRmFile]
  by_cases hc : isfileB fs (replaceAll (cwd ++ '/' :: m) replica source) = true
  · rw [if_pos hc]
    exact Or.inl rfl
  · rw [if_neg hc]
    cases hr : osRemoveFS fs (cwd ++ '/' :: m) with
    | some f => exact Or.inr (Or.inl rfl)
    | none => exact Or.inr (Or.inr rfl)

theorem processRmFile_preserveKey (source replica : Path) (fs : FS) (log : Log)
    (cwd m q : Path) (hq : q ≠ cwd ++ '/' :: m) :
    getNode (processRmFile source replica fs log cwd m).1 q = getNode fs q := by
  rw [processRmFile]
  by_cases hc : isfileB fs (replaceAll (cwd ++ '/' :: m) replica source) = true
  · simp only [hc, if_true]
  · simp only [hc, Bool.false_eq_true, if_false]
    cases hr : osRemoveFS fs (cwd ++ '/' :: m) with
    | none => rfl
    | some f =>
      simp only
      rw [(osRemoveFS_some_inv hr).2 q, if_neg hq]

theorem processRmFile_orphanStep (source replica : Path) (fs : FS) (log : Log) (cwd n : Path)
    (hfile : isfileB fs (cwd ++ '/' :: n) = true)
    (hnot : isfileB fs (replaceAll (cwd ++ '/' :: n) replica source) = false) :
    getNode (processRmFile source replica fs log cwd n).1 (cwd ++ '/' :: n) = none ∧
    (processRmFile source replica fs log cwd n).2 =
      log ++ [Ev.removingFile (cwd ++ '/' :: n)] := by
  rw [processRmFile]
  simp only [hnot, Bool.false_eq_true, if_false]
  have hr : osRemoveFS fs (cwd ++ '/' :: n) =
      some (fs.filter fun kv => kv.1 ≠ cwd ++ '/' :: n) := by
    rw [osRemoveFS, if_pos hfile]
  rw [hr]
  refine ⟨?_, rfl⟩
  simp only
  rw [getNode_osRemove_filter, if_pos rfl]

theorem removeFiles_preserveKey (source replica cwd q : Path) :
    ∀ (ms : List Path) (fs : FS) (log : Log), (∀ m ∈ ms, q ≠ cwd ++ '/' :: m) →
      getNode (removeFiles source replica cwd ms fs log).1 q = getNode fs q := by
  intro ms
  induction ms with
  | nil => intro fs log _; rfl
  | cons m ms ih =>
    intro fs log hms
    have hstep : removeFiles source replica cwd (m :: ms) fs log =
        removeFiles source replica cwd ms
          (processRmFile source replica fs log cwd m).1
          (processRmFile source replica fs log cwd m).2 := by
      rw [removeFiles, removeFiles, List.foldl_cons]
    rw [hstep]
    rw [ih _ _ (fun x hx => hms x (List.mem_cons_of_mem _ hx))]
    exact processRmFile_preserveKey source replica fs log cwd m q
      (hms m (List.mem_cons_self _ _))

theorem removeFiles_logEvents (source replica cwd : Path) :
    ∀ (ms : List Path) (fs : FS) (log : Log),
      ∃ dlog, (removeFiles source replica cwd ms fs log).2 = log ++ dlog ∧
        ∀ e ∈ dlog, ∃ m, m ∈ ms ∧
          (e = Ev.removingFile (cwd ++ '/' :: m) ∨ e = Ev.errRemovingFile (cwd ++ '/' :: m)) := by
  intro ms
  induction ms with
  | nil => intro fs log; exact ⟨[], by simp [removeFiles], by simp⟩
  | cons m ms ih =>
    intro fs log
    have hstep : removeFiles source replica cwd (m :: ms) fs log =
        removeFiles source replica cwd ms
          (processRmFile source replica fs log cwd m).1
          (processRmFile source replica fs log cwd m).2 := by
      rw [removeFiles, removeFiles, List.foldl_cons]
    rw [hstep]
    rcases processRmFile_log source replica fs log cwd m with hl | hl | hl <;> rw [hl]
    · obtain ⟨dl, hdl, hev⟩ := ih (processRmFile source replica fs log cwd m).1 log
      exact ⟨dl, hdl, fun e he => by
        obtain ⟨m', hm', he'⟩ := hev e he
        exact ⟨m', List.mem_cons_of_mem _ hm', he'⟩⟩
    · obtain ⟨dl, hdl, hev⟩ := ih (processRmFile source replica fs log cwd m).1
        (log ++ [Ev.removingFile (cwd ++ '/' :: m)])
      refine ⟨[Ev.removingFile (cwd ++ '/' :: m)] ++ dl, by rw [hdl]; simp, fun e he => ?_⟩
      rcases List.mem_append.mp he with he2 | he2
      · simp at he2
        exact ⟨m, List.mem_cons_self _ _, Or.inl he2⟩
      · obtain ⟨m', hm', he'⟩ := hev e he2
        exact ⟨m', List.mem_cons_of_mem _ hm', he'⟩
    · obtain ⟨dl, hdl, hev⟩ := ih (processRmFile source replica fs log cwd m).1
        (log ++ [Ev.removingFile (cwd ++ '/' :: m), Ev.errRemovingFile (cwd ++ '/' :: m)])
      refine ⟨[Ev.removingFile (cwd ++ '/' :: m), Ev.errRemovingFile (cwd ++ '/' :: m)] ++ dl,
        by rw [hdl]; simp, fun e he => ?_⟩
      rcases List.mem_append.mp he with he2 | he2
      · rcases List.mem_cons.mp he2 with he3 | he3
        · exact ⟨m, List.mem_cons_self _ _, Or.inl he3⟩
        · simp at he3
          exact ⟨m, List.mem_cons_self _ _, Or.inr he3⟩
      · obtain ⟨m', hm', he'⟩ := hev e he2
        exact ⟨m', List.mem_cons_of_mem _ hm', he'⟩

theorem removeFiles_orphanFile (source replica cwd n : Path) :
    ∀ (ms : List Path) (fs : FS) (log : Log),
      ms.Nodup → n ∈ ms →
      isfileB fs (cwd ++ '/' :: n) = true →
      isfileB fs (replaceAll (cwd ++ '/' :: n) replica source) = false →
      getNode (removeFiles source replica cwd ms fs log).1 (cwd ++ '/' :: n) = none ∧
      (∃ dlog, (removeFiles source replica cwd ms fs log).2 = log ++ dlog ∧
        dlog.count (Ev.removingFile (cwd ++ '/' :: n)) = 1) := by
  intro ms
  induction ms with
  | nil => intro fs log _ hmem; simp at hmem
  | cons m ms ih =>
    intro fs log hnd hmem hfile hnot
    have hstep : removeFiles source replica cwd (m :: ms) fs log =
        removeFiles source replica cwd ms
          (processRmFile source replica fs log cwd m).1
          (processRmFile source replica fs log cwd m).2 := by
      rw [removeFiles, removeFiles, List.foldl_cons]
    by_cases hmn : m = n
    · subst hmn
      have horph := processRmFile_orphanStep source replica fs log cwd m hfile hnot
      have hnotin : m ∉ ms := (List.nodup_cons.mp hnd).1
      constructor
      · rw [hstep]
        rw [removeFiles_preserveKey source replica cwd (cwd ++ '/' :: m) ms _ _
          (fun x hx he => hnotin (join_inj.mp he ▸ hx))]
        exact horph.1
      · obtain ⟨dl, hdl, hev⟩ := removeFiles_logEvents source replica cwd ms
          (processRmFile source replica fs log cwd m).1
          (processRmFile source replica fs log cwd m).2
        refine ⟨[Ev.removingFile (cwd ++ '/' :: m)] ++ dl, ?_, ?_⟩
        · rw [hstep, hdl, horph.2]
          simp
        · rw [List.count_append]
          have h0 : dl.count (Ev.removingFile (cwd ++ '/' :: m)) = 0 := by
            rw [List.count_eq_zero]
            intro hin
            obtain ⟨m', hm', he'⟩ := hev _ hin
            rcases he' with he' | he'
            · have : cwd ++ '/' :: m = cwd ++ '/' :: m' := by injection he'
              exact hnotin (join_inj.mp this ▸ hm')
            · exact Ev.noConfusion he'
          rw [h0]
          simp
    · have hmem' : n ∈ ms := by
        rcases List.mem_cons.mp hmem with he | he
        · exact absurd he.symm hmn
        · exact he
      have hne : cwd ++ '/' :: n ≠ cwd ++ '/' :: m :=
        fun he => hmn (join_inj.mp he).symm
      have hpres := processRmFile_preserveKey source replica fs log cwd m
        (cwd ++ '/' :: n) hne
      have hfile' : isfileB (processRmFile source replica fs log cwd m).1
          (cwd ++ '/' :: n) = true := by
        rw [isfileB, hpres, ← isfileB]
        exact hfile
      have hnot' : isfileB (processRmFile source replica fs log cwd m).1
          (replaceAll (cwd ++ '/' :: n) replica source) = false :=
        isfile_false_of_sub (processRmFile_sub source replica fs log cwd m) hnot
      have hihres := ih (processRmFile source replica fs log cwd m).1
        (processRmFile source replica fs log cwd m).2
        (List.nodup_cons.mp hnd).2 hmem' hfile' hnot'
      constructor
      · rw [hstep]
        exact hihres.1
      · obtain ⟨dl, hdl, hcount⟩ := hihres.2
        rcases processRmFile_log source replica fs log cwd m with hl | hl | hl
        · exact ⟨dl, by rw [hstep, hdl, hl], hcount⟩
        · refine ⟨[Ev.removingFile (cwd ++ '/' :: m)] ++ dl, ?_, ?_⟩
          · rw [hstep, hdl, hl]
            simp
          · rw [List.count_append, List.count_eq_zero.mpr, hcount]
            intro hin
            simp at hin
            exact hmn hin.symm
        · refine ⟨[Ev.removingFile (cwd ++ '/' :: m), Ev.errRemovingFile (cwd ++ '/' :: m)] ++ dl,
            ?_, ?_⟩
          · rw [hstep, hdl, hl]
            simp
          · rw [List.count_append, List.count_eq_zero.mpr, hcount]
            intro hin
            rcases List.mem_cons.mp hin with he | he
            · have : cwd ++ '/' :: n = cwd ++ '/' :: m := by injection he
              exact hmn (join_inj.mp this).symm
            · simp at he

/-- Claim C5 (counterexample to the literal claim): the pruner decides
with the code's replace-all map, not the spec's inverse map (root-prefix
substitution), and the two disagree as soon as the replica-root string
reappears in a path. On `fsC5x` the replica directory `/r/r` has
inverse-mapped source path `/s/r`, which is not a directory, so the
frozen claim requires its removal; but the code computes
`"/r/r".replace("/r", "/s") = "/s/s"`, finds a directory there, and the
pruner completes without errors leaving the orphan `/r/r` (indeed the
whole snapshot) untouched. -/
theorem C5_cex_inverse_map :
    isdirB fsC5x (sR ++ tailFrom rR ['/', 'r', '/', 'r']) = false ∧
    getNode fsC5x ['/', 'r', '/', 'r'] = some Node.dir ∧
    remove_files_from_replica 6 sR rR fsC5x [] = some (fsC5x, []) := by decide

/-- Claim C5 (amended): in one `os.walk` triple of
`remove_files_from_replica`, restricted to paths on which the code's
replace-all map agrees with the spec's inverse map (the replace-safety
hypotheses `hmapn`/`hmapf`; the recorded counterexample shows the claim
fails without them), a directory child `n` of `cwd` whose inverse-mapped
source path is not a directory is removed with its entire contents in
one recursive operation (its whole key zone disappears during the
folder loop, exactly one `removingDir` event is logged for it and none
for any path below it), and the walk does not descend into it
afterwards (on any later, smaller state the child walk is an immediate
no-op); a file child `f` of `cwd` whose inverse-mapped source path is
not a file is removed by the file loop, with exactly one `removingFile`
event logged for it. Environmental removal failures (permission, file
in use), which the code logs at the failed entry and skips past, are
not representable in this embedding: `rmtreeFS` and `osRemoveFS` fail
only on a wrong node kind, so removal of an existing orphan always
succeeds here. -/
theorem C5_amended_pruner (source replica cwd n f : Path) (fs : FS) (log : Log)
    (hnval : validNameB n = true)
    (hdval : ∀ m ∈ dirChildren fs cwd, validNameB m = true)
    (hdnd : (dirChildren fs cwd).Nodup)
    (hnmem : n ∈ dirChildren fs cwd)
    (hndir : getNode fs (cwd ++ '/' :: n) = some Node.dir)
    (hmapn : replaceAll (cwd ++ '/' :: n) replica source =
      source ++ tailFrom replica (cwd ++ '/' :: n))
    (hnnot : isdirB fs (source ++ tailFrom replica (cwd ++ '/' :: n)) = false)
    (hfval : validNameB f = true)
    (hfnd : (fileChildren fs cwd).Nodup)
    (hfmem : f ∈ fileChildren fs cwd)
    (hffile : isfileB fs (cwd ++ '/' :: f) = true)
    (hmapf : replaceAll (cwd ++ '/' :: f) replica source =
      source ++ tailFrom replica (cwd ++ '/' :: f))
    (hfnot : isfileB fs (source ++ tailFrom replica (cwd ++ '/' :: f)) = false)
    (hdf : ∀ m ∈ dirChildren fs cwd, m ≠ f) :
    (∀ q, (q = cwd ++ '/' :: n ∨ underB (cwd ++ '/' :: n) q = true) →
      getNode (removeFolders source replica cwd (dirChildren fs cwd) fs log).1 q = none) ∧
    (∃ dlog, (removeFolders source replica cwd (dirChildren fs cwd) fs log).2 = log ++ dlog ∧
      dlog.count (Ev.removingDir (cwd ++ '/' :: n)) = 1 ∧
      (∀ p, underB (cwd ++ '/' :: n) p = true →
        dlog.count (Ev.removingDir p) = 0 ∧ dlog.count (Ev.removingFile p) = 0)) ∧
    (∀ (fuel : Nat) (fs2 : FS) (log2 : Log),
      submapOf fs2 (removeFolders source replica cwd (dirChildren fs cwd) fs log).1 →
      removeWalk source replica (fuel + 1) (cwd ++ '/' :: n) fs2 log2 = some (fs2, log2)) ∧
    (getNode (removeFiles source replica cwd (fileChildren fs cwd)
        (removeFolders source replica cwd (dirChildren fs cwd) fs log).1
        (removeFolders source replica cwd (dirChildren fs cwd) fs log).2).1
        (cwd ++ '/' :: f) = none ∧
     ∃ flog, (removeFiles source replica cwd (fileChildren fs cwd)
        (removeFolders source replica cwd (dirChildren fs cwd) fs log).1
        (removeFolders source replica cwd (dirChildren fs cwd) fs log).2).2 =
          (removeFolders source replica cwd (dirChildren fs cwd) fs log).2 ++ flog ∧
       flog.count (Ev.removingFile (cwd ++ '/' :: f)) = 1) := by
  have hnnot2 : isdirB fs (replaceAll (cwd ++ '/' :: n) replica source) = false := by
    rw [hmapn]
    exact hnnot
  have hfnot2 : isfileB fs (replaceAll (cwd ++ '/' :: f) replica source) = false := by
    rw [hmapf]
    exact hfnot
  obtain ⟨hA1, hA2⟩ := removeFolders_orphan source replica cwd n (dirChildren fs cwd) fs log
    hdval hdnd hnmem hnval hndir hnnot2
  refine ⟨hA1, hA2, ?_, ?_⟩
  · intro fuel fs2 log2 hsub
    apply removeWalk_skip
    apply isdir_false_of_sub hsub
    have hg := hA1 (cwd ++ '/' :: n) (Or.inl rfl)
    simp [isdirB, hg]
  · have hpres := removeFolders_preserveZone source replica cwd f hfval (dirChildren fs cwd)
      fs log (fun m hm => ⟨hdval m hm, hdf m hm⟩) (cwd ++ '/' :: f) (Or.inl rfl)
    have hfile2 : isfileB (removeFolders source replica cwd (dirChildren fs cwd) fs log).1
        (cwd ++ '/' :: f) = true := by
      rw [isfileB, hpres, ← isfileB]
      exact hffile
    have hnot2 : isfileB (removeFolders source replica cwd (dirChildren fs cwd) fs log).1
        (replaceAll (cwd ++ '/' :: f) replica source) = false :=
      isfile_false_of_sub (removeFolders_sub source replica cwd (dirChildren fs cwd) fs log)
        hfnot2
    exact removeFiles_orphanFile source replica cwd f (fileChildren fs cwd) _ _
      hfnd hfmem hfile2 hnot2

/-- Witness for the amended C5 on the snapshot `fsC5` (whose paths are
replace-safe, so the two maps agree): the orphaned directory key `/r/d`
is gone after the folder loop and the orphaned file key `/r/g` is gone
after the file loop. -/
theorem C5_amended_pruner_witness :
    getNode (removeFolders sR rR rR (dirChildren fsC5 rR) fsC5 []).1
      (rR ++ '/' :: ['d']) = none ∧
    getNode (removeFiles sR rR rR (fileChildren fsC5 rR)
        (removeFolders sR rR rR (dirChildren fsC5 rR) fsC5 []).1
        (removeFolders sR rR rR (dirChildren fsC5 rR) fsC5 []).2).1
      (rR ++ '/' :: ['g']) = none := by
  have h := C5_amended_pruner sR rR rR ['d'] ['g'] fsC5 []
    (by decide) (by decide) (by decide) (by decide) (by decide) (by decide)
    (by decide) (by decide) (by decide) (by decide) (by decide) (by decide)
    (by decide) (by decide)
  exact ⟨h.1 _ (Or.inl rfl), h.2.2.2.1⟩

/-! A tick run on a snapshot whose replica already mirrors the source
performs no action: every comparator test and every pruner test comes
back negative, so both walks leave the filesystem and the log alone. -/

theorem roots_nonempty {s r : Path} (h : indepRootsB s r = true) : s ≠ [] ∧ r ≠ [] := by
  constructor
  · rintro rfl
    rw [indepRootsB] at h
    simp [List.isPrefixOf] at h
  · rintro rfl
    rw [indepRootsB] at h
    simp [List.isPrefixOf] at h

theorem wfInput_unpack {fs : FS} {s r : Path} (h : wfInputB fs s r = true) :
    nodupKeys fs ∧ indepRootsB s r = true ∧ safeKeysB fs s r = true ∧
    dirClosedB fs s = true ∧ dirClosedB fs r = true ∧ noConflictB fs s r = true := by
  rw [wfInputB] at h
  simp only [Bool.and_eq_true, decide_eq_true_eq] at h
  exact ⟨h.1.1.1.1.1, h.1.1.1.1.2, h.1.1.1.2, h.1.1.2, h.1.2, h.2⟩

theorem readable_of_all {fs : FS} {p : Path} {c : List Nat} {t : Nat} {rd : Bool}
    (hrd : readableAllB fs = true) (h : getNode fs p = some (Node.file c t rd)) : rd = true := by
  have hmem := getNode_mem h
  have h2 := (List.all_eq_true.mp hrd) _ hmem
  simpa using h2

theorem nodeEq2_dir_inv {o : Option Node} (h : nodeEq2 Node.dir o = true) :
    o = some Node.dir := by
  match o with
  | some Node.dir => rfl
  | some (Node.file c t rd) => exact absurd h (by simp [nodeEq2])
  | none => exact absurd h (by simp [nodeEq2])

theorem nodeEq2_file_inv {c : List Nat} {t : Nat} {rd : Bool} {o : Option Node}
    (h : nodeEq2 (Node.file c t rd) o = true) :
    ∃ t2 rd2, o = some (Node.file c t2 rd2) := by
  match o with
  | some (Node.file c2 t2 rd2) =>
    have hc : c = c2 := by simpa [nodeEq2] using h
    exact ⟨t2, rd2, by rw [hc]⟩
  | some Node.dir => exact absurd h (by simp [nodeEq2])
  | none => exact absurd h (by simp [nodeEq2])

theorem mirror_src {fs : FS} {s r k : Path} {v : Node} (hmir : mirrorsB fs s r = true)
    (hk : getNode fs k = some v) (hu : underB s k = true) :
    nodeEq2 v (getNode fs (specMap s r k)) = true := by
  have hmem := getNode_mem hk
  rw [mirrorsB] at hmir
  have h2 := (List.all_eq_true.mp hmir) (k, v) hmem
  simp only [hu, Bool.not_true, Bool.false_or, Bool.and_eq_true] at h2
  exact h2.1

theorem mirror_rep {fs : FS} {s r k : Path} {v : Node} (hmir : mirrorsB fs s r = true)
    (hk : getNode fs k = some v) (hu : underB r k = true) :
    nodeEq2 v (getNode fs (specMap r s k)) = true := by
  have hmem := getNode_mem hk
  rw [mirrorsB] at hmir
  have h2 := (List.all_eq_true.mp hmir) (k, v) hmem
  simp only [hu, Bool.not_true, Bool.false_or, Bool.and_eq_true] at h2
  exact h2.2

theorem mappedEq_src {fs : FS} {s r k : Path} {v : Node} (hsafe : safeKeysB fs s r = true)
    (hind : indepRootsB s r = true) (hmem : (k, v) ∈ fs) (hu : underB s k = true) :
    replaceAll k s r = specMap s r k := by
  have hs := (roots_nonempty hind).1
  rcases underB_iff.mp hu with ⟨rel, rfl⟩
  rw [safeKeysB] at hsafe
  have h2 := (List.all_eq_true.mp hsafe) _ hmem
  simp only [hu, Bool.not_true, Bool.false_or, Bool.and_eq_true, Bool.or_eq_true,
    Bool.not_eq_true'] at h2
  have hocc : containsSub (tailFrom s (s ++ '/' :: rel)) s = false := h2.1.1
  rw [tailFrom_join] at hocc
  rw [specMap, tailFrom_join]
  have he : s ++ '/' :: rel = s ++ ('/' :: rel) := rfl
  rw [he, replaceAll_of_pre hs hocc]

theorem mappedEq_rep {fs : FS} {s r k : Path} {v : Node} (hsafe : safeKeysB fs s r = true)
    (hind : indepRootsB s r = true) (hmem : (k, v) ∈ fs) (hu : underB r k = true) :
    replaceAll k r s = specMap r s k := by
  have hr := (roots_nonempty hind).2
  rcases underB_iff.mp hu with ⟨rel, rfl⟩
  rw [safeKeysB] at hsafe
  have h2 := (List.all_eq_true.mp hsafe) _ hmem
  simp only [hu, Bool.not_true, Bool.false_or, Bool.and_eq_true, Bool.or_eq_true,
    Bool.not_eq_true'] at h2
  have hocc : containsSub (tailFrom r (r ++ '/' :: rel)) r = false := h2.2
  rw [tailFrom_join] at hocc
  rw [specMap, tailFrom_join]
  have he : r ++ '/' :: rel = r ++ ('/' :: rel) := rfl
  rw [he, replaceAll_of_pre hr hocc]

theorem processFolder_noop {source replica : Path} {fs : FS} {cwd n : Path}
    (h : isdirB fs (replaceAll (cwd ++ '/' :: n) source replica) = true) :
    ∀ log, processFolder source replica fs log cwd n = (fs, log) := by
  intro log
  have hbody : processFolder source replica fs log cwd n =
      (if isdirB fs (replaceAll (cwd ++ '/' :: n) source replica) then (fs, log)
      else
        match makedirsFS fs (replaceAll (cwd ++ '/' :: n) source replica) with
        | (fs', true) =>
          (fs', log ++ [Ev.creating (replaceAll (cwd ++ '/' :: n) source replica)])
        | (fs', false) =>
          (fs', log ++ [Ev.creating (replaceAll (cwd ++ '/' :: n) source replica),
            Ev.errCreating (replaceAll (cwd ++ '/' :: n) source replica)])) := rfl
  rw [hbody, if_pos h]

theorem addFolders_noop {source replica : Path} {fs : FS} {cwd : Path} :
    ∀ (ns : List Path) (log : Log),
      (∀ n ∈ ns, isdirB fs (replaceAll (cwd ++ '/' :: n) source replica) = true) →
      addFolders source replica cwd ns fs log = (fs, log) := by
  intro ns
  induction ns with
  | nil => intro log _; rfl
  | cons n ns ih =>
    intro log hns
    have hstep : addFolders source replica cwd (n :: ns) fs log =
        addFolders source replica cwd ns
          (processFolder source replica fs log cwd n).1
          (processFolder source replica fs log cwd n).2 := by
      rw [addFolders, addFolders, List.foldl_cons]
    rw [hstep, processFolder_noop (hns n (List.mem_cons_self _ _)) log]
    exact ih log (fun x hx => hns x (List.mem_cons_of_mem _ hx))

theorem processFile_noop {source replica : Path} {fs : FS} {cwd n : Path} {c : List Nat}
    {t t2 : Nat}
    (hsp : getNode fs (cwd ++ '/' :: n) = some (Node.file c t true))
    (hrp : getNode fs (replaceAll (cwd ++ '/' :: n) source replica) =
      some (Node.file c t2 true)) :
    ∀ log, processFile source replica fs log cwd n = some (fs, log) := by
  intro log
  have hbody : processFile source replica fs log cwd n =
      (if isfileB fs (replaceAll (cwd ++ '/' :: n) source replica) then
        match are_same_files fs (cwd ++ '/' :: n)
            (replaceAll (cwd ++ '/' :: n) source replica) with
        | none => none
        | some true => some (fs, log)
        | some false => some (copyAttempt fs log (cwd ++ '/' :: n)
            (replaceAll (cwd ++ '/' :: n) source replica))
      else some (copyAttempt fs log (cwd ++ '/' :: n)
        (replaceAll (cwd ++ '/' :: n) source replica))) := rfl
  have hf : isfileB fs (replaceAll (cwd ++ '/' :: n) source replica) = true := by
    rw [isfileB, hrp]
  have hsame : are_same_files fs (cwd ++ '/' :: n)
      (replaceAll (cwd ++ '/' :: n) source replica) = some true := by
    rw [are_same_files, hsp, hrp]
    simp
  rw [hbody, if_pos hf, hsame]

theorem addFiles_noop {source replica : Path} {fs : FS} {cwd : Path} :
    ∀ (ns : List Path) (log : Log),
      (∀ n ∈ ns, ∀ log0, processFile source replica fs log0 cwd n = some (fs, log0)) →
      addFiles source replica cwd ns fs log = WalkRes.done fs log := by
  intro ns
  induction ns with
  | nil => intro log _; rfl
  | cons n ns ih =>
    intro log hns
    rw [addFiles, hns n (List.mem_cons_self _ _) log]
    exact ih log (fun x hx => hns x (List.mem_cons_of_mem _ hx))

theorem runChildren_noopOr {walk : Path → FS → Log → WalkRes} {fs : FS} {cwd : Path} :
    ∀ (ns : List Path) (log : Log),
      (∀ n ∈ ns, ∀ log0, walk (cwd ++ '/' :: n) fs log0 = WalkRes.done fs log0 ∨
        walk (cwd ++ '/' :: n) fs log0 = WalkRes.fuelOut) →
      runChildren walk cwd ns fs log = WalkRes.done fs log ∨
      runChildren walk cwd ns fs log = WalkRes.fuelOut := by
  intro ns
  induction ns with
  | nil => intro log _; exact Or.inl rfl
  | cons n ns ih =>
    intro log hns
    rcases hns n (List.mem_cons_self _ _) log with hc | hc <;> rw [runChildren, hc]
    · exact ih log (fun x hx => hns x (List.mem_cons_of_mem _ hx))
    · exact Or.inr rfl

theorem addWalk_noop {s r : Path} {fs : FS}
    (hnd : nodupKeys fs) (hind : indepRootsB s r = true) (hsafe : safeKeysB fs s r = true)
    (hrd : readableAllB fs = true) (hmir : mirrorsB fs s r = true) :
    ∀ (fuel : Nat) (cwd : Path), (cwd = s ∨ underB s cwd = true) → ∀ (log : Log),
      addWalk s r fuel cwd fs log = WalkRes.done fs log ∨
      addWalk s r fuel cwd fs log = WalkRes.fuelOut := by
  intro fuel
  induction fuel with
  | zero => intro cwd hcwd log; exact Or.inr rfl
  | succ fuel ih =>
    intro cwd hcwd log
    have hchild : ∀ n : Path, underB s (cwd ++ '/' :: n) = true := by
      intro n
      rcases hcwd with rfl | hcwd
      · exact underB_join cwd n
      · exact underB_extend hcwd ('/' :: n)
    by_cases hd : isdirB fs cwd = true
    · have hbody : addWalk s r (fuel + 1) cwd fs log =
          (if isdirB fs cwd then
            match addFiles s r cwd (fileChildren fs cwd)
                (addFolders s r cwd (dirChildren fs cwd) fs log).1
                (addFolders s r cwd (dirChildren fs cwd) fs log).2 with
            | WalkRes.done fs2 log2 =>
              runChildren (addWalk s r fuel) cwd (dirChildren fs cwd) fs2 log2
            | e => e
          else WalkRes.done fs log) := rfl
      have h1 : addFolders s r cwd (dirChildren fs cwd) fs log = (fs, log) := by
        apply addFolders_noop
        intro n hn
        obtain ⟨hget, hvn⟩ := dirChildren_sound hnd hn
        have hu := hchild n
        have hmap := mappedEq_src hsafe hind (getNode_mem hget) hu
        have hne := nodeEq2_dir_inv (mirror_src hmir hget hu)
        rw [isdirB, hmap, hne]
        simp
      have h2 : addFiles s r cwd (fileChildren fs cwd)
          (addFolders s r cwd (dirChildren fs cwd) fs log).1
          (addFolders s r cwd (dirChildren fs cwd) fs log).2 = WalkRes.done fs log := by
        rw [h1]
        apply addFiles_noop
        intro n hn log0
        obtain ⟨⟨c, t, rd, hget⟩, hvn⟩ := fileChildren_sound hnd hn
        have hu := hchild n
        have hrd1 := readable_of_all hrd hget
        rw [hrd1] at hget
        have hmap := mappedEq_src hsafe hind (getNode_mem hget) hu
        obtain ⟨t2, rd2, hget2⟩ := nodeEq2_file_inv (mirror_src hmir hget hu)
        have hrd2 := readable_of_all hrd hget2
        rw [hrd2] at hget2
        rw [← hmap] at hget2
        exact processFile_noop hget hget2 log0
      rw [hbody, if_pos hd, h2]
      exact runChildren_noopOr (dirChildren fs cwd) log
        (fun n hn log0 => ih (cwd ++ '/' :: n) (Or.inr (hchild n)) log0)
    · have hbody : addWalk s r (fuel + 1) cwd fs log =
          (if isdirB fs cwd then
            match addFiles s r cwd (fileChildren fs cwd)
                (addFolders s r cwd (dirChildren fs cwd) fs log).1
                (addFolders s r cwd (dirChildren fs cwd) fs log).2 with
            | WalkRes.done fs2 log2 =>
              runChildren (addWalk s r fuel) cwd (dirChildren fs cwd) fs2 log2
            | e => e
          else WalkRes.done fs log) := rfl
      rw [hbody, if_neg (by simpa using hd)]
      exact Or.inl rfl

theorem processRmFolder_noop {source replica : Path} {fs : FS} {cwd n : Path}
    (h : isdirB fs (replaceAll (cwd ++ '/' :: n) replica source) = true) :
    ∀ log, processRmFolder source replica fs log cwd n = (fs, log) := by
  intro log
  have hbody : processRmFolder source replica fs log cwd n =
      (if isdirB fs (replaceAll (cwd ++ '/' :: n) replica source) then (fs, log)
      else
        match rmtreeFS fs (cwd ++ '/' :: n) with
        | some fs' => (fs', log ++ [Ev.removingDir (cwd ++ '/' :: n)])
        | none => (fs, log ++ [Ev.removingDir (cwd ++ '/' :: n),
            Ev.errRemovingDir (cwd ++ '/' :: n)])) := rfl
  rw [hbody, if_pos h]

theorem removeFolders_noop {source replica : Path} {fs : FS} {cwd : Path} :
    ∀ (ns : List Path) (log : Log),
      (∀ n ∈ ns, isdirB fs (replaceAll (cwd ++ '/' :: n) replica source) = true) →
      removeFolders source replica cwd ns fs log = (fs, log) := by
  intro ns
  induction ns with
  | nil => intro log _; rfl
  | cons n ns ih =>
    intro log hns
    have hstep : removeFolders source replica cwd (n :: ns) fs log =
        removeFolders source replica cwd ns
          (processRmFolder source replica fs log cwd n).1
          (processRmFolder source replica fs log cwd n).2 := by
      rw [removeFolders, removeFolders, List.foldl_cons]
    rw [hstep, processRmFolder_noop (hns n (List.mem_cons_self _ _)) log]
    exact ih log (fun x hx => hns x (List.mem_cons_of_mem _ hx))

theorem processRmFile_noop {source replica : Path} {fs : FS} {cwd n : Path}
    (h : isfileB fs (replaceAll (cwd ++ '/' :: n) replica source) = true) :
    ∀ log, processRmFile source replica fs log cwd n = (fs, log) := by
  intro log
  have hbody : processRmFile source replica fs log cwd n =
      (if isfileB fs (replaceAll (cwd ++ '/' :: n) replica source) then (fs, log)
      else
        match osRemoveFS fs (cwd ++ '/' :: n) with
        | some fs' => (fs', log ++ [Ev.removingFile (cwd ++ '/' :: n)])
        | none => (fs, log ++ [Ev.removingFile (cwd ++ '/' :: n),
            Ev.errRemovingFile (cwd ++ '/' :: n)])) := rfl
  rw [hbody, if_pos h]

theorem removeFiles_noop {source replica : Path} {fs : FS} {cwd : Path} :
    ∀ (ns : List Path) (log : Log),
      (∀ n ∈ ns, isfileB fs (replaceAll (cwd ++ '/' :: n) replica source) = true) →
      removeFiles source replica cwd ns fs log = (fs, log) := by
  intro ns
  induction ns with
  | nil => intro log _; rfl
  | cons n ns ih =>
    intro log hns
    have hstep : removeFiles source replica cwd (n :: ns) fs log =
        removeFiles source replica cwd ns
          (processRmFile source replica fs log cwd n).1
          (processRmFile source replica fs log cwd n).2 := by
      rw [removeFiles, removeFiles, List.foldl_cons]
    rw [hstep, processRmFile_noop (hns n (List.mem_cons_self _ _)) log]
    exact ih log (fun x hx => hns x (List.mem_cons_of_mem _ hx))

theorem rmChildren_noopOr {walk : Path → FS → Log → Option (FS × Log)} {fs : FS} {cwd : Path} :
    ∀ (ns : List Path) (log : Log),
      (∀ n ∈ ns, ∀ log0, walk (cwd ++ '/' :: n) fs log0 = some (fs, log0) ∨
        walk (cwd ++ '/' :: n) fs log0 = none) →
      rmChildren walk cwd ns fs log = some (fs, log) ∨
      rmChildren walk cwd ns fs log = none := by
  intro ns
  induction ns with
  | nil => intro log _; exact Or.inl rfl
  | cons n ns ih =>
    intro log hns
    rcases hns n (List.mem_cons_self _ _) log with hc | hc <;> rw [rmChildren, hc]
    · exact ih log (fun x hx => hns x (List.mem_cons_of_mem _ hx))
    · exact Or.inr rfl

theorem removeWalk_noop {s r : Path} {fs : FS}
    (hnd : nodupKeys fs) (hind : indepRootsB s r = true) (hsafe : safeKeysB fs s r = true)
    (hmir : mirrorsB fs s r = true) :
    ∀ (fuel : Nat) (cwd : Path), (cwd = r ∨ underB r cwd = true) → ∀ (log : Log),
      removeWalk s r fuel cwd fs log = some (fs, log) ∨
      removeWalk s r fuel cwd fs log = none := by
  intro fuel
  induction fuel with
  | zero => intro cwd hcwd log; exact Or.inr rfl
  | succ fuel ih =>
    intro cwd hcwd log
    have hchild : ∀ n : Path, underB r (cwd ++ '/' :: n) = true := by
      intro n
      rcases hcwd with rfl | hcwd
      · exact underB_join cwd n
      · exact underB_extend hcwd ('/' :: n)
    have hbody : removeWalk s r (fuel + 1) cwd fs log =
        (if isdirB fs cwd then
          rmChildren (removeWalk s r fuel) cwd (dirChildren fs cwd)
            (removeFiles s r cwd (fileChildren fs cwd)
              (removeFolders s r cwd (dirChildren fs cwd) fs log).1
              (removeFolders s r cwd (dirChildren fs cwd) fs log).2).1
            (removeFiles s r cwd (fileChildren fs cwd)
              (removeFolders s r cwd (dirChildren fs cwd) fs log).1
              (removeFolders s r cwd (dirChildren fs cwd) fs log).2).2
        else some (fs, log)) := rfl
    by_cases hd : isdirB fs cwd = true
    · have h1 : removeFolders s r cwd (dirChildren fs cwd) fs log = (fs, log) := by
        apply removeFolders_noop
        intro n hn
        obtain ⟨hget, hvn⟩ := dirChildren_sound hnd hn
        have hu := hchild n
        have hmap := mappedEq_rep hsafe hind (getNode_mem hget) hu
        have hne := nodeEq2_dir_inv (mirror_rep hmir hget hu)
        rw [isdirB, hmap, hne]
        simp
      have h2 : removeFiles s r cwd (fileChildren fs cwd)
          (removeFolders s r cwd (dirChildren fs cwd) fs log).1
          (removeFolders s r cwd (dirChildren fs cwd) fs log).2 = (fs, log) := by
        rw [h1]
        apply removeFiles_noop
        intro n hn
        obtain ⟨⟨c, t, rd, hget⟩, hvn⟩ := fileChildren_sound hnd hn
        have hu := hchild n
        have hmap := mappedEq_rep hsafe hind (getNode_mem hget) hu
        obtain ⟨t2, rd2, hget2⟩ := nodeEq2_file_inv (mirror_rep hmir hget hu)
        rw [← hmap] at hget2
        rw [isfileB, hget2]
      rw [hbody, if_pos hd, h2]
      exact rmChildren_noopOr (dirChildren fs cwd) log
        (fun n hn log0 => ih (cwd ++ '/' :: n) (Or.inr (hchild n)) log0)
    · rw [hbody, if_neg (by simpa using hd)]
      exact Or.inl rfl

/-- Claim C4 (amended): on a well-formed snapshot whose replica already
mirrors the source, a tick performs zero actions — if `sync_folders`
completes normally it returns the filesystem unchanged and an empty log.
The literal claim (zero actions on the second of two back-to-back runs)
fails, because a single tick need not establish the mirror invariant:
see the recorded counterexample, where the first run completes without
errors yet the second run still copies. -/
theorem C4_amended_noop_on_mirror (fuel : Nat) (s r : Path) (fs fs' : FS) (log' : Log)
    (hwf : wfInputB fs s r = true) (hrd : readableAllB fs = true)
    (hmir : mirrorsB fs s r = true)
    (hrun : sync_folders fuel s r fs = SyncResult.ok fs' log') :
    fs' = fs ∧ log' = [] := by
  obtain ⟨hnd, hind, hsafe, _, _, _⟩ := wfInput_unpack hwf
  rcases sync_folders_cases fuel s r fs with
    ⟨h1, he⟩ | ⟨h1, h2, he⟩ |
    ⟨h1, h2, ⟨_, he⟩ | ⟨f, l, _, he⟩ | ⟨f, l, ha, ⟨_, he⟩ | ⟨f2, l2, hb, he⟩⟩⟩
  · rw [he] at hrun; exact absurd hrun (by simp)
  · rw [he] at hrun; exact absurd hrun (by simp)
  · rw [he] at hrun; exact absurd hrun (by simp)
  · rw [he] at hrun; exact absurd hrun (by simp)
  · rw [he] at hrun; exact absurd hrun (by simp)
  · rw [he] at hrun
    injection hrun with hf2 hl2
    rcases addWalk_noop hnd hind hsafe hrd hmir fuel s (Or.inl rfl) [] with hA | hA
    · rw [add_files_to_replica, hA] at ha
      injection ha with haf hal
      rcases removeWalk_noop hnd hind hsafe hmir fuel r (Or.inl rfl) [] with hB | hB
      · rw [remove_files_from_replica, ← haf, ← hal, hB] at hb
        injection hb with hp
        injection hp with hpf hpl
        exact ⟨hf2 ▸ hpf.symm, hl2 ▸ hpl.symm⟩
      · rw [remove_files_from_replica, ← haf, ← hal, hB] at hb
        exact absurd hb (by simp)
    · rw [add_files_to_replica, hA] at ha
      exact absurd ha (by simp)

/-- Witness for the amended C4: on the mirrored snapshot `fsMir`
(fuel 4) the tick completes and changes nothing, logging nothing. -/
theorem C4_amended_noop_on_mirror_witness :
    (sync_folders 4 sR rR fsMir).fsOf = fsMir ∧ (sync_folders 4 sR rR fsMir).logOf = [] := by
  have hrun : sync_folders 4 sR rR fsMir =
      SyncResult.ok (sync_folders 4 sR rR fsMir).fsOf (sync_folders 4 sR rR fsMir).logOf := by
    decide
  exact C4_amended_noop_on_mirror 4 sR rR fsMir _ _ (by decide) (by decide) (by decide) hrun

/-! Infrastructure for the convergence claim: write discipline of the
additive phase, removal discipline of the pruner, and closure facts
about well-formed snapshots. -/

theorem addStep_refl (fs0 : FS) (s r : Path) (fsa : FS) : addStep fs0 s r fsa fsa :=
  fun q => Or.inl rfl

theorem addStep_trans {fs0 : FS} {s r : Path} {fsa fsb fsc : FS}
    (h1 : addStep fs0 s r fsa fsb) (h2 : addStep fs0 s r fsb fsc) :
    addStep fs0 s r fsa fsc := by
  intro q
  rcases h2 q with h | h
  · rcases h1 q with h3 | h3
    · exact Or.inl (h.trans h3)
    · exact Or.inr (h ▸ h3)
  · exact Or.inr h

theorem dirPres_refl (fsa : FS) : dirPres fsa fsa := fun _ h => h

theorem dirPres_trans {fsa fsb fsc : FS} (h1 : dirPres fsa fsb) (h2 : dirPres fsb fsc) :
    dirPres fsa fsc := fun q h => h2 q (h1 q h)

theorem rmStep_refl (r : Path) (fsa : FS) : rmStep r fsa fsa := fun _ => Or.inl rfl

theorem rmStep_trans {r : Path} {fsa fsb fsc : FS} (h1 : rmStep r fsa fsb)
    (h2 : rmStep r fsb fsc) : rmStep r fsa fsc := by
  intro q
  rcases h2 q with h | h
  · rcases h1 q with h3 | h3
    · exact Or.inl (h.trans h3)
    · exact Or.inr ⟨h3.1, h ▸ h3.2⟩
  · exact Or.inr h

theorem contentPres {fs0 : FS} {s r : Path} {fsa fsb : FS} {rel : Path} {c : List Nat}
    {t t2 : Nat} {rd : Bool} (hstep : addStep fs0 s r fsa fsb)
    (hsrc : getNode fs0 (s ++ '/' :: rel) = some (Node.file c t rd))
    (ha : getNode fsa (r ++ '/' :: rel) = some (Node.file c t2 true)) :
    ∃ t3, getNode fsb (r ++ '/' :: rel) = some (Node.file c t3 true) := by
  rcases hstep (r ++ '/' :: rel) with h | ⟨v, hv, rel2, hq, hvrel, hcase⟩
  · exact ⟨t2, h.trans ha⟩
  · have hrel : rel2 = rel := join_inj.mp hq.symm
    subst hrel
    rcases hcase with ⟨hd, _⟩ | ⟨c2, t4, hf, hveq⟩
    · rw [hsrc] at hd
      exact absurd hd (by simp)
    · rw [hsrc] at hf
      injection hf with hn
      injection hn with hc ht hrd2
      exact ⟨t4, by rw [hv, hveq, hc]⟩

theorem mappedDone_persist {fs0 : FS} {s r : Path} {fsa fsb : FS} {rel : Path}
    (hstep : addStep fs0 s r fsa fsb) (hdp : dirPres fsa fsb)
    (hmd : mappedDone fs0 fsa s r rel) : mappedDone fs0 fsb s r rel := by
  constructor
  · intro hdir
    have h1 := hmd.1 hdir
    rw [isdirB] at h1 ⊢
    simp only [decide_eq_true_eq] at h1 ⊢
    exact hdp _ h1
  · intro c t rd hsrc
    obtain ⟨t2, h2⟩ := hmd.2 c t rd hsrc
    exact contentPres hstep hsrc h2

theorem noErrors_split {l1 l2 : Log} (h : noErrorsB (l1 ++ l2) = true) :
    noErrorsB l1 = true ∧ noErrorsB l2 = true := by
  rw [noErrorsB, List.all_append] at h
  exact Bool.and_eq_true_iff.mp h

theorem under_s_not_r {s r q : Path} (hind : indepRootsB s r = true)
    (h : underB s q = true) : underB r q = false := by
  by_contra hx
  exact roots_zone_disjoint hind h (by simpa using hx)

theorem under_r_not_s {s r q : Path} (hind : indepRootsB s r = true)
    (h : underB r q = true) : underB s q = false := by
  by_contra hx
  exact roots_zone_disjoint hind (by simpa using hx) h

theorem dirClosed_root {fs : FS} {root : Path} (h : dirClosedB fs root = true) :
    getNode fs root = some Node.dir := by
  rw [dirClosedB, Bool.and_eq_true] at h
  have h1 := h.1
  rw [isdirB] at h1
  simpa using h1

theorem dirClosed_key {fs : FS} {root k : Path} {v : Node} (h : dirClosedB fs root = true)
    (hk : getNode fs k = some v) (hu : underB root k = true) :
    validRelB (keyRel root k) = true ∧ isdirB fs (dirnameOf k) = true := by
  rw [dirClosedB, Bool.and_eq_true] at h
  have h2 := (List.all_eq_true.mp h.2) _ (getNode_mem hk)
  simp only [hu, Bool.not_true, Bool.false_or, Bool.and_eq_true] at h2
  exact h2

theorem noConflict_key {fs : FS} {s r k : Path} {c : List Nat} {t : Nat} {rd : Bool}
    (h : noConflictB fs s r = true) (hk : getNode fs k = some (Node.file c t rd))
    (hu : underB s k = true) : isdirB fs (specMap s r k) = false := by
  rw [noConflictB] at h
  have h2 := (List.all_eq_true.mp h) _ (getNode_mem hk)
  simp only [hu, Bool.true_and, Bool.not_eq_true', Bool.or_eq_true] at h2
  rcases h2 with h2 | h2
  · simp at h2
  · exact h2

theorem validRelAux_append_slash :
    ∀ (a : Path) (flag : Bool) (b : Path),
      validRelAux flag (a ++ '/' :: b) = true → validRelAux true b = true := by
  intro a
  induction a with
  | nil =>
    intro flag b h
    cases flag with
    | true => simp [validRelAux] at h
    | false => simpa [validRelAux] using h
  | cons c a ih =>
    intro flag b h
    cases flag with
    | true =>
      rw [show (c :: a) ++ '/' :: b = c :: (a ++ '/' :: b) by simp] at h
      by_cases hc : c = '/'
      · rw [validRelAux, if_pos hc] at h
        simp at h
      · rw [validRelAux, if_neg hc] at h
        exact ih false b h
    | false =>
      rw [show (c :: a) ++ '/' :: b = c :: (a ++ '/' :: b) by simp] at h
      by_cases hc : c = '/'
      · rw [validRelAux, if_pos hc] at h
        exact ih true b h
      · rw [validRelAux, if_neg hc] at h
        exact ih false b h

theorem validRelB_tail {a b : Path} (h : validRelB (a ++ '/' :: b) = true) :
    validRelB b = true :=
  validRelAux_append_slash a true b h

theorem prefix_dir {fs : FS} {root : Path} (hdc : dirClosedB fs root = true) :
    ∀ (N : Nat) (b a : Path) (v : Node), b.length ≤ N →
      getNode fs (root ++ '/' :: (a ++ '/' :: b)) = some v →
      getNode fs (root ++ '/' :: a) = some Node.dir := by
  intro N
  induction N with
  | zero =>
    intro b a v hlen hk
    have hb : b = [] := List.length_eq_zero.mp (Nat.le_zero.mp hlen)
    subst hb
    have hval := (dirClosed_key hdc hk (underB_join root _)).1
    rw [keyRel_join] at hval
    have := validRelB_tail hval
    simp [validRelB, validRelAux] at this
  | succ N ih =>
    intro b a v hlen hk
    obtain ⟨hval, hdir⟩ := dirClosed_key hdc hk (underB_join root _)
    rw [keyRel_join] at hval
    have hvb : validRelB b = true := validRelB_tail hval
    by_cases hbs : b.contains '/' = true
    · obtain ⟨b1, bl, hbeq, hvb1, hvbl, hdnb, _⟩ := validRelB_backSplit hvb hbs
      have hk2 : getNode fs (root ++ '/' :: ((a ++ '/' :: b1) ++ '/' :: bl)) = some v := by
        rw [show (a ++ '/' :: b1) ++ '/' :: bl = a ++ '/' :: (b1 ++ '/' :: bl) by simp, ← hbeq]
        exact hk
      have hdir2 : getNode fs (root ++ '/' :: (a ++ '/' :: b1)) = some Node.dir := by
        have hdn : dirnameOf (root ++ '/' :: (a ++ '/' :: b)) =
            root ++ '/' :: (a ++ '/' :: b1) := by
          rw [dirnameOf_append, if_pos
            (by rw [show (a ++ '/' :: b).contains '/' = true by simp])]
          rw [show dirnameOf (a ++ '/' :: b) = a ++ '/' :: b1 by
            rw [dirnameOf_append, if_pos hbs, hdnb]]
        rw [hdn] at hdir
        rw [isdirB] at hdir
        simpa using hdir
      have hlb1 : b1.length ≤ N := by
        have : b.length = b1.length + 1 + bl.length := by rw [hbeq]; simp; omega
        omega
      exact ih b1 a Node.dir hlb1 hdir2
    · have hdn : dirnameOf (root ++ '/' :: (a ++ '/' :: b)) = root ++ '/' :: a := by
        rw [dirnameOf_append, if_pos
          (by rw [show (a ++ '/' :: b).contains '/' = true by simp])]
        rw [show dirnameOf (a ++ '/' :: b) = a by
          rw [dirnameOf_append, if_neg (by simpa using hbs)]]
      rw [hdn] at hdir
      rw [isdirB] at hdir
      simpa using hdir

theorem makedirsF_master (s r : Path) (fs0 : FS)
    (hdcs : dirClosedB fs0 s = true) (hdcr : dirClosedB fs0 r = true) :
    ∀ (fuel : Nat) (rel : Path) (fsa : FS),
      nodupKeys fsa → addStep fs0 s r fs0 fsa →
      getNode fs0 (s ++ '/' :: rel) = some Node.dir → validRelB rel = true →
      nodupKeys (makedirsF fuel fsa (r ++ '/' :: rel)).1 ∧
      addStep fs0 s r fsa (makedirsF fuel fsa (r ++ '/' :: rel)).1 ∧
      dirPres fsa (makedirsF fuel fsa (r ++ '/' :: rel)).1 ∧
      ((makedirsF fuel fsa (r ++ '/' :: rel)).2 = true →
        getNode (makedirsF fuel fsa (r ++ '/' :: rel)).1 (r ++ '/' :: rel) = some Node.dir) := by
  intro fuel
  induction fuel with
  | zero =>
    intro rel fsa hnd hinv hsrc hrel
    exact ⟨hnd, addStep_refl _ _ _ _, dirPres_refl _, fun h => by simp [makedirsF] at h⟩
  | succ fuel ih =>
    intro rel fsa hnd hinv hsrc hrel
    have hbody : makedirsF (fuel + 1) fsa (r ++ '/' :: rel) =
        (match (if dirnameOf (r ++ '/' :: rel) ≠ [] ∧
            getNode fsa (dirnameOf (r ++ '/' :: rel)) = none then
          makedirsF fuel fsa (dirnameOf (r ++ '/' :: rel)) else (fsa, true)) with
        | (fs₁, true) =>
          if getNode fs₁ (r ++ '/' :: rel) = none ∧ (dirnameOf (r ++ '/' :: rel) = [] ∨
              isdirB fs₁ (dirnameOf (r ++ '/' :: rel))) then
            (setNode fs₁ (r ++ '/' :: rel) Node.dir, true)
          else (fs₁, false)
        | (fs₁, false) => (fs₁, false)) := rfl
    have hfin : ∀ (hd : Path) (fs₁ : FS), nodupKeys fs₁ → addStep fs0 s r fsa fs₁ →
        dirPres fsa fs₁ →
        ∀ res : FS × Bool,
        res = (if getNode fs₁ (r ++ '/' :: rel) = none ∧ (hd = [] ∨ isdirB fs₁ hd) then
          (setNode fs₁ (r ++ '/' :: rel) Node.dir, true)
        else (fs₁, false)) →
        nodupKeys res.1 ∧ addStep fs0 s r fsa res.1 ∧ dirPres fsa res.1 ∧
        (res.2 = true → getNode res.1 (r ++ '/' :: rel) = some Node.dir) := by
      intro hd fs₁ hnd₁ hstep₁ hdp₁ res hres
      by_cases hc : getNode fs₁ (r ++ '/' :: rel) = none ∧ (hd = [] ∨ isdirB fs₁ hd)
      · rw [if_pos hc] at hres
        subst hres
        refine ⟨nodupKeys_setNode _ _ hnd₁, ?_, ?_, fun _ => getNode_setNode_self _ _ _⟩
        · apply addStep_trans hstep₁
          intro q
          by_cases hq : q = r ++ '/' :: rel
          · subst hq
            exact Or.inr ⟨Node.dir, getNode_setNode_self _ _ _,
              rel, rfl, hrel, Or.inl ⟨hsrc, rfl⟩⟩
          · exact Or.inl (getNode_setNode_ne _ _ _ _ hq)
        · intro q hq
          by_cases hq2 : q = r ++ '/' :: rel
          · subst hq2
            exact getNode_setNode_self _ _ _
          · rw [getNode_setNode_ne _ _ _ _ hq2]
            exact hdp₁ q hq
      · rw [if_neg hc] at hres
        subst hres
        exact ⟨hnd₁, hstep₁, hdp₁, fun h => by simp at h⟩
    by_cases hrec : dirnameOf (r ++ '/' :: rel) ≠ [] ∧
        getNode fsa (dirnameOf (r ++ '/' :: rel)) = none
    · have hslash : rel.contains '/' = true := by
        by_contra hx
        have hx2 : rel.contains '/' = false := by simpa using hx
        have hhead : dirnameOf (r ++ '/' :: rel) = r := by
          rw [dirnameOf_append, if_neg (by simpa using hx2)]
        rw [hhead] at hrec
        have hra : getNode fsa r = some Node.dir := by
          rcases hinv r with h | ⟨v, hv, rel2, hq, _, _⟩
          · rw [h]
            exact dirClosed_root hdcr
          · exact absurd hq.symm (underB_ne (underB_join r rel2))
        rw [hra] at hrec
        exact absurd hrec.2 (by simp)
      obtain ⟨rel1, nl, hreleq, hvrel1, hvnl, hdnrel, _⟩ := validRelB_backSplit hrel hslash
      have hhead : dirnameOf (r ++ '/' :: rel) = r ++ '/' :: rel1 := by
        rw [dirnameOf_append, if_pos hslash, hdnrel]
      have hsrc1 : getNode fs0 (s ++ '/' :: rel1) = some Node.dir := by
        have hdir := (dirClosed_key hdcs hsrc (underB_join s rel)).2
        rw [show dirnameOf (s ++ '/' :: rel) = s ++ '/' :: rel1 by
          rw [dirnameOf_append, if_pos hslash, hdnrel]] at hdir
        rw [isdirB] at hdir
        simpa using hdir
      obtain ⟨hnd₁, hstep₁, hdp₁, _⟩ := ih rel1 fsa hnd hinv hsrc1 hvrel1
      rw [hbody, if_pos hrec]
      rw [hhead]
      cases hst : makedirsF fuel fsa (r ++ '/' :: rel1) with
      | mk fs₁ fl =>
        rw [hst] at hnd₁ hstep₁ hdp₁
        cases fl with
        | true =>
          exact hfin (r ++ '/' :: rel1) fs₁ hnd₁ hstep₁ hdp₁ _ rfl
        | false =>
          exact ⟨hnd₁, hstep₁, hdp₁, fun h => by simp at h⟩
    · rw [hbody, if_neg hrec]
      exact hfin (dirnameOf (r ++ '/' :: rel)) fsa hnd (addStep_refl _ _ _ _)
        (dirPres_refl _) _ rfl

theorem processFolder_master (s r : Path) (fs0 : FS)
    (hind : indepRootsB s r = true) (hsafe : safeKeysB fs0 s r = true)
    (hdcs : dirClosedB fs0 s = true) (hdcr : dirClosedB fs0 r = true)
    (cwd n : Path) (fsa : FS) (log : Log)
    (hnd : nodupKeys fsa) (hinv : addStep fs0 s r fs0 fsa)
    (hu : underB s (cwd ++ '/' :: n) = true)
    (hsrc : getNode fs0 (cwd ++ '/' :: n) = some Node.dir) :
    nodupKeys (processFolder s r fsa log cwd n).1 ∧
    addStep fs0 s r fsa (processFolder s r fsa log cwd n).1 ∧
    dirPres fsa (processFolder s r fsa log cwd n).1 ∧
    (∃ dl, (processFolder s r fsa log cwd n).2 = log ++ dl ∧
      ((∃ e ∈ dl, e.isError = true) ∨
        getNode (processFolder s r fsa log cwd n).1
          (r ++ '/' :: keyRel s (cwd ++ '/' :: n)) = some Node.dir)) := by
  obtain ⟨rel, heq⟩ := underB_iff.mp hu
  have hkr : keyRel s (cwd ++ '/' :: n) = rel := by rw [heq, keyRel_join]
  have hmap : replaceAll (cwd ++ '/' :: n) s r = r ++ '/' :: rel := by
    rw [mappedEq_src hsafe hind (getNode_mem hsrc) hu, specMap, heq, tailFrom_join]
  have hvrel : validRelB rel = true := by
    have h2 := (dirClosed_key hdcs hsrc hu).1
    rwa [hkr] at h2
  have hsrc2 : getNode fs0 (s ++ '/' :: rel) = some Node.dir := by rw [← heq]; exact hsrc
  rw [hkr]
  have hbody : processFolder s r fsa log cwd n =
      (if isdirB fsa (replaceAll (cwd ++ '/' :: n) s r) then (fsa, log)
      else
        match makedirsFS fsa (replaceAll (cwd ++ '/' :: n) s r) with
        | (fs', true) => (fs', log ++ [Ev.creating (replaceAll (cwd ++ '/' :: n) s r)])
        | (fs', false) => (fs', log ++ [Ev.creating (replaceAll (cwd ++ '/' :: n) s r),
            Ev.errCreating (replaceAll (cwd ++ '/' :: n) s r)])) := rfl
  rw [hbody, hmap]
  by_cases hdir : isdirB fsa (r ++ '/' :: rel) = true
  · rw [if_pos hdir]
    refine ⟨hnd, addStep_refl _ _ _ _, dirPres_refl _, [], by simp, Or.inr ?_⟩
    rw [isdirB] at hdir
    simpa using hdir
  · rw [if_neg hdir]
    have hmk := makedirsF_master s r fs0 hdcs hdcr (r ++ '/' :: rel).length rel fsa
      hnd hinv hsrc2 hvrel
    rw [show makedirsF (r ++ '/' :: rel).length fsa (r ++ '/' :: rel) =
      makedirsFS fsa (r ++ '/' :: rel) from rfl] at hmk
    obtain ⟨hnd₁, hstep₁, hdp₁, hflag⟩ := hmk
    cases hst : makedirsFS fsa (r ++ '/' :: rel) with
    | mk fs₁ fl =>
      rw [hst] at hnd₁ hstep₁ hdp₁ hflag
      cases fl with
      | true =>
        exact ⟨hnd₁, hstep₁, hdp₁, [Ev.creating (r ++ '/' :: rel)], rfl,
          Or.inr (hflag rfl)⟩
      | false =>
        exact ⟨hnd₁, hstep₁, hdp₁,
          [Ev.creating (r ++ '/' :: rel), Ev.errCreating (r ++ '/' :: rel)], rfl,
          Or.inl ⟨Ev.errCreating (r ++ '/' :: rel), by simp, rfl⟩⟩

theorem addFolders_master (s r : Path) (fs0 : FS)
    (hind : indepRootsB s r = true) (hsafe : safeKeysB fs0 s r = true)
    (hdcs : dirClosedB fs0 s = true) (hdcr : dirClosedB fs0 r = true) (cwd : Path) :
    ∀ (ns : List Path) (fsa : FS) (log : Log),
      nodupKeys fsa → addStep fs0 s r fs0 fsa →
      (∀ n ∈ ns, underB s (cwd ++ '/' :: n) = true ∧
        getNode fs0 (cwd ++ '/' :: n) = some Node.dir) →
      nodupKeys (addFolders s r cwd ns fsa log).1 ∧
      addStep fs0 s r fsa (addFolders s r cwd ns fsa log).1 ∧
      dirPres fsa (addFolders s r cwd ns fsa log).1 ∧
      (∃ dl, (addFolders s r cwd ns fsa log).2 = log ++ dl) ∧
      (noErrorsB (addFolders s r cwd ns fsa log).2 = true → ∀ n ∈ ns,
        getNode (addFolders s r cwd ns fsa log).1
          (r ++ '/' :: keyRel s (cwd ++ '/' :: n)) = some Node.dir) := by
  intro ns
  induction ns with
  | nil =>
    intro fsa log hnd hinv _
    exact ⟨hnd, addStep_refl _ _ _ _, dirPres_refl _, ⟨[], by simp [addFolders]⟩,
      fun _ n hn => by simp at hn⟩
  | cons n ns ih =>
    intro fsa log hnd hinv hns
    have hstep : addFolders s r cwd (n :: ns) fsa log =
        addFolders s r cwd ns (processFolder s r fsa log cwd n).1
          (processFolder s r fsa log cwd n).2 := by
      rw [addFolders, addFolders, List.foldl_cons]
    obtain ⟨hnd₁, hstep₁, hdp₁, dl, hdl, hres⟩ := processFolder_master s r fs0 hind hsafe
      hdcs hdcr cwd n fsa log hnd hinv (hns n (List.mem_cons_self _ _)).1
      (hns n (List.mem_cons_self _ _)).2
    obtain ⟨hnd₂, hstep₂, hdp₂, ⟨dl₂, hdl₂⟩, hcond₂⟩ := ih
      (processFolder s r fsa log cwd n).1 (processFolder s r fsa log cwd n).2
      hnd₁ (addStep_trans hinv hstep₁)
      (fun x hx => hns x (List.mem_cons_of_mem _ hx))
    rw [hstep]
    refine ⟨hnd₂, addStep_trans hstep₁ hstep₂, dirPres_trans hdp₁ hdp₂,
      ⟨dl ++ dl₂, by rw [hdl₂, hdl]; simp⟩, ?_⟩
    intro hne x hx
    rcases List.mem_cons.mp hx with rfl | hx2
    · rcases hres with ⟨e, he, hiserr⟩ | hres
      · exfalso
        rw [hdl₂, hdl] at hne
        have h3 := ((noErrors_split ((noErrors_split hne).1)).2)
        rw [noErrorsB] at h3
        have h4 := (List.all_eq_true.mp h3) e he
        rw [hiserr] at h4
        simp at h4
      · exact hdp₂ _ hres
    · exact hcond₂ hne x hx2

theorem processFile_master (s r : Path) (fs0 : FS)
    (hind : indepRootsB s r = true) (hsafe : safeKeysB fs0 s r = true)
    (hdcs : dirClosedB fs0 s = true) (hnc : noConflictB fs0 s r = true)
    (hrd : readableAllB fs0 = true)
    (cwd n : Path) (fsa : FS) (log : Log)
    (hnd : nodupKeys fsa) (hinv : addStep fs0 s r fs0 fsa)
    (hu : underB s (cwd ++ '/' :: n) = true)
    {c : List Nat} {t : Nat} {rd : Bool}
    (hsrc0 : getNode fs0 (cwd ++ '/' :: n) = some (Node.file c t rd)) :
    ∃ fs' log', processFile s r fsa log cwd n = some (fs', log') ∧
      nodupKeys fs' ∧ addStep fs0 s r fsa fs' ∧ dirPres fsa fs' ∧
      (∃ dl, log' = log ++ dl ∧
        ((∃ e ∈ dl, e.isError = true) ∨
          ∃ t2, getNode fs' (r ++ '/' :: keyRel s (cwd ++ '/' :: n)) =
            some (Node.file c t2 true))) := by
  obtain ⟨rel, heq⟩ := underB_iff.mp hu
  have hkr : keyRel s (cwd ++ '/' :: n) = rel := by rw [heq, keyRel_join]
  have hrd1 : rd = true := readable_of_all hrd hsrc0
  subst hrd1
  have hsrc : getNode fs0 (s ++ '/' :: rel) = some (Node.file c t true) := by
    rw [← heq]; exact hsrc0
  have hvrel : validRelB rel = true := by
    have h2 := (dirClosed_key hdcs hsrc0 hu).1
    rwa [hkr] at h2
  have hmap : replaceAll (cwd ++ '/' :: n) s r = r ++ '/' :: rel := by
    rw [mappedEq_src hsafe hind (getNode_mem hsrc0) hu, specMap, heq, tailFrom_join]
  have hur : underB r (cwd ++ '/' :: n) = false := under_s_not_r hind hu
  have hsp : getNode fsa (cwd ++ '/' :: n) = some (Node.file c t true) := by
    rcases hinv (cwd ++ '/' :: n) with h | ⟨v, hv, rel2, hq, _, _⟩
    · rw [h]; exact hsrc0
    · rw [hq] at hur
      rw [underB_join] at hur
      simp at hur
  have hdirF : isdirB fsa (r ++ '/' :: rel) = false := by
    by_contra hx
    have hx2 : getNode fsa (r ++ '/' :: rel) = some Node.dir := by
      have : isdirB fsa (r ++ '/' :: rel) = true := by simpa using hx
      rw [isdirB] at this
      simpa using this
    rcases hinv (r ++ '/' :: rel) with h | ⟨v, hv, rel2, hq, _, hcase⟩
    · have hnc2 := noConflict_key hnc hsrc0 hu
      rw [specMap, heq, tailFrom_join] at hnc2
      rw [isdirB, h.symm.trans hx2] at hnc2
      simp at hnc2
    · have hrel2 : rel2 = rel := join_inj.mp hq.symm
      subst hrel2
      rw [hv] at hx2
      injection hx2 with hveq
      rcases hcase with ⟨hd, _⟩ | ⟨c2, t2, hf, hveq2⟩
      · rw [hsrc] at hd
        exact absurd hd (by simp)
      · rw [hveq2] at hveq
        exact Node.noConfusion hveq
  have hca : ∃ fs' log', copyAttempt fsa log (cwd ++ '/' :: n) (r ++ '/' :: rel) =
      (fs', log') ∧ nodupKeys fs' ∧ addStep fs0 s r fsa fs' ∧ dirPres fsa fs' ∧
      (∃ dl, log' = log ++ dl ∧
        ((∃ e ∈ dl, e.isError = true) ∨
          ∃ t2, getNode fs' (r ++ '/' :: rel) = some (Node.file c t2 true))) := by
    have hc2 : copy2FS fsa (cwd ++ '/' :: n) (r ++ '/' :: rel) =
        (if parentOkB fsa (r ++ '/' :: rel) then
          some (setNode fsa (r ++ '/' :: rel) (Node.file c t true)) else none) := by
      have hb : copy2FS fsa (cwd ++ '/' :: n) (r ++ '/' :: rel) =
          (match getNode fsa (cwd ++ '/' :: n) with
          | some (Node.file c0 t0 true) =>
            if isdirB fsa (if isdirB fsa (r ++ '/' :: rel) then
                (r ++ '/' :: rel) ++ '/' :: basenameOf (cwd ++ '/' :: n)
              else (r ++ '/' :: rel)) then none
            else if parentOkB fsa (if isdirB fsa (r ++ '/' :: rel) then
                (r ++ '/' :: rel) ++ '/' :: basenameOf (cwd ++ '/' :: n)
              else (r ++ '/' :: rel)) then
              some (setNode fsa (if isdirB fsa (r ++ '/' :: rel) then
                  (r ++ '/' :: rel) ++ '/' :: basenameOf (cwd ++ '/' :: n)
                else (r ++ '/' :: rel)) (Node.file c0 t0 true))
            else none
          | _ => none) := rfl
      rw [hb, hsp]
      simp only [hdirF, Bool.false_eq_true, if_false]
    rw [copyAttempt]
    rw [hc2]
    by_cases hpk : parentOkB fsa (r ++ '/' :: rel) = true
    · rw [if_pos hpk]
      simp only
      refine ⟨_, _, rfl, nodupKeys_setNode _ _ hnd, ?_, ?_,
        [Ev.copying (cwd ++ '/' :: n) (r ++ '/' :: rel)], rfl,
        Or.inr ⟨t, getNode_setNode_self _ _ _⟩⟩
      · intro q
        by_cases hq : q = r ++ '/' :: rel
        · subst hq
          exact Or.inr ⟨Node.file c t true, getNode_setNode_self _ _ _,
            rel, rfl, hvrel, Or.inr ⟨c, t, hsrc, rfl⟩⟩
        · exact Or.inl (getNode_setNode_ne _ _ _ _ hq)
      · intro q hq
        by_cases hq2 : q = r ++ '/' :: rel
        · subst hq2
          rw [isdirB] at hdirF
          rw [hq] at hdirF
          simp at hdirF
        · rw [getNode_setNode_ne _ _ _ _ hq2]
          exact hq
    · rw [if_neg hpk]
      simp only
      exact ⟨_, _, rfl, hnd, addStep_refl _ _ _ _, dirPres_refl _,
        [Ev.copying (cwd ++ '/' :: n) (r ++ '/' :: rel),
          Ev.errCopying (cwd ++ '/' :: n) (r ++ '/' :: rel)], by simp,
        Or.inl ⟨Ev.errCopying (cwd ++ '/' :: n) (r ++ '/' :: rel), by simp, rfl⟩⟩
  have hbody : processFile s r fsa log cwd n =
      (if isfileB fsa (replaceAll (cwd ++ '/' :: n) s r) then
        match are_same_files fsa (cwd ++ '/' :: n) (replaceAll (cwd ++ '/' :: n) s r) with
        | none => none
        | some true => some (fsa, log)
        | some false => some (copyAttempt fsa log (cwd ++ '/' :: n)
            (replaceAll (cwd ++ '/' :: n) s r))
      else some (copyAttempt fsa log (cwd ++ '/' :: n)
        (replaceAll (cwd ++ '/' :: n) s r))) := rfl
  rw [hkr]
  rw [hbody, hmap]
  by_cases hfb : isfileB fsa (r ++ '/' :: rel) = true
  · rw [if_pos hfb]
    have hget : ∃ c2 t2 rd2, getNode fsa (r ++ '/' :: rel) = some (Node.file c2 t2 rd2) := by
      rw [isfileB] at hfb
      match hg : getNode fsa (r ++ '/' :: rel) with
      | some (Node.file c2 t2 rd2) => exact ⟨c2, t2, rd2, rfl⟩
      | some Node.dir => rw [hg] at hfb; simp at hfb
      | none => rw [hg] at hfb; simp at hfb
    obtain ⟨c2, t2, rd2, hg⟩ := hget
    have hrd2 : rd2 = true := by
      rcases hinv (r ++ '/' :: rel) with h | ⟨v, hv, rel2, hq, _, hcase⟩
      · exact readable_of_all hrd (h.symm.trans hg)
      · have hrel2 : rel2 = rel := join_inj.mp hq.symm
        subst hrel2
        rw [hv] at hg
        injection hg with hveq
        rcases hcase with ⟨_, hd⟩ | ⟨c3, t3, _, hveq2⟩
        · rw [hd] at hveq
          exact Node.noConfusion hveq
        · rw [hveq2] at hveq
          injection hveq with _ _ h3
          exact h3.symm
    subst hrd2
    have hsame : are_same_files fsa (cwd ++ '/' :: n) (r ++ '/' :: rel) =
        some (c == c2) := by
      rw [are_same_files, hsp, hg]
    rw [hsame]
    by_cases hceq : c = c2
    · subst hceq
      rw [show (c == c) = true by simp]
      exact ⟨fsa, log, rfl, hnd, addStep_refl _ _ _ _, dirPres_refl _,
        [], by simp, Or.inr ⟨t2, hg⟩⟩
    · rw [show (c == c2) = false by simp [hceq]]
      obtain ⟨fs', log', hca2, h1, h2, h3, h4⟩ := hca
      exact ⟨fs', log', by rw [hca2], h1, h2, h3, h4⟩
  · rw [if_neg hfb]
    obtain ⟨fs', log', hca2, h1, h2, h3, h4⟩ := hca
    exact ⟨fs', log', by rw [hca2], h1, h2, h3, h4⟩

theorem addFiles_master (s r : Path) (fs0 : FS)
    (hind : indepRootsB s r = true) (hsafe : safeKeysB fs0 s r = true)
    (hdcs : dirClosedB fs0 s = true) (hnc : noConflictB fs0 s r = true)
    (hrd : readableAllB fs0 = true) (cwd : Path) :
    ∀ (ns : List Path) (fsa : FS) (log : Log),
      nodupKeys fsa → addStep fs0 s r fs0 fsa →
      (∀ n ∈ ns, underB s (cwd ++ '/' :: n) = true ∧
        ∃ c t rd, getNode fs0 (cwd ++ '/' :: n) = some (Node.file c t rd)) →
      ∃ fs' log', addFiles s r cwd ns fsa log = WalkRes.done fs' log' ∧
        nodupKeys fs' ∧ addStep fs0 s r fsa fs' ∧ dirPres fsa fs' ∧
        (∃ dl, log' = log ++ dl) ∧
        (noErrorsB log' = true → ∀ n ∈ ns, ∀ c t rd,
          getNode fs0 (cwd ++ '/' :: n) = some (Node.file c t rd) →
          ∃ t2, getNode fs' (r ++ '/' :: keyRel s (cwd ++ '/' :: n)) =
            some (Node.file c t2 true)) := by
  intro ns
  induction ns with
  | nil =>
    intro fsa log hnd hinv _
    exact ⟨fsa, log, rfl, hnd, addStep_refl _ _ _ _, dirPres_refl _, ⟨[], by simp⟩,
      fun _ n hn => by simp at hn⟩
  | cons n ns ih =>
    intro fsa log hnd hinv hns
    obtain ⟨hu, cc, tt, rdd, hsrc0⟩ := hns n (List.mem_cons_self _ _)
    obtain ⟨fs₁, log₁, hpf, hnd₁, hstep₁, hdp₁, dl, hdl, hres⟩ := processFile_master s r fs0
      hind hsafe hdcs hnc hrd cwd n fsa log hnd hinv hu hsrc0
    obtain ⟨fs', log', hadd, hnd₂, hstep₂, hdp₂, ⟨dl₂, hdl₂⟩, hcond₂⟩ := ih fs₁ log₁
      hnd₁ (addStep_trans hinv hstep₁) (fun x hx => hns x (List.mem_cons_of_mem _ hx))
    refine ⟨fs', log', ?_, hnd₂, addStep_trans hstep₁ hstep₂, dirPres_trans hdp₁ hdp₂,
      ⟨dl ++ dl₂, by rw [hdl₂, hdl]; simp⟩, ?_⟩
    · rw [addFiles, hpf]
      exact hadd
    · intro hne x hx c t rd hsrcx
      rcases List.mem_cons.mp hx with rfl | hx2
      · rcases hres with ⟨e, he, hiserr⟩ | ⟨t2, hres⟩
        · exfalso
          rw [hdl₂, hdl] at hne
          have h3 := ((noErrors_split ((noErrors_split hne).1)).2)
          rw [noErrorsB] at h3
          have h4 := (List.all_eq_true.mp h3) e he
          rw [hiserr] at h4
          simp at h4
        · rw [hsrcx] at hsrc0
          injection hsrc0 with hn2
          injection hn2 with hc2 ht2 hrd2
          obtain ⟨rel, heq⟩ := underB_iff.mp hu
          have hkr : keyRel s (cwd ++ '/' :: x) = rel := by rw [heq, keyRel_join]
          rw [hkr] at hres ⊢
          have hsrcrel : getNode fs0 (s ++ '/' :: rel) = some (Node.file c t rd) := by
            rw [← heq]; exact hsrcx
          rw [← hc2] at hres
          exact contentPres hstep₂ hsrcrel hres
      · exact hcond₂ hne x hx2 c t rd hsrcx

theorem runChildren_master (s r : Path) (fs0 : FS) (cwd : Path)
    (walk : Path → FS → Log → WalkRes) :
    ∀ (ns : List Path) (fsa : FS) (login : Log) (fsb : FS) (logout : Log),
      nodupKeys fsa → addStep fs0 s r fs0 fsa →
      (∀ n ∈ ns, ∀ (fsx : FS) (logx : Log) (fsy : FS) (logy : Log),
        nodupKeys fsx → addStep fs0 s r fs0 fsx →
        walk (cwd ++ '/' :: n) fsx logx = WalkRes.done fsy logy →
        (nodupKeys fsy ∧ addStep fs0 s r fsx fsy ∧ dirPres fsx fsy ∧
          ∃ dl, logy = logx ++ dl) ∧
        (noErrorsB logy = true → mappedAll fs0 fsy s r (cwd ++ '/' :: n))) →
      runChildren walk cwd ns fsa login = WalkRes.done fsb logout →
      (nodupKeys fsb ∧ addStep fs0 s r fsa fsb ∧ dirPres fsa fsb ∧
        ∃ dl, logout = login ++ dl) ∧
      (noErrorsB logout = true → ∀ n ∈ ns, mappedAll fs0 fsb s r (cwd ++ '/' :: n)) := by
  intro ns
  induction ns with
  | nil =>
    intro fsa login fsb logout hnd hinv _ hrun
    rw [runChildren] at hrun
    injection hrun with h1 h2
    subst h1; subst h2
    exact ⟨⟨hnd, addStep_refl _ _ _ _, dirPres_refl _, [], by simp⟩,
      fun _ n hn => by simp at hn⟩
  | cons n ns ih =>
    intro fsa login fsb logout hnd hinv hchild hrun
    rw [runChildren] at hrun
    cases hw : walk (cwd ++ '/' :: n) fsa login with
    | done fsy logy =>
      rw [hw] at hrun
      obtain ⟨⟨hndy, hstepy, hdpy, dl, hdl⟩, hcondy⟩ :=
        hchild n (List.mem_cons_self _ _) fsa login fsy logy hnd hinv hw
      obtain ⟨⟨hndb, hstepb, hdpb, dl₂, hdl₂⟩, hcondb⟩ := ih fsy logy fsb logout hndy
        (addStep_trans hinv hstepy) (fun x hx => hchild x (List.mem_cons_of_mem _ hx)) hrun
      refine ⟨⟨hndb, addStep_trans hstepy hstepb, dirPres_trans hdpy hdpb,
        dl ++ dl₂, by rw [hdl₂, hdl]; simp⟩, ?_⟩
      intro hne x hx
      have hney : noErrorsB logy = true := by
        rw [hdl₂] at hne
        exact (noErrors_split hne).1
      rcases List.mem_cons.mp hx with rfl | hx2
      · intro k v hk hu
        exact mappedDone_persist hstepb hdpb (hcondy hney k v hk hu)
      · exact hcondb hne x hx2
    | ioErr fsy logy =>
      rw [hw] at hrun
      exact absurd hrun (by simp)
    | fuelOut =>
      rw [hw] at hrun
      exact absurd hrun (by simp)

theorem addWalk_master (s r : Path) (fs0 : FS)
    (hind : indepRootsB s r = true) (hsafe : safeKeysB fs0 s r = true)
    (hdcs : dirClosedB fs0 s = true) (hdcr : dirClosedB fs0 r = true)
    (hnc : noConflictB fs0 s r = true) (hrd : readableAllB fs0 = true) :
    ∀ (fuel : Nat) (cwd : Path) (fsa : FS) (login : Log) (fsb : FS) (logout : Log),
      (cwd = s ∨ underB s cwd = true) →
      nodupKeys fsa → addStep fs0 s r fs0 fsa →
      addWalk s r fuel cwd fsa login = WalkRes.done fsb logout →
      (nodupKeys fsb ∧ addStep fs0 s r fsa fsb ∧ dirPres fsa fsb ∧
        ∃ dl, logout = login ++ dl) ∧
      (noErrorsB logout = true → mappedAll fs0 fsb s r cwd) := by
  intro fuel
  induction fuel with
  | zero =>
    intro cwd fsa login fsb logout _ _ _ hrun
    exact absurd hrun (by simp [addWalk])
  | succ fuel ih =>
    intro cwd fsa login fsb logout hcwd hnd hinv hrun
    have hchild_u : ∀ n : Path, underB s (cwd ++ '/' :: n) = true := by
      intro n
      rcases hcwd with rfl | hcwd
      · exact underB_join cwd n
      · exact underB_extend hcwd ('/' :: n)
    have hcur : ∀ q, underB s q = true ∨ q = s → getNode fsa q = getNode fs0 q := by
      intro q hq
      rcases hinv q with h | ⟨v, hv, rel2, hq2, _, _⟩
      · exact h
      · exfalso
        have hurq : underB r q = true := by rw [hq2]; exact underB_join r rel2
        rcases hq with hq | rfl
        · exact roots_zone_disjoint hind hq hurq
        · rw [(root_not_under hind).2] at hurq
          simp at hurq
    have hbody : addWalk s r (fuel + 1) cwd fsa login =
        (if isdirB fsa cwd then
          match addFiles s r cwd (fileChildren fsa cwd)
              (addFolders s r cwd (dirChildren fsa cwd) fsa login).1
              (addFolders s r cwd (dirChildren fsa cwd) fsa login).2 with
          | WalkRes.done fs2 log2 =>
            runChildren (addWalk s r fuel) cwd (dirChildren fsa cwd) fs2 log2
          | e => e
        else WalkRes.done fsa login) := rfl
    rw [hbody] at hrun
    by_cases hd : isdirB fsa cwd = true
    · rw [if_pos hd] at hrun
      have hfolders : ∀ n ∈ dirChildren fsa cwd, underB s (cwd ++ '/' :: n) = true ∧
          getNode fs0 (cwd ++ '/' :: n) = some Node.dir := by
        intro n hn
        obtain ⟨hget, _⟩ := dirChildren_sound hnd hn
        refine ⟨hchild_u n, ?_⟩
        rw [← hcur (cwd ++ '/' :: n) (Or.inl (hchild_u n))]
        exact hget
      have hfiles : ∀ n ∈ fileChildren fsa cwd, underB s (cwd ++ '/' :: n) = true ∧
          ∃ c t rd, getNode fs0 (cwd ++ '/' :: n) = some (Node.file c t rd) := by
        intro n hn
        obtain ⟨⟨c, t, rd, hget⟩, _⟩ := fileChildren_sound hnd hn
        refine ⟨hchild_u n, c, t, rd, ?_⟩
        rw [← hcur (cwd ++ '/' :: n) (Or.inl (hchild_u n))]
        exact hget
      obtain ⟨hnd₁, hstep₁, hdp₁, ⟨dl₁, hdl₁⟩, hcond₁⟩ := addFolders_master s r fs0 hind
        hsafe hdcs hdcr cwd (dirChildren fsa cwd) fsa login hnd hinv hfolders
      obtain ⟨fs₂, log₂, haf, hnd₂, hstep₂, hdp₂, ⟨dl₂, hdl₂⟩, hcond₂⟩ := addFiles_master
        s r fs0 hind hsafe hdcs hnc hrd cwd (fileChildren fsa cwd)
        (addFolders s r cwd (dirChildren fsa cwd) fsa login).1
        (addFolders s r cwd (dirChildren fsa cwd) fsa login).2
        hnd₁ (addStep_trans hinv hstep₁) hfiles
      rw [haf] at hrun
      obtain ⟨⟨hnd₃, hstep₃, hdp₃, dl₃, hdl₃⟩, hcond₃⟩ := runChildren_master s r fs0 cwd
        (addWalk s r fuel) (dirChildren fsa cwd) fs₂ log₂ fsb logout hnd₂
        (addStep_trans (addStep_trans hinv hstep₁) hstep₂)
        (fun x hx fsx logx fsy logy hndx hinvx hwx =>
          ih (cwd ++ '/' :: x) fsx logx fsy logy (Or.inr (hchild_u x)) hndx hinvx hwx)
        hrun
      have hstep₁₂ := addStep_trans hstep₁ hstep₂
      refine ⟨⟨hnd₃, addStep_trans hstep₁₂ hstep₃,
        dirPres_trans (dirPres_trans hdp₁ hdp₂) hdp₃, ?_, ?_⟩, ?_⟩
      · exact dl₁ ++ dl₂ ++ dl₃
      · rw [hdl₃, hdl₂, hdl₁]
        simp
      · intro hne k v hk hu
        have hne₂ : noErrorsB log₂ = true := by
          rw [hdl₃] at hne
          exact (noErrors_split hne).1
        have hne₁ : noErrorsB (addFolders s r cwd (dirChildren fsa cwd) fsa login).2 = true := by
          rw [hdl₂] at hne₂
          exact (noErrors_split hne₂).1
        obtain ⟨relk, hkeq⟩ := underB_iff.mp hu
        have hksu : underB s k = true := by
          rcases hcwd with rfl | hcu
          · exact hu
          · exact underB_trans hcu hu
        obtain ⟨relx, hrelx⟩ := underB_iff.mp hksu
        have hkrs : keyRel s k = relx := by rw [hrelx, keyRel_join]
        have hks : s ++ '/' :: keyRel s k = k := by rw [hkrs, ← hrelx]
        have hvrelk : validRelB relk = true := by
          have hvk := (dirClosed_key hdcs hk hksu).1
          rcases hcwd with rfl | hcu
          · rw [hkeq, keyRel_join] at hvk
            exact hvk
          · obtain ⟨a, haeq⟩ := underB_iff.mp hcu
            rw [hkeq, haeq] at hvk
            rw [show (s ++ '/' :: a) ++ '/' :: relk = s ++ '/' :: (a ++ '/' :: relk) by simp,
              keyRel_join] at hvk
            exact validRelB_tail hvk
        rcases validRelB_decomp hvrelk with hname | ⟨n0, rest, hrelkeq, hvn0, hvrest⟩
        · cases v with
          | dir =>
            have hmem : relk ∈ dirChildren fsa cwd := by
              apply dirChildren_complete _ hname
              rw [hcur (cwd ++ '/' :: relk) (Or.inl (hchild_u relk))]
              rw [← hkeq]
              exact hk
            have hdir₁ := hcond₁ hne₁ relk hmem
            rw [← hkeq] at hdir₁
            constructor
            · intro _
              rw [isdirB]
              have h5 := hdp₃ _ (hdp₂ _ hdir₁)
              simp [h5]
            · intro c t rd hcf
              rw [hks, hk] at hcf
              exact absurd hcf (by simp)
          | file c t rd =>
            have hlive : getNode fsa (cwd ++ '/' :: relk) = some (Node.file c t rd) := by
              rw [hcur (cwd ++ '/' :: relk) (Or.inl (hchild_u relk)), ← hkeq]
              exact hk
            have hmem : relk ∈ fileChildren fsa cwd := fileChildren_complete hlive hname
            have hfil₂ := hcond₂ hne₂ relk hmem c t rd (by rw [← hkeq]; exact hk)
            rw [← hkeq] at hfil₂
            constructor
            · intro hdf
              rw [hks, hk] at hdf
              exact absurd hdf (by simp)
            · intro c2 t2 rd2 hcf
              rw [hks, hk] at hcf
              injection hcf with hval
              injection hval with hc2 ht2 hrd2
              obtain ⟨t3, h6⟩ := hfil₂
              rw [hkrs] at h6 ⊢
              have hsrcx : getNode fs0 (s ++ '/' :: relx) = some (Node.file c t rd) := by
                rw [← hrelx]
                exact hk
              subst hc2
              exact contentPres hstep₃ hsrcx h6
        · have hdirn : getNode fs0 (cwd ++ '/' :: n0) = some Node.dir := by
            rcases hcwd with rfl | hcu
            · have hk2 : getNode fs0 (cwd ++ '/' :: (n0 ++ '/' :: rest)) = some v := by
                rw [← hrelkeq, ← hkeq]
                exact hk
              exact prefix_dir hdcs rest.length rest n0 v (Nat.le_refl _) hk2
            · obtain ⟨a, haeq⟩ := underB_iff.mp hcu
              have hk2 : getNode fs0 (s ++ '/' :: ((a ++ '/' :: n0) ++ '/' :: rest)) =
                  some v := by
                rw [show (a ++ '/' :: n0) ++ '/' :: rest = a ++ '/' :: (n0 ++ '/' :: rest)
                  by simp, ← hrelkeq]
                rw [show s ++ '/' :: (a ++ '/' :: relk) = (s ++ '/' :: a) ++ '/' :: relk
                  by simp, ← haeq, ← hkeq]
                exact hk
              have h7 := prefix_dir hdcs rest.length rest (a ++ '/' :: n0) v
                (Nat.le_refl _) hk2
              rw [show s ++ '/' :: (a ++ '/' :: n0) = (s ++ '/' :: a) ++ '/' :: n0 by simp,
                ← haeq] at h7
              exact h7
          have hmem : n0 ∈ dirChildren fsa cwd := by
            apply dirChildren_complete _ hvn0
            rw [hcur (cwd ++ '/' :: n0) (Or.inl (hchild_u n0))]
            exact hdirn
          have hukn : underB (cwd ++ '/' :: n0) k = true := by
            rw [hkeq, hrelkeq]
            rw [show cwd ++ '/' :: (n0 ++ '/' :: rest) = (cwd ++ '/' :: n0) ++ '/' :: rest
              by simp]
            exact underB_join _ _
          exact hcond₃ hne n0 hmem k v hk hukn
    · rw [if_neg hd] at hrun
      injection hrun with h1 h2
      subst h1; subst h2
      refine ⟨⟨hnd, addStep_refl _ _ _ _, dirPres_refl _, [], by simp⟩, ?_⟩
      intro _ k v hk hu
      exfalso
      rcases hcwd with rfl | hcu
      · have h8 : getNode fsa cwd = some Node.dir := by
          rw [hcur cwd (Or.inr rfl)]
          exact dirClosed_root hdcs
        rw [isdirB, h8] at hd
        simp at hd
      · obtain ⟨a, haeq⟩ := underB_iff.mp hcu
        obtain ⟨relk, hkeq⟩ := underB_iff.mp hu
        have hk2 : getNode fs0 (s ++ '/' :: (a ++ '/' :: relk)) = some v := by
          rw [show s ++ '/' :: (a ++ '/' :: relk) = (s ++ '/' :: a) ++ '/' :: relk by simp,
            ← haeq, ← hkeq]
          exact hk
        have h7 := prefix_dir hdcs relk.length relk a v (Nat.le_refl _) hk2
        rw [← haeq] at h7
        have h8 : getNode fsa cwd = some Node.dir := by
          rw [hcur cwd (Or.inl hcu)]
          exact h7
        rw [isdirB, h8] at hd
        simp at hd

/-! Removal-phase infrastructure: the pruner only deletes replica-side
keys, deletes whole zones at a time, and under a no-error run keeps
exactly the entries whose inverse-mapped source check succeeds. -/

theorem isdirB_congr {fsa fsb : FS} {p : Path} (h : getNode fsa p = getNode fsb p) :
    isdirB fsa p = isdirB fsb p := by
  rw [isdirB, isdirB, h]

theorem isfileB_congr {fsa fsb : FS} {p : Path} (h : getNode fsa p = getNode fsb p) :
    isfileB fsa p = isfileB fsb p := by
  rw [isfileB, isfileB, h]

theorem rm_present_back {c : Path} {fsa fsb : FS} {q : Path} {v : Node}
    (h : rmStep c fsa fsb) (hq : getNode fsb q = some v) : getNode fsa q = some v := by
  rcases h q with h2 | h2
  · exact h2.symm.trans hq
  · rw [hq] at h2
    exact absurd h2.2 (by simp)

theorem rm_none_persist {c : Path} {fsa fsb : FS} {q : Path}
    (h : rmStep c fsa fsb) (hq : getNode fsa q = none) : getNode fsb q = none := by
  rcases h q with h2 | h2
  · exact h2.trans hq
  · exact h2.2

theorem rmStep_widen {r cwd : Path} {fsa fsb : FS} (hc : cwd = r ∨ underB r cwd = true)
    (h : rmStep cwd fsa fsb) : rmStep r fsa fsb := by
  intro q
  rcases h q with h2 | h2
  · exact Or.inl h2
  · refine Or.inr ⟨?_, h2.2⟩
    rcases hc with rfl | hc
    · exact h2.1
    · exact underB_trans hc h2.1

theorem processRmFolder_rmStep (s r : Path) (fsa : FS) (log : Log) (cwd n : Path) :
    rmStep cwd fsa (processRmFolder s r fsa log cwd n).1 := by
  rw [processRmFolder]
  by_cases hc : isdirB fsa (replaceAll (cwd ++ '/' :: n) r s) = true
  · simp only [hc, if_true]
    exact rmStep_refl _ _
  · simp only [hc, Bool.false_eq_true, if_false]
    cases hr : rmtreeFS fsa (cwd ++ '/' :: n) with
    | none => exact rmStep_refl _ _
    | some f =>
      simp only
      intro q
      rw [(rmtreeFS_some_inv hr).2 q]
      by_cases hq : q = cwd ++ '/' :: n ∨ underB (cwd ++ '/' :: n) q = true
      · rw [if_pos hq]
        refine Or.inr ⟨?_, rfl⟩
        rcases hq with rfl | hq
        · exact underB_join cwd n
        · exact underB_trans (underB_join cwd n) hq
      · rw [if_neg hq]
        exact Or.inl rfl

theorem processRmFile_rmStep (s r : Path) (fsa : FS) (log : Log) (cwd n : Path) :
    rmStep cwd fsa (processRmFile s r fsa log cwd n).1 := by
  rw [processRmFile]
  by_cases hc : isfileB fsa (replaceAll (cwd ++ '/' :: n) r s) = true
  · simp only [hc, if_true]
    exact rmStep_refl _ _
  · simp only [hc, Bool.false_eq_true, if_false]
    cases hr : osRemoveFS fsa (cwd ++ '/' :: n) with
    | none => exact rmStep_refl _ _
    | some f =>
      simp only
      intro q
      rw [(osRemoveFS_some_inv hr).2 q]
      by_cases hq : q = cwd ++ '/' :: n
      · rw [if_pos hq]
        exact Or.inr ⟨hq ▸ underB_join cwd n, rfl⟩
      · rw [if_neg hq]
        exact Or.inl rfl

theorem processRmFolder_nodup (s r : Path) {fsa : FS} (log : Log) (cwd n : Path)
    (hnd : nodupKeys fsa) : nodupKeys (processRmFolder s r fsa log cwd n).1 := by
  rw [processRmFolder]
  by_cases hc : isdirB fsa (replaceAll (cwd ++ '/' :: n) r s) = true
  · simp only [hc, if_true]
    exact hnd
  · simp only [hc, Bool.false_eq_true, if_false]
    rw [rmtreeFS]
    by_cases hd : isdirB fsa (cwd ++ '/' :: n) = true
    · simp only [hd, if_true]
      exact nodupKeys_filter _ hnd
    · simp only [hd, Bool.false_eq_true, if_false]
      exact hnd

theorem processRmFile_nodup (s r : Path) {fsa : FS} (log : Log) (cwd n : Path)
    (hnd : nodupKeys fsa) : nodupKeys (processRmFile s r fsa log cwd n).1 := by
  rw [processRmFile]
  by_cases hc : isfileB fsa (replaceAll (cwd ++ '/' :: n) r s) = true
  · simp only [hc, if_true]
    exact hnd
  · simp only [hc, Bool.false_eq_true, if_false]
    rw [osRemoveFS]
    by_cases hd : isfileB fsa (cwd ++ '/' :: n) = true
    · simp only [hd, if_true]
      exact nodupKeys_filter _ hnd
    · simp only [hd, Bool.false_eq_true, if_false]
      exact hnd

theorem removeFolders_rmStep (s r cwd : Path) :
    ∀ (ms : List Path) (fsa : FS) (log : Log),
      rmStep cwd fsa (removeFolders s r cwd ms fsa log).1 ∧
      (nodupKeys fsa → nodupKeys (removeFolders s r cwd ms fsa log).1) := by
  intro ms
  induction ms with
  | nil => intro fsa log; exact ⟨rmStep_refl _ _, id⟩
  | cons m ms ih =>
    intro fsa log
    have hstep : removeFolders s r cwd (m :: ms) fsa log =
        removeFolders s r cwd ms (processRmFolder s r fsa log cwd m).1
          (processRmFolder s r fsa log cwd m).2 := by
      rw [removeFolders, removeFolders, List.foldl_cons]
    rw [hstep]
    obtain ⟨h1, h2⟩ := ih (processRmFolder s r fsa log cwd m).1
      (processRmFolder s r fsa log cwd m).2
    exact ⟨rmStep_trans (processRmFolder_rmStep s r fsa log cwd m) h1,
      fun hnd => h2 (processRmFolder_nodup s r _ cwd m hnd)⟩

theorem removeFiles_rmStep (s r cwd : Path) :
    ∀ (ms : List Path) (fsa : FS) (log : Log),
      rmStep cwd fsa (removeFiles s r cwd ms fsa log).1 ∧
      (nodupKeys fsa → nodupKeys (removeFiles s r cwd ms fsa log).1) := by
  intro ms
  induction ms with
  | nil => intro fsa log; exact ⟨rmStep_refl _ _, id⟩
  | cons m ms ih =>
    intro fsa log
    have hstep : removeFiles s r cwd (m :: ms) fsa log =
        removeFiles s r cwd ms (processRmFile s r fsa log cwd m).1
          (processRmFile s r fsa log cwd m).2 := by
      rw [removeFiles, removeFiles, List.foldl_cons]
    rw [hstep]
    obtain ⟨h1, h2⟩ := ih (processRmFile s r fsa log cwd m).1
      (processRmFile s r fsa log cwd m).2
    exact ⟨rmStep_trans (processRmFile_rmStep s r fsa log cwd m) h1,
      fun hnd => h2 (processRmFile_nodup s r _ cwd m hnd)⟩

theorem dirChildren_mem_key {fs : FS} {cwd n : Path} (h : n ∈ dirChildren fs cwd) :
    cwd ++ '/' :: n ∈ fs.map Prod.fst := by
  rw [dirChildren] at h
  rcases List.mem_filterMap.mp h with ⟨⟨k, v⟩, hmem, hf⟩
  match hcn : childNameOf? cwd k, v with
  | some n2, Node.dir =>
    rw [hcn] at hf
    simp only at hf
    injection hf with hn2
    obtain ⟨hkeq, _⟩ := childNameOf?_inv hcn
    rw [hn2] at hkeq
    rw [← hkeq]
    exact List.mem_map_of_mem Prod.fst hmem
  | some n2, Node.file c t rd => rw [hcn] at hf; simp at hf
  | none, _ => rw [hcn] at hf; simp at hf

theorem fileChildren_mem_key {fs : FS} {cwd n : Path} (h : n ∈ fileChildren fs cwd) :
    cwd ++ '/' :: n ∈ fs.map Prod.fst := by
  rw [fileChildren] at h
  rcases List.mem_filterMap.mp h with ⟨⟨k, v⟩, hmem, hf⟩
  match hcn : childNameOf? cwd k, v with
  | some n2, Node.file c t rd =>
    rw [hcn] at hf
    simp only at hf
    injection hf with hn2
    obtain ⟨hkeq, _⟩ := childNameOf?_inv hcn
    rw [hn2] at hkeq
    rw [← hkeq]
    exact List.mem_map_of_mem Prod.fst hmem
  | some n2, Node.dir => rw [hcn] at hf; simp at hf
  | none, _ => rw [hcn] at hf; simp at hf

theorem dirChildren_nodup {fs : FS} (cwd : Path) (hnd : nodupKeys fs) :
    (dirChildren fs cwd).Nodup := by
  induction fs with
  | nil => simp [dirChildren]
  | cons kv t ih =>
    obtain ⟨k, v⟩ := kv
    have hnd2 : nodupKeys t := (List.nodup_cons.mp hnd).2
    have hknot : k ∉ t.map Prod.fst := (List.nodup_cons.mp hnd).1
    have hstep : dirChildren ((k, v) :: t) cwd =
        (match childNameOf? cwd k, v with
        | some n, Node.dir => some n
        | _, _ => none).toList ++ dirChildren t cwd := by
      rw [dirChildren, dirChildren, List.filterMap_cons]
      match hcn : childNameOf? cwd k, v with
      | some n, Node.dir => simp [hcn]
      | some n, Node.file c t2 rd => simp [hcn]
      | none, Node.dir => simp [hcn]
      | none, Node.file c t2 rd => simp [hcn]
    rw [hstep]
    match hcn : childNameOf? cwd k, v with
    | some n, Node.dir =>
      simp only [Option.toList_some, List.singleton_append, List.nodup_cons]
      refine ⟨?_, ih hnd2⟩
      intro hmem
      have hkey := dirChildren_mem_key hmem
      obtain ⟨hkeq, _⟩ := childNameOf?_inv hcn
      rw [← hkeq] at hkey
      exact hknot hkey
    | some n, Node.file c t2 rd =>
      simp only [Option.toList_none, List.nil_append]
      exact ih hnd2
    | none, Node.dir =>
      simp only [Option.toList_none, List.nil_append]
      exact ih hnd2
    | none, Node.file c t2 rd =>
      simp only [Option.toList_none, List.nil_append]
      exact ih hnd2

theorem fileChildren_nodup {fs : FS} (cwd : Path) (hnd : nodupKeys fs) :
    (fileChildren fs cwd).Nodup := by
  induction fs with
  | nil => simp [fileChildren]
  | cons kv t ih =>
    obtain ⟨k, v⟩ := kv
    have hnd2 : nodupKeys t := (List.nodup_cons.mp hnd).2
    have hknot : k ∉ t.map Prod.fst := (List.nodup_cons.mp hnd).1
    have hstep : fileChildren ((k, v) :: t) cwd =
        (match childNameOf? cwd k, v with
        | some n, Node.file c t2 rd => some n
        | _, _ => none).toList ++ fileChildren t cwd := by
      rw [fileChildren, fileChildren, List.filterMap_cons]
      match hcn : childNameOf? cwd k, v with
      | some n, Node.dir => simp [hcn]
      | some n, Node.file c t2 rd => simp [hcn]
      | none, Node.dir => simp [hcn]
      | none, Node.file c t2 rd => simp [hcn]
    rw [hstep]
    match hcn : childNameOf? cwd k, v with
    | some n, Node.file c t2 rd =>
      simp only [Option.toList_some, List.singleton_append, List.nodup_cons]
      refine ⟨?_, ih hnd2⟩
      intro hmem
      have hkey := fileChildren_mem_key hmem
      obtain ⟨hkeq, _⟩ := childNameOf?_inv hcn
      rw [← hkeq] at hkey
      exact hknot hkey
    | some n, Node.dir =>
      simp only [Option.toList_none, List.nil_append]
      exact ih hnd2
    | none, Node.dir =>
      simp only [Option.toList_none, List.nil_append]
      exact ih hnd2
    | none, Node.file c t2 rd =>
      simp only [Option.toList_none, List.nil_append]
      exact ih hnd2

theorem name_not_under {cwd n m : Path} (hm : validNameB m = true) :
    underB (cwd ++ '/' :: n) (cwd ++ '/' :: m) = false := by
  by_contra hx
  have hx1 : underB (cwd ++ '/' :: n) (cwd ++ '/' :: m) = true := by simpa using hx
  have hx2 : ((cwd ++ '/' :: n) ++ ['/']) <+: (cwd ++ '/' :: m) :=
    List.isPrefixOf_iff_prefix.mp hx1
  have hx3 : (n ++ ['/']) <+: m := by
    apply pre_append_cancel (l := cwd ++ ['/'])
    rw [show (cwd ++ ['/']) ++ (n ++ ['/']) = (cwd ++ '/' :: n) ++ ['/'] by simp,
      show (cwd ++ ['/']) ++ m = cwd ++ '/' :: m by simp]
    exact hx2
  obtain ⟨tl, htl⟩ := hx3
  have : '/' ∈ m := by
    rw [← htl]
    simp
  simp [validNameB] at hm
  exact hm.2 this

theorem rmStep_sibling_preserve {cwd n m : Path} {fsa fsb : FS}
    (h : rmStep (cwd ++ '/' :: m) fsa fsb) (hn : validNameB n = true)
    (hm : validNameB m = true) (hne : m ≠ n) {q : Path}
    (hq : q = cwd ++ '/' :: n ∨ underB (cwd ++ '/' :: n) q = true) :
    getNode fsb q = getNode fsa q := by
  rcases h q with h2 | h2
  · exact h2
  · exact absurd h2.1 (fun hx => sibling_zones_disjoint hn hm (fun he => hne he.symm)
      hq (Or.inr hx))

theorem rm_nonzone_stable {r : Path} {fs1 fsl : FS} (h : rmStep r fs1 fsl) {q : Path}
    (hq : underB r q = false) : getNode fsl q = getNode fs1 q := by
  rcases h q with h2 | h2
  · exact h2
  · rw [h2.1] at hq
    exact absurd hq (by simp)

theorem isfileB_false_of_dir1 {r : Path} {fs1 fsl : FS} (h : rmStep r fs1 fsl) {p : Path}
    (hd : getNode fs1 p = some Node.dir) : isfileB fsl p = false := by
  rw [isfileB]
  match hg : getNode fsl p with
  | none => rfl
  | some Node.dir => rfl
  | some (Node.file c t rd) =>
    have := rm_present_back h hg
    rw [hd] at this
    exact Option.noConfusion this (fun he => Node.noConfusion he)

theorem processRmFile_state_nofile {s r : Path} {fsa : FS} {log : Log} {cwd m : Path}
    (h : isfileB fsa (cwd ++ '/' :: m) = false) :
    (processRmFile s r fsa log cwd m).1 = fsa := by
  rw [processRmFile]
  by_cases hc : isfileB fsa (replaceAll (cwd ++ '/' :: m) r s) = true
  · simp only [hc, if_true]
  · simp only [hc, Bool.false_eq_true, if_false]
    rw [osRemoveFS]
    simp only [h, Bool.false_eq_true, if_false]

theorem removeFolders_keepZone (s r : Path) (fs1 : FS) (cwd n : Path)
    (hcwd : cwd = r ∨ underB r cwd = true) (hvn : validNameB n = true)
    (hchk : ∀ fsl : FS, rmStep r fs1 fsl →
      isdirB fsl (replaceAll (cwd ++ '/' :: n) r s) = true) :
    ∀ (ms : List Path) (fsx : FS) (log : Log),
      rmStep r fs1 fsx → (∀ m ∈ ms, validNameB m = true) →
      ∀ q, (q = cwd ++ '/' :: n ∨ underB (cwd ++ '/' :: n) q = true) →
        getNode (removeFolders s r cwd ms fsx log).1 q = getNode fsx q := by
  intro ms
  induction ms with
  | nil => intro fsx log _ _ q _; rfl
  | cons m ms ih =>
    intro fsx log hglob hval q hq
    have hstep : removeFolders s r cwd (m :: ms) fsx log =
        removeFolders s r cwd ms (processRmFolder s r fsx log cwd m).1
          (processRmFolder s r fsx log cwd m).2 := by
      rw [removeFolders, removeFolders, List.foldl_cons]
    rw [hstep]
    have hglob2 : rmStep r fs1 (processRmFolder s r fsx log cwd m).1 :=
      rmStep_trans hglob (rmStep_widen hcwd (processRmFolder_rmStep s r fsx log cwd m))
    rw [ih (processRmFolder s r fsx log cwd m).1 (processRmFolder s r fsx log cwd m).2
      hglob2 (fun x hx => hval x (List.mem_cons_of_mem _ hx)) q hq]
    by_cases hmn : m = n
    · subst hmn
      rw [processRmFolder_noop (hchk fsx hglob) log]
    · exact processRmFolder_preserveZone s r fsx log cwd m n q hvn
        (hval m (List.mem_cons_self _ _)) (fun he => hmn he.symm) hq

theorem removeFiles_keepZone (s r : Path) (fs1 : FS) (cwd n : Path)
    (hcwd : cwd = r ∨ underB r cwd = true) (hvn : validNameB n = true)
    (hd1 : getNode fs1 (cwd ++ '/' :: n) = some Node.dir) :
    ∀ (ms : List Path) (fsx : FS) (log : Log),
      rmStep r fs1 fsx → (∀ m ∈ ms, validNameB m = true) →
      ∀ q, (q = cwd ++ '/' :: n ∨ underB (cwd ++ '/' :: n) q = true) →
        getNode (removeFiles s r cwd ms fsx log).1 q = getNode fsx q := by
  intro ms
  induction ms with
  | nil => intro fsx log _ _ q _; rfl
  | cons m ms ih =>
    intro fsx log hglob hval q hq
    have hstep : removeFiles s r cwd (m :: ms) fsx log =
        removeFiles s r cwd ms (processRmFile s r fsx log cwd m).1
          (processRmFile s r fsx log cwd m).2 := by
      rw [removeFiles, removeFiles, List.foldl_cons]
    rw [hstep]
    have hglob2 : rmStep r fs1 (processRmFile s r fsx log cwd m).1 :=
      rmStep_trans hglob (rmStep_widen hcwd (processRmFile_rmStep s r fsx log cwd m))
    rw [ih (processRmFile s r fsx log cwd m).1 (processRmFile s r fsx log cwd m).2
      hglob2 (fun x hx => hval x (List.mem_cons_of_mem _ hx)) q hq]
    by_cases hmn : m = n
    · subst hmn
      rw [processRmFile_state_nofile (isfileB_false_of_dir1 hglob hd1)]
    · apply processRmFile_preserveKey
      intro he
      rcases hq with rfl | hq
      · exact hmn (join_inj.mp he).symm
      · exact sibling_zones_disjoint hvn (hval m (List.mem_cons_self _ _))
          (fun he2 => hmn he2.symm) (Or.inr hq) (Or.inl he)

theorem removeFiles_keepKey (s r : Path) (fs1 : FS) (cwd n : Path)
    (hcwd : cwd = r ∨ underB r cwd = true)
    (hchk : ∀ fsl : FS, rmStep r fs1 fsl →
      isfileB fsl (replaceAll (cwd ++ '/' :: n) r s) = true) :
    ∀ (ms : List Path) (fsx : FS) (log : Log),
      rmStep r fs1 fsx →
      getNode (removeFiles s r cwd ms fsx log).1 (cwd ++ '/' :: n) =
        getNode fsx (cwd ++ '/' :: n) := by
  intro ms
  induction ms with
  | nil => intro fsx log _; rfl
  | cons m ms ih =>
    intro fsx log hglob
    have hstep : removeFiles s r cwd (m :: ms) fsx log =
        removeFiles s r cwd ms (processRmFile s r fsx log cwd m).1
          (processRmFile s r fsx log cwd m).2 := by
      rw [removeFiles, removeFiles, List.foldl_cons]
    rw [hstep]
    have hglob2 : rmStep r fs1 (processRmFile s r fsx log cwd m).1 :=
      rmStep_trans hglob (rmStep_widen hcwd (processRmFile_rmStep s r fsx log cwd m))
    rw [ih (processRmFile s r fsx log cwd m).1 (processRmFile s r fsx log cwd m).2 hglob2]
    by_cases hmn : m = n
    · subst hmn
      rw [processRmFile_noop (hchk fsx hglob) log]
    · exact processRmFile_preserveKey s r fsx log cwd m _
        (fun he => hmn (join_inj.mp he).symm)

theorem zc_processRmFolder (s r : Path) {fs1 fsa : FS} (log : Log) (cwd n : Path)
    (hzc : zoneClosed fs1 fsa) :
    zoneClosed fs1 (processRmFolder s r fsa log cwd n).1 := by
  rw [processRmFolder]
  by_cases hc : isdirB fsa (replaceAll (cwd ++ '/' :: n) r s) = true
  · simp only [hc, if_true]
    exact hzc
  · simp only [hc, Bool.false_eq_true, if_false]
    cases hr : rmtreeFS fsa (cwd ++ '/' :: n) with
    | none => exact hzc
    | some f =>
      simp only
      intro p q v hpq hq
      have hchar := (rmtreeFS_some_inv hr).2
      rw [hchar q] at hq
      by_cases hqz : q = cwd ++ '/' :: n ∨ underB (cwd ++ '/' :: n) q = true
      · rw [if_pos hqz] at hq
        exact absurd hq (by simp)
      · rw [if_neg hqz] at hq
        rw [hchar p]
        have hpz : ¬(p = cwd ++ '/' :: n ∨ underB (cwd ++ '/' :: n) p = true) := by
          intro hpz
          apply hqz
          rcases hpz with rfl | hpz
          · exact Or.inr hpq
          · exact Or.inr (underB_trans hpz hpq)
        rw [if_neg hpz]
        exact hzc p q v hpq hq

theorem zc_processRmFile (s r : Path) {fs1 fsa : FS} (log : Log) (cwd m : Path)
    (hglob : rmStep r fs1 fsa)
    (hanc1 : ∀ k v, getNode fs1 k = some v → underB r k = true →
      ∀ p, underB r p = true → underB p k = true → getNode fs1 p = some Node.dir)
    (hcwd : cwd = r ∨ underB r cwd = true)
    (hzc : zoneClosed fs1 fsa) :
    zoneClosed fs1 (processRmFile s r fsa log cwd m).1 := by
  rw [processRmFile]
  by_cases hc : isfileB fsa (replaceAll (cwd ++ '/' :: m) r s) = true
  · simp only [hc, if_true]
    exact hzc
  · simp only [hc, Bool.false_eq_true, if_false]
    cases hr : osRemoveFS fsa (cwd ++ '/' :: m) with
    | none => exact hzc
    | some f =>
      simp only
      intro p q v hpq hq
      obtain ⟨hisf, hchar⟩ := osRemoveFS_some_inv hr
      rw [hchar q] at hq
      by_cases hqz : q = cwd ++ '/' :: m
      · rw [if_pos hqz] at hq
        exact absurd hq (by simp)
      · rw [if_neg hqz] at hq
        rw [hchar p]
        by_cases hpz : p = cwd ++ '/' :: m
        · exfalso
          have hq1 : getNode fs1 q = some v := rm_present_back hglob hq
          have hurz : underB r (cwd ++ '/' :: m) = true := by
            rcases hcwd with rfl | hcwd
            · exact underB_join cwd m
            · exact underB_trans hcwd (underB_join cwd m)
          have hurq : underB r q = true := by
            rw [hpz] at hpq
            exact underB_trans hurz hpq
          have hdir1 := hanc1 q v hq1 hurq (cwd ++ '/' :: m) hurz (hpz ▸ hpq)
          have hfl := isfileB_false_of_dir1 hglob hdir1
          rw [hisf] at hfl
          exact Bool.noConfusion hfl
        · rw [if_neg hpz]
          exact hzc p q v hpq hq

theorem zc_removeFolders (s r : Path) {fs1 : FS} (cwd : Path) :
    ∀ (ms : List Path) (fsa : FS) (log : Log), zoneClosed fs1 fsa →
      zoneClosed fs1 (removeFolders s r cwd ms fsa log).1 := by
  intro ms
  induction ms with
  | nil => intro fsa log hzc; exact hzc
  | cons m ms ih =>
    intro fsa log hzc
    have hstep : removeFolders s r cwd (m :: ms) fsa log =
        removeFolders s r cwd ms (processRmFolder s r fsa log cwd m).1
          (processRmFolder s r fsa log cwd m).2 := by
      rw [removeFolders, removeFolders, List.foldl_cons]
    rw [hstep]
    exact ih _ _ (zc_processRmFolder s r log cwd m hzc)

theorem zc_removeFiles (s r : Path) {fs1 : FS} (cwd : Path)
    (hanc1 : ∀ k v, getNode fs1 k = some v → underB r k = true →
      ∀ p, underB r p = true → underB p k = true → getNode fs1 p = some Node.dir)
    (hcwd : cwd = r ∨ underB r cwd = true) :
    ∀ (ms : List Path) (fsa : FS) (log : Log), rmStep r fs1 fsa → zoneClosed fs1 fsa →
      zoneClosed fs1 (removeFiles s r cwd ms fsa log).1 := by
  intro ms
  induction ms with
  | nil => intro fsa log _ hzc; exact hzc
  | cons m ms ih =>
    intro fsa log hglob hzc
    have hstep : removeFiles s r cwd (m :: ms) fsa log =
        removeFiles s r cwd ms (processRmFile s r fsa log cwd m).1
          (processRmFile s r fsa log cwd m).2 := by
      rw [removeFiles, removeFiles, List.foldl_cons]
    rw [hstep]
    exact ih _ _ (rmStep_trans hglob
        (rmStep_widen hcwd (processRmFile_rmStep s r fsa log cwd m)))
      (zc_processRmFile s r log cwd m hglob hanc1 hcwd hzc)

theorem underB_self {z : Path} : underB z z = false := by
  by_contra hx
  have hx1 : underB z z = true := by simpa using hx
  have hx2 : ((z ++ ['/']) <+: z) := List.isPrefixOf_iff_prefix.mp hx1
  have := hx2.length_le
  simp at this

theorem rm_root_preserve {z : Path} {fsa fsb : FS} (h : rmStep z fsa fsb) :
    getNode fsb z = getNode fsa z := by
  rcases h z with h2 | h2
  · exact h2
  · rw [underB_self] at h2
    exact absurd h2.1 (by simp)

theorem rmChildren_master (s r : Path) (fs0 fs1 : FS) (cwd : Path)
    (walk : Path → FS → Log → Option (FS × Log)) :
    ∀ (ns : List Path) (fsa : FS) (login : Log) (fsb : FS) (logout : Log),
      (cwd = r ∨ underB r cwd = true) →
      nodupKeys fsa → rmStep r fs1 fsa → zoneClosed fs1 fsa →
      (∀ n ∈ ns, validNameB n = true) → ns.Nodup →
      (∀ n ∈ ns, ∀ (fsx : FS) (logx : Log) (fsy : FS) (logy : Log),
        nodupKeys fsx → rmStep r fs1 fsx → zoneClosed fs1 fsx →
        walk (cwd ++ '/' :: n) fsx logx = some (fsy, logy) →
        (nodupKeys fsy ∧ rmStep (cwd ++ '/' :: n) fsx fsy ∧ zoneClosed fs1 fsy ∧
          ∃ dl, logy = logx ++ dl) ∧
        (noErrorsB logy = true →
          (∀ k v, getNode fsy k = some v → underB (cwd ++ '/' :: n) k = true →
            (v = Node.dir → isdirB fs1 (s ++ tailFrom r k) = true) ∧
            (∀ c t rd, v = Node.file c t rd → isfileB fs1 (s ++ tailFrom r k) = true)) ∧
          (∀ k v, getNode fsx k = some v → underB (cwd ++ '/' :: n) k = true →
            mappedPair fs0 s r k v → getNode fsy k = some v))) →
      rmChildren walk cwd ns fsa login = some (fsb, logout) →
      (nodupKeys fsb ∧ rmStep cwd fsa fsb ∧ zoneClosed fs1 fsb ∧
        ∃ dl, logout = login ++ dl) ∧
      (∀ m, validNameB m = true → m ∉ ns →
        ∀ q, (q = cwd ++ '/' :: m ∨ underB (cwd ++ '/' :: m) q = true) →
          getNode fsb q = getNode fsa q) ∧
      (noErrorsB logout = true →
        (∀ n ∈ ns, ∀ k v, getNode fsb k = some v → underB (cwd ++ '/' :: n) k = true →
          (v = Node.dir → isdirB fs1 (s ++ tailFrom r k) = true) ∧
          (∀ c t rd, v = Node.file c t rd → isfileB fs1 (s ++ tailFrom r k) = true)) ∧
        (∀ n ∈ ns, ∀ k v, getNode fsa k = some v →
          (k = cwd ++ '/' :: n ∨ underB (cwd ++ '/' :: n) k = true) →
          mappedPair fs0 s r k v → getNode fsb k = some v)) := by
  intro ns
  induction ns with
  | nil =>
    intro fsa login fsb logout _ hnd _ hzc _ _ _ hrun
    rw [rmChildren] at hrun
    injection hrun with hpair
    injection hpair with h1 h2
    subst h1; subst h2
    exact ⟨⟨hnd, rmStep_refl _ _, hzc, [], by simp⟩,
      fun m _ _ q _ => rfl,
      fun _ => ⟨fun n hn => by simp at hn, fun n hn => by simp at hn⟩⟩
  | cons n ns ih =>
    intro fsa login fsb logout hcwd hnd hglob hzc hval hnodup hwalk hrun
    rw [rmChildren] at hrun
    cases hw : walk (cwd ++ '/' :: n) fsa login with
    | none => rw [hw] at hrun; exact absurd hrun (by simp)
    | some st =>
      obtain ⟨fsy, logy⟩ := st
      rw [hw] at hrun
      obtain ⟨⟨hndy, hstepy, hzcy, dl, hdl⟩, hcondy⟩ :=
        hwalk n (List.mem_cons_self _ _) fsa login fsy logy hnd hglob hzc hw
      have hurn : underB r (cwd ++ '/' :: n) = true := by
        rcases hcwd with rfl | hcu
        · exact underB_join cwd n
        · exact underB_trans hcu (underB_join cwd n)
      have hgloby : rmStep r fs1 fsy :=
        rmStep_trans hglob (rmStep_widen (Or.inr hurn) hstepy)
      obtain ⟨⟨hndb, hstepb, hzcb, dl₂, hdl₂⟩, hzone, hcondb⟩ := ih fsy logy fsb logout
        hcwd hndy hgloby hzcy (fun x hx => hval x (List.mem_cons_of_mem _ hx))
        (List.nodup_cons.mp hnodup).2
        (fun x hx => hwalk x (List.mem_cons_of_mem _ hx)) hrun
      have hnotin : n ∉ ns := (List.nodup_cons.mp hnodup).1
      have hvn : validNameB n = true := hval n (List.mem_cons_self _ _)
      refine ⟨⟨hndb, rmStep_trans (rmStep_widen (Or.inr (underB_join cwd n)) hstepy)
        hstepb, hzcb, dl ++ dl₂, by rw [hdl₂, hdl]; simp⟩, ?_, ?_⟩
      · intro m hvm hmns q hq
        have h1 : getNode fsb q = getNode fsy q :=
          hzone m hvm (fun hx => hmns (List.mem_cons_of_mem _ hx)) q hq
        have h2 : getNode fsy q = getNode fsa q :=
          rmStep_sibling_preserve hstepy hvm hvn
            (fun he => hmns (he ▸ List.mem_cons_self _ _)) hq
        exact h1.trans h2
      · intro hne
        have hney : noErrorsB logy = true := by
          rw [hdl₂] at hne
          exact (noErrors_split hne).1
        obtain ⟨hcy, hpy⟩ := hcondy hney
        obtain ⟨hcb, hpb⟩ := hcondb hne
        constructor
        · intro x hx k v hkb huk
          rcases List.mem_cons.mp hx with rfl | hx2
          · exact hcy k v (rm_present_back hstepb hkb) huk
          · exact hcb x hx2 k v hkb huk
        · intro x hx k v hka hzk hmp
          rcases List.mem_cons.mp hx with rfl | hx2
          · have hky : getNode fsy k = some v := by
              rcases hzk with rfl | hzk
              · rw [rm_root_preserve hstepy]
                exact hka
              · exact hpy k v hka hzk hmp
            rw [hzone x hvn hnotin k hzk]
            exact hky
          · have hky : getNode fsy k = some v := by
              rw [rmStep_sibling_preserve hstepy (hval x (List.mem_cons_of_mem _ hx2)) hvn
                (fun he => hnotin (he ▸ hx2)) hzk]
              exact hka
            exact hpb x hx2 k v hky hzk hmp

theorem removeWalk_master (s r : Path) (fs0 fs1 : FS)
    (hind : indepRootsB s r = true) (hdcs : dirClosedB fs0 s = true)
    (hr1 : getNode fs1 r = some Node.dir)
    (hanc1 : ∀ k v, getNode fs1 k = some v → underB r k = true →
      ∀ p, underB r p = true → underB p k = true → getNode fs1 p = some Node.dir)
    (hrel1 : ∀ k v, getNode fs1 k = some v → underB r k = true →
      validRelB (keyRel r k) = true)
    (hsafe1 : ∀ k v, getNode fs1 k = some v → underB r k = true →
      replaceAll k r s = s ++ tailFrom r k)
    (hsrc01 : ∀ q, underB s q = true ∨ q = s → getNode fs1 q = getNode fs0 q) :
    ∀ (fuel : Nat) (cwd : Path) (fsx : FS) (login : Log) (fsb : FS) (logout : Log),
      (cwd = r ∨ underB r cwd = true) →
      nodupKeys fsx → rmStep r fs1 fsx → zoneClosed fs1 fsx →
      removeWalk s r fuel cwd fsx login = some (fsb, logout) →
      (nodupKeys fsb ∧ rmStep cwd fsx fsb ∧ zoneClosed fs1 fsb ∧
        ∃ dl, logout = login ++ dl) ∧
      (noErrorsB logout = true →
        (∀ k v, getNode fsb k = some v → underB cwd k = true →
          (v = Node.dir → isdirB fs1 (s ++ tailFrom r k) = true) ∧
          (∀ c t rd, v = Node.file c t rd → isfileB fs1 (s ++ tailFrom r k) = true)) ∧
        (∀ k v, getNode fsx k = some v → underB cwd k = true →
          mappedPair fs0 s r k v → getNode fsb k = some v)) := by
  intro fuel
  induction fuel with
  | zero =>
    intro cwd fsx login fsb logout _ _ _ _ hrun
    exact absurd hrun (by simp [removeWalk])
  | succ fuel ih =>
    intro cwd fsx login fsb logout hcwd hndx hglob hzc hrun
    have hurc : ∀ n : Path, underB r (cwd ++ '/' :: n) = true := by
      intro n
      rcases hcwd with rfl | hcu
      · exact underB_join cwd n
      · exact underB_trans hcu (underB_join cwd n)
    have hbody : removeWalk s r (fuel + 1) cwd fsx login =
        (if isdirB fsx cwd then
          rmChildren (removeWalk s r fuel) cwd (dirChildren fsx cwd)
            (removeFiles s r cwd (fileChildren fsx cwd)
              (removeFolders s r cwd (dirChildren fsx cwd) fsx login).1
              (removeFolders s r cwd (dirChildren fsx cwd) fsx login).2).1
            (removeFiles s r cwd (fileChildren fsx cwd)
              (removeFolders s r cwd (dirChildren fsx cwd) fsx login).1
              (removeFolders s r cwd (dirChildren fsx cwd) fsx login).2).2
        else some (fsx, login)) := rfl
    rw [hbody] at hrun
    by_cases hdx : isdirB fsx cwd = true
    · rw [if_pos hdx] at hrun
      obtain ⟨hstep1, hnd1f⟩ := removeFolders_rmStep s r cwd (dirChildren fsx cwd) fsx login
      have hndst1 := hnd1f hndx
      have hglob1 : rmStep r fs1 (removeFolders s r cwd (dirChildren fsx cwd) fsx login).1 :=
        rmStep_trans hglob (rmStep_widen hcwd hstep1)
      have hzc1 := zc_removeFolders s r cwd (dirChildren fsx cwd) fsx login hzc
      obtain ⟨hstep2, hnd2f⟩ := removeFiles_rmStep s r cwd (fileChildren fsx cwd)
        (removeFolders s r cwd (dirChildren fsx cwd) fsx login).1
        (removeFolders s r cwd (dirChildren fsx cwd) fsx login).2
      have hndst2 := hnd2f hndst1
      have hglob2 := rmStep_trans hglob1 (rmStep_widen hcwd hstep2)
      have hzc2 := zc_removeFiles s r cwd hanc1 hcwd (fileChildren fsx cwd)
        (removeFolders s r cwd (dirChildren fsx cwd) fsx login).1
        (removeFolders s r cwd (dirChildren fsx cwd) fsx login).2 hglob1 hzc1
      obtain ⟨dl1, hdl1, hev1⟩ := removeFolders_logEvents s r cwd (dirChildren fsx cwd)
        fsx login
      obtain ⟨dl2, hdl2, hev2⟩ := removeFiles_logEvents s r cwd (fileChildren fsx cwd)
        (removeFolders s r cwd (dirChildren fsx cwd) fsx login).1
        (removeFolders s r cwd (dirChildren fsx cwd) fsx login).2
      have hfv : ∀ n ∈ dirChildren fsx cwd, validNameB n = true :=
        fun n hn => (dirChildren_sound hndx hn).2
      have hflv : ∀ n ∈ fileChildren fsx cwd, validNameB n = true :=
        fun n hn => (fileChildren_sound hndx hn).2
      have hfnd := dirChildren_nodup cwd hndx
      have hflnd := fileChildren_nodup cwd hndx
      obtain ⟨⟨hndb, hstepc, hzcb, dl3, hdl3⟩, hzoneF, hcondF⟩ := rmChildren_master s r fs0
        fs1 cwd (removeWalk s r fuel) (dirChildren fsx cwd)
        (removeFiles s r cwd (fileChildren fsx cwd)
          (removeFolders s r cwd (dirChildren fsx cwd) fsx login).1
          (removeFolders s r cwd (dirChildren fsx cwd) fsx login).2).1
        (removeFiles s r cwd (fileChildren fsx cwd)
          (removeFolders s r cwd (dirChildren fsx cwd) fsx login).1
          (removeFolders s r cwd (dirChildren fsx cwd) fsx login).2).2
        fsb logout hcwd hndst2 hglob2 hzc2 hfv hfnd
        (fun n hn fsx2 logx2 fsy2 logy2 hnd2 hg2 hz2 hw2 =>
          ih (cwd ++ '/' :: n) fsx2 logx2 fsy2 logy2 (Or.inr (hurc n)) hnd2 hg2 hz2 hw2)
        hrun
      refine ⟨⟨hndb, rmStep_trans hstep1 (rmStep_trans hstep2 hstepc), hzcb,
        dl1 ++ dl2 ++ dl3, by rw [hdl3, hdl2, hdl1]; simp⟩, ?_⟩
      intro hne
      obtain ⟨hcF, hpF⟩ := hcondF hne
      constructor
      · intro k v hkb huk
        have hk2 := rm_present_back hstepc hkb
        have hk1 := rm_present_back hstep2 hk2
        have hkx := rm_present_back hstep1 hk1
        have hkf1 := rm_present_back hglob hkx
        have hurk : underB r k = true := by
          rcases hcwd with rfl | hcu
          · exact huk
          · exact underB_trans hcu huk
        obtain ⟨relk, hkeq⟩ := underB_iff.mp huk
        subst hkeq
        have hvrelk : validRelB relk = true := by
          have h0 := hrel1 _ _ hkf1 hurk
          rcases hcwd with rfl | hcu
          · rw [keyRel_join] at h0
            exact h0
          · obtain ⟨a, haeq⟩ := underB_iff.mp hcu
            rw [haeq] at h0
            rw [show (r ++ '/' :: a) ++ '/' :: relk = r ++ '/' :: (a ++ '/' :: relk)
              by simp, keyRel_join] at h0
            exact validRelB_tail h0
        obtain ⟨relr, hreq⟩ := underB_iff.mp hurk
        have htail : tailFrom r (cwd ++ '/' :: relk) = '/' :: relr := by
          rw [hreq, tailFrom_join]
        have hnr : underB r (s ++ tailFrom r (cwd ++ '/' :: relk)) = false := by
          rw [htail]
          exact under_s_not_r hind (underB_join s relr)
        rcases validRelB_decomp hvrelk with hname | ⟨n0, rest, hrelkeq, hvn0, hvrest⟩
        · cases v with
          | dir =>
            refine ⟨fun _ => ?_, fun c t rd hveq => Node.noConfusion hveq⟩
            by_contra hchk0
            have hchk : isdirB fs1 (s ++ tailFrom r (cwd ++ '/' :: relk)) = false := by
              simpa using hchk0
            have hmem : relk ∈ dirChildren fsx cwd := dirChildren_complete hkx hname
            have hmap := hsafe1 _ _ hkf1 hurk
            have hnotx : isdirB fsx (replaceAll (cwd ++ '/' :: relk) r s) = false := by
              rw [hmap, isdirB_congr (rm_nonzone_stable hglob hnr)]
              exact hchk
            have horph := removeFolders_orphan s r cwd relk (dirChildren fsx cwd) fsx
              login hfv hfnd hmem hname hkx hnotx
            have hnone1 := horph.1 (cwd ++ '/' :: relk) (Or.inl rfl)
            have hnone2 := rm_none_persist hstep2 hnone1
            have hnone3 := rm_none_persist hstepc hnone2
            exact Option.noConfusion (hkb.symm.trans hnone3)
          | file c t rd =>
            refine ⟨fun hveq => Node.noConfusion hveq, fun c2 t2 rd2 _ => ?_⟩
            by_contra hchk0
            have hchk : isfileB fs1 (s ++ tailFrom r (cwd ++ '/' :: relk)) = false := by
              simpa using hchk0
            have hmem : relk ∈ fileChildren fsx cwd := fileChildren_complete hkx hname
            have hisf1 : isfileB (removeFolders s r cwd (dirChildren fsx cwd) fsx login).1
                (cwd ++ '/' :: relk) = true := by
              rw [isfileB, hk1]
            have hmap := hsafe1 _ _ hkf1 hurk
            have hnot1 : isfileB (removeFolders s r cwd (dirChildren fsx cwd) fsx login).1
                (replaceAll (cwd ++ '/' :: relk) r s) = false := by
              rw [hmap, isfileB_congr (rm_nonzone_stable hglob1 hnr)]
              exact hchk
            have horph := removeFiles_orphanFile s r cwd relk (fileChildren fsx cwd)
              (removeFolders s r cwd (dirChildren fsx cwd) fsx login).1
              (removeFolders s r cwd (dirChildren fsx cwd) fsx login).2
              hflnd hmem hisf1 hnot1
            have hnone3 := rm_none_persist hstepc horph.1
            exact Option.noConfusion (hkb.symm.trans hnone3)
        · have hun0k : underB (cwd ++ '/' :: n0) (cwd ++ '/' :: relk) = true := by
            rw [hrelkeq, show cwd ++ '/' :: (n0 ++ '/' :: rest) =
              (cwd ++ '/' :: n0) ++ '/' :: rest by simp]
            exact underB_join _ _
          have hdirn0 : getNode fs1 (cwd ++ '/' :: n0) = some Node.dir :=
            hanc1 _ _ hkf1 hurk _ (hurc n0) hun0k
          have hdirn0x : getNode fsx (cwd ++ '/' :: n0) = some Node.dir := by
            rw [hzc _ _ _ hun0k hkx]
            exact hdirn0
          have hmem0 : n0 ∈ dirChildren fsx cwd := dirChildren_complete hdirn0x hvn0
          exact hcF n0 hmem0 _ v hkb hun0k
      · intro k v hkx2 huk hmp
        obtain ⟨rel, hkeq2, hcase⟩ := hmp
        have hkf1 := rm_present_back hglob hkx2
        have hurk : underB r k = true := by
          rcases hcwd with rfl | hcu
          · exact huk
          · exact underB_trans hcu huk
        obtain ⟨relk, hkeq⟩ := underB_iff.mp huk
        have hvrelk : validRelB relk = true := by
          have h0 := hrel1 _ _ hkf1 hurk
          rcases hcwd with rfl | hcu
          · rw [hkeq, keyRel_join] at h0
            exact h0
          · obtain ⟨a, haeq⟩ := underB_iff.mp hcu
            rw [hkeq, haeq] at h0
            rw [show (r ++ '/' :: a) ++ '/' :: relk = r ++ '/' :: (a ++ '/' :: relk)
              by simp, keyRel_join] at h0
            exact validRelB_tail h0
        have htail : tailFrom r k = '/' :: rel := by
          rw [hkeq2, tailFrom_join]
        have hnr2 : underB r (s ++ '/' :: rel) = false :=
          under_s_not_r hind (underB_join s rel)
        have hs01 := hsrc01 (s ++ '/' :: rel) (Or.inl (underB_join s rel))
        rcases validRelB_decomp hvrelk with hname | ⟨n0, rest, hrelkeq, hvn0, hvrest⟩
        · rcases hcase with ⟨hS, hveq⟩ | ⟨c, t, rd, t2, hS, hveq⟩
          · subst hveq
            have hchkAll : ∀ fsl : FS, rmStep r fs1 fsl →
                isdirB fsl (replaceAll (cwd ++ '/' :: relk) r s) = true := by
              intro fsl hg
              have hmap := hsafe1 _ _ hkf1 hurk
              rw [hkeq] at hmap
              rw [hmap]
              rw [show tailFrom r (cwd ++ '/' :: relk) = '/' :: rel by rw [← hkeq]; exact htail]
              rw [isdirB_congr (rm_nonzone_stable hg hnr2)]
              rw [isdirB, hs01, hS]
              simp
            have hkeep1 := removeFolders_keepZone s r fs1 cwd relk hcwd hname hchkAll
              (dirChildren fsx cwd) fsx login hglob hfv (cwd ++ '/' :: relk) (Or.inl rfl)
            have hd1 : getNode fs1 (cwd ++ '/' :: relk) = some Node.dir := by
              rw [← hkeq]
              exact hkf1
            have hkeep2 := removeFiles_keepZone s r fs1 cwd relk hcwd hname hd1
              (fileChildren fsx cwd)
              (removeFolders s r cwd (dirChildren fsx cwd) fsx login).1
              (removeFolders s r cwd (dirChildren fsx cwd) fsx login).2
              hglob1 hflv (cwd ++ '/' :: relk) (Or.inl rfl)
            have hmem0 : relk ∈ dirChildren fsx cwd := by
              apply dirChildren_complete _ hname
              rw [← hkeq]
              exact hkx2
            have hst2p : getNode (removeFiles s r cwd (fileChildren fsx cwd)
                (removeFolders s r cwd (dirChildren fsx cwd) fsx login).1
                (removeFolders s r cwd (dirChildren fsx cwd) fsx login).2).1 k =
                some Node.dir := by
              rw [hkeq, hkeep2, hkeep1, ← hkeq]
              exact hkx2
            have hres := hpF relk hmem0 k Node.dir hst2p (Or.inl hkeq)
              ⟨rel, hkeq2, Or.inl ⟨hS, rfl⟩⟩
            exact hres
          · subst hveq
            have hchkF : ∀ fsl : FS, rmStep r fs1 fsl →
                isfileB fsl (replaceAll (cwd ++ '/' :: relk) r s) = true := by
              intro fsl hg
              have hmap := hsafe1 _ _ hkf1 hurk
              rw [hkeq] at hmap
              rw [hmap]
              rw [show tailFrom r (cwd ++ '/' :: relk) = '/' :: rel by rw [← hkeq]; exact htail]
              rw [isfileB_congr (rm_nonzone_stable hg hnr2)]
              rw [isfileB, hs01, hS]
            have hnotdir : ∀ m ∈ dirChildren fsx cwd, validNameB m = true ∧ m ≠ relk := by
              intro m hm
              refine ⟨hfv m hm, ?_⟩
              intro he
              have hgd := (dirChildren_sound hndx hm).1
              rw [he, ← hkeq] at hgd
              rw [hkx2] at hgd
              exact Node.noConfusion (Option.some.inj hgd)
            have hkeep1 := removeFolders_preserveZone s r cwd relk hname
              (dirChildren fsx cwd) fsx login hnotdir (cwd ++ '/' :: relk) (Or.inl rfl)
            have hkeep2 := removeFiles_keepKey s r fs1 cwd relk hcwd hchkF
              (fileChildren fsx cwd)
              (removeFolders s r cwd (dirChildren fsx cwd) fsx login).1
              (removeFolders s r cwd (dirChildren fsx cwd) fsx login).2 hglob1
            have hnotin0 : relk ∉ dirChildren fsx cwd := by
              intro hm
              exact (hnotdir relk hm).2 rfl
            have hst2p : getNode (removeFiles s r cwd (fileChildren fsx cwd)
                (removeFolders s r cwd (dirChildren fsx cwd) fsx login).1
                (removeFolders s r cwd (dirChildren fsx cwd) fsx login).2).1
                (cwd ++ '/' :: relk) = some (Node.file c t2 true) := by
              rw [hkeep2, hkeep1, ← hkeq]
              exact hkx2
            have hz := hzoneF relk hname hnotin0 (cwd ++ '/' :: relk) (Or.inl rfl)
            rw [hkeq, hz]
            exact hst2p
        · have hun0k : underB (cwd ++ '/' :: n0) k = true := by
            rw [hkeq, hrelkeq, show cwd ++ '/' :: (n0 ++ '/' :: rest) =
              (cwd ++ '/' :: n0) ++ '/' :: rest by simp]
            exact underB_join _ _
          have hdirn0 : getNode fs1 (cwd ++ '/' :: n0) = some Node.dir :=
            hanc1 _ _ hkf1 hurk _ (hurc n0) hun0k
          have hdirn0x : getNode fsx (cwd ++ '/' :: n0) = some Node.dir := by
            rw [hzc _ _ _ hun0k hkx2]
            exact hdirn0
          have hmem0 : n0 ∈ dirChildren fsx cwd := dirChildren_complete hdirn0x hvn0
          have hchkAll : ∀ fsl : FS, rmStep r fs1 fsl →
              isdirB fsl (replaceAll (cwd ++ '/' :: n0) r s) = true := by
            intro fsl hg
            have hmap := hsafe1 _ _ hdirn0 (hurc n0)
            rw [hmap]
            obtain ⟨relp, hpeq⟩ := underB_iff.mp (hurc n0)
            rw [show tailFrom r (cwd ++ '/' :: n0) = '/' :: relp by rw [hpeq, tailFrom_join]]
            rw [isdirB_congr (rm_nonzone_stable hg
              (under_s_not_r hind (underB_join s relp)))]
            have hrelsplit : rel = relp ++ '/' :: rest := by
              have h1 : k = (r ++ '/' :: relp) ++ '/' :: rest := by
                rw [← hpeq, ← show cwd ++ '/' :: (n0 ++ '/' :: rest) =
                  (cwd ++ '/' :: n0) ++ '/' :: rest by simp, ← hrelkeq]
                exact hkeq
              rw [show (r ++ '/' :: relp) ++ '/' :: rest = r ++ '/' :: (relp ++ '/' :: rest)
                by simp] at h1
              rw [hkeq2] at h1
              exact join_inj.mp h1
            have hwS : ∃ w, getNode fs0 (s ++ '/' :: rel) = some w := by
              rcases hcase with ⟨hS, _⟩ | ⟨c, t, rd, t2, hS, _⟩
              · exact ⟨Node.dir, hS⟩
              · exact ⟨Node.file c t rd, hS⟩
            obtain ⟨w, hw⟩ := hwS
            have hkey2 : getNode fs0 (s ++ '/' :: (relp ++ '/' :: rest)) = some w := by
              rw [← hrelsplit]
              exact hw
            have hSanc := prefix_dir hdcs rest.length rest relp w (Nat.le_refl _) hkey2
            rw [isdirB, hsrc01 (s ++ '/' :: relp) (Or.inl (underB_join s relp)), hSanc]
            simp
          have hkeep1 := removeFolders_keepZone s r fs1 cwd n0 hcwd hvn0 hchkAll
            (dirChildren fsx cwd) fsx login hglob hfv k (Or.inr hun0k)
          have hkeep2 := removeFiles_keepZone s r fs1 cwd n0 hcwd hvn0 hdirn0
            (fileChildren fsx cwd)
            (removeFolders s r cwd (dirChildren fsx cwd) fsx login).1
            (removeFolders s r cwd (dirChildren fsx cwd) fsx login).2
            hglob1 hflv k (Or.inr hun0k)
          have hst2p : getNode (removeFiles s r cwd (fileChildren fsx cwd)
              (removeFolders s r cwd (dirChildren fsx cwd) fsx login).1
              (removeFolders s r cwd (dirChildren fsx cwd) fsx login).2).1 k =
              some v := by
            rw [hkeep2, hkeep1]
            exact hkx2
          exact hpF n0 hmem0 k v hst2p (Or.inr hun0k) ⟨rel, hkeq2, hcase⟩
    · rw [if_neg (by simpa using hdx)] at hrun
      injection hrun with hpair
      injection hpair with h1 h2
      subst h1; subst h2
      have hnokeys : ∀ k v, getNode fsx k = some v → underB cwd k = true → False := by
        intro k v hk hu
        have hk1 := rm_present_back hglob hk
        have hcd1 : getNode fs1 cwd = some Node.dir := by
          rcases hcwd with rfl | hcu
          · exact hr1
          · exact hanc1 k v hk1 (underB_trans hcu hu) cwd hcu hu
        have hcx := hzc cwd k v hu hk
        rw [hcd1] at hcx
        have hdx2 : isdirB fsx cwd = true := by simp [isdirB, hcx]
        exact hdx hdx2
      refine ⟨⟨hndx, rmStep_refl _ _, hzc, [], by simp⟩, fun _ => ⟨?_, ?_⟩⟩
      · intro k v hk hu
        exact (hnokeys k v hk hu).elim
      · intro k v hk hu _
        exact (hnokeys k v hk hu).elim

theorem addStep_nonzone {fs0 : FS} {s r : Path} {fs1 : FS}
    (h : addStep fs0 s r fs0 fs1) {q : Path} (hq : underB r q = false) :
    getNode fs1 q = getNode fs0 q := by
  rcases h q with h2 | ⟨v, hv, rel, hkeq, _, _⟩
  · exact h2
  · rw [hkeq, underB_join] at hq
    exact absurd hq (by simp)

theorem safeKeys_srcTail {fs : FS} {s r k : Path} {v : Node}
    (hsafe : safeKeysB fs s r = true) (hmem : (k, v) ∈ fs) (hu : underB s k = true) :
    containsSub (tailFrom s k) r = false := by
  rw [safeKeysB] at hsafe
  have h2 := (List.all_eq_true.mp hsafe) _ hmem
  simp only [hu, Bool.not_true, Bool.false_or, Bool.and_eq_true, Bool.or_eq_true,
    Bool.not_eq_true'] at h2
  exact h2.1.2

theorem zoneClosed_refl (fs1 : FS) : zoneClosed fs1 fs1 := fun _ _ _ _ _ => rfl

theorem isdirB_some {fs : FS} {p : Path} (h : isdirB fs p = true) :
    getNode fs p = some Node.dir := by
  rw [isdirB] at h
  simpa using h

theorem isfileB_some {fs : FS} {p : Path} (h : isfileB fs p = true) :
    ∃ c t rd, getNode fs p = some (Node.file c t rd) := by
  rw [isfileB] at h
  match hg : getNode fs p with
  | some (Node.file c t rd) => exact ⟨c, t, rd, rfl⟩
  | some Node.dir => rw [hg] at h; simp at h
  | none => rw [hg] at h; simp at h

theorem rmChildren_rmStep (cwd : Path) (walk : Path → FS → Log → Option (FS × Log)) :
    ∀ (ns : List Path) (fsa : FS) (login : Log) (fsb : FS) (logout : Log),
      (∀ n ∈ ns, ∀ (fsx : FS) (logx : Log) (fsy : FS) (logy : Log),
        walk (cwd ++ '/' :: n) fsx logx = some (fsy, logy) →
        rmStep (cwd ++ '/' :: n) fsx fsy ∧ ∃ dl, logy = logx ++ dl) →
      rmChildren walk cwd ns fsa login = some (fsb, logout) →
      rmStep cwd fsa fsb ∧ ∃ dl, logout = login ++ dl := by
  intro ns
  induction ns with
  | nil =>
    intro fsa login fsb logout _ hrun
    rw [rmChildren] at hrun
    injection hrun with hpair
    injection hpair with h1 h2
    subst h1; subst h2
    exact ⟨rmStep_refl _ _, [], by simp⟩
  | cons n ns ih =>
    intro fsa login fsb logout hwalk hrun
    rw [rmChildren] at hrun
    cases hw : walk (cwd ++ '/' :: n) fsa login with
    | none => rw [hw] at hrun; exact absurd hrun (by simp)
    | some st =>
      obtain ⟨fsy, logy⟩ := st
      rw [hw] at hrun
      obtain ⟨hsy, dl, hdl⟩ := hwalk n (List.mem_cons_self _ _) fsa login fsy logy hw
      obtain ⟨hsb, dl₂, hdl₂⟩ := ih fsy logy fsb logout
        (fun x hx => hwalk x (List.mem_cons_of_mem _ hx)) hrun
      exact ⟨rmStep_trans (rmStep_widen (Or.inr (underB_join cwd n)) hsy) hsb,
        dl ++ dl₂, by rw [hdl₂, hdl]; simp⟩

theorem removeWalk_rmStep (s r : Path) :
    ∀ (fuel : Nat) (cwd : Path) (fsx : FS) (login : Log) (fsb : FS) (logout : Log),
      removeWalk s r fuel cwd fsx login = some (fsb, logout) →
      rmStep cwd fsx fsb ∧ ∃ dl, logout = login ++ dl := by
  intro fuel
  induction fuel with
  | zero =>
    intro cwd fsx login fsb logout hrun
    exact absurd hrun (by simp [removeWalk])
  | succ fuel ih =>
    intro cwd fsx login fsb logout hrun
    have hbody : removeWalk s r (fuel + 1) cwd fsx login =
        (if isdirB fsx cwd then
          rmChildren (removeWalk s r fuel) cwd (dirChildren fsx cwd)
            (removeFiles s r cwd (fileChildren fsx cwd)
              (removeFolders s r cwd (dirChildren fsx cwd) fsx login).1
              (removeFolders s r cwd (dirChildren fsx cwd) fsx login).2).1
            (removeFiles s r cwd (fileChildren fsx cwd)
              (removeFolders s r cwd (dirChildren fsx cwd) fsx login).1
              (removeFolders s r cwd (dirChildren fsx cwd) fsx login).2).2
        else some (fsx, login)) := rfl
    rw [hbody] at hrun
    by_cases hdx : isdirB fsx cwd = true
    · rw [if_pos hdx] at hrun
      obtain ⟨hstep1, _⟩ := removeFolders_rmStep s r cwd (dirChildren fsx cwd) fsx login
      obtain ⟨hstep2, _⟩ := removeFiles_rmStep s r cwd (fileChildren fsx cwd)
        (removeFolders s r cwd (dirChildren fsx cwd) fsx login).1
        (removeFolders s r cwd (dirChildren fsx cwd) fsx login).2
      obtain ⟨dl1, hdl1, _⟩ := removeFolders_logEvents s r cwd (dirChildren fsx cwd)
        fsx login
      obtain ⟨dl2, hdl2, _⟩ := removeFiles_logEvents s r cwd (fileChildren fsx cwd)
        (removeFolders s r cwd (dirChildren fsx cwd) fsx login).1
        (removeFolders s r cwd (dirChildren fsx cwd) fsx login).2
      obtain ⟨hstepc, dl3, hdl3⟩ := rmChildren_rmStep cwd (removeWalk s r fuel)
        (dirChildren fsx cwd) _ _ fsb logout
        (fun n hn fsx2 logx2 fsy2 logy2 hw2 => ih (cwd ++ '/' :: n) fsx2 logx2 fsy2 logy2 hw2)
        hrun
      exact ⟨rmStep_trans hstep1 (rmStep_trans hstep2 hstepc),
        dl1 ++ dl2 ++ dl3, by rw [hdl3, hdl2, hdl1]; simp⟩
    · rw [if_neg (by simpa using hdx)] at hrun
      injection hrun with hpair
      injection hpair with h1 h2
      subst h1; subst h2
      exact ⟨rmStep_refl _ _, [], by simp⟩

theorem sync_ok_master (fuel : Nat) (s r : Path) (fs fs2 : FS) (log2 : Log)
    (hwf : wfInputB fs s r = true) (hrd : readableAllB fs = true)
    (hrun : sync_folders fuel s r fs = SyncResult.ok fs2 log2) :
    (∀ q, underB r q = false → getNode fs2 q = getNode fs q) ∧
    (noErrorsB log2 = true → mirrorsB fs2 s r = true) := by
  obtain ⟨hnd0, hind, hsafe, hdcs, hdcr, hnc⟩ := wfInput_unpack hwf
  rcases sync_folders_cases fuel s r fs with
    ⟨h1, he⟩ | ⟨h1, h2, he⟩ |
    ⟨h1, h2, ⟨_, he⟩ | ⟨f, l, _, he⟩ | ⟨fs1, log1, ha, ⟨_, he⟩ | ⟨f2, l2, hb, he⟩⟩⟩
  · rw [he] at hrun; exact absurd hrun (by simp)
  · rw [he] at hrun; exact absurd hrun (by simp)
  · rw [he] at hrun; exact absurd hrun (by simp)
  · rw [he] at hrun; exact absurd hrun (by simp)
  · rw [he] at hrun; exact absurd hrun (by simp)
  · rw [he] at hrun
    injection hrun with hf2 hl2
    subst hf2; subst hl2
    rw [add_files_to_replica] at ha
    obtain ⟨⟨hnd1, hstep01, hdp01, dl1, hdl1⟩, hmallc⟩ := addWalk_master s r fs hind hsafe
      hdcs hdcr hnc hrd fuel s fs [] fs1 log1 (Or.inl rfl) hnd0 (addStep_refl _ _ _ _) ha
    rw [remove_files_from_replica] at hb
    obtain ⟨hstepRm, dlB0, hdlB0⟩ := removeWalk_rmStep s r fuel r fs1 log1 f2 l2 hb
    have hframe : ∀ q, underB r q = false → getNode f2 q = getNode fs q := by
      intro q hq
      rw [rm_nonzone_stable hstepRm hq]
      exact addStep_nonzone hstep01 hq
    refine ⟨hframe, ?_⟩
    intro hne
    have hne1 : noErrorsB log1 = true := by
      rw [hdlB0] at hne
      exact (noErrors_split hne).1
    have hmall := hmallc hne1
    have hr1 : getNode fs1 r = some Node.dir := by
      rw [addStep_nonzone hstep01 underB_self]
      exact dirClosed_root hdcr
    have hsrc01 : ∀ q, underB s q = true ∨ q = s → getNode fs1 q = getNode fs q := by
      intro q hq
      apply addStep_nonzone hstep01
      rcases hq with hq | rfl
      · exact under_s_not_r hind hq
      · exact (root_not_under hind).2
    have hrel1 : ∀ k v, getNode fs1 k = some v → underB r k = true →
        validRelB (keyRel r k) = true := by
      intro k v hk hu
      rcases hstep01 k with h3 | ⟨v', hv', rel, hkeq, hvrel, _⟩
      · exact (dirClosed_key hdcr (h3.symm.trans hk) hu).1
      · rw [hkeq, keyRel_join]
        exact hvrel
    have hsafe1 : ∀ k v, getNode fs1 k = some v → underB r k = true →
        replaceAll k r s = s ++ tailFrom r k := by
      intro k v hk hu
      rcases hstep01 k with h3 | ⟨v', hv', rel, hkeq, hvrel, hcase⟩
      · have hk0 : getNode fs k = some v := h3.symm.trans hk
        have hme := mappedEq_rep hsafe hind (getNode_mem hk0) hu
        rw [hme, specMap]
      · subst hkeq
        have hSmem : ∃ w, getNode fs (s ++ '/' :: rel) = some w := by
          rcases hcase with ⟨hS, _⟩ | ⟨c, t, hS, _⟩
          · exact ⟨Node.dir, hS⟩
          · exact ⟨Node.file c t true, hS⟩
        obtain ⟨w, hw⟩ := hSmem
        have hocc : containsSub (tailFrom s (s ++ '/' :: rel)) r = false :=
          safeKeys_srcTail hsafe (getNode_mem hw) (underB_join s rel)
        rw [tailFrom_join] at hocc
        rw [tailFrom_join]
        rw [show r ++ '/' :: rel = r ++ ('/' :: rel) from rfl]
        exact replaceAll_of_pre (roots_nonempty hind).2 hocc
    have hdirs1 : ∀ rel, getNode fs (s ++ '/' :: rel) = some Node.dir →
        getNode fs1 (r ++ '/' :: rel) = some Node.dir := by
      intro rel hS
      have hmd := hmall (s ++ '/' :: rel) Node.dir hS (underB_join s rel)
      rw [keyRel_join] at hmd
      exact isdirB_some (hmd.1 hS)
    have hanc1 : ∀ k v, getNode fs1 k = some v → underB r k = true →
        ∀ p, underB r p = true → underB p k = true → getNode fs1 p = some Node.dir := by
      intro k v hk hu p hup hpk
      obtain ⟨rest, hkp⟩ := underB_iff.mp hpk
      obtain ⟨relp, hpeq⟩ := underB_iff.mp hup
      have hkform : k = r ++ '/' :: (relp ++ '/' :: rest) := by
        rw [hkp, hpeq]
        simp
      rcases hstep01 k with h3 | ⟨v', hv', rel, hkeq, hvrel, hcase⟩
      · have hk0 : getNode fs k = some v := h3.symm.trans hk
        rw [hkform] at hk0
        have hdp := prefix_dir hdcr rest.length rest relp v (Nat.le_refl _) hk0
        rw [← hpeq] at hdp
        exact hdp01 p hdp
      · have hrels : rel = relp ++ '/' :: rest := by
          rw [hkeq] at hkform
          exact join_inj.mp hkform
        have hSmem : ∃ w, getNode fs (s ++ '/' :: rel) = some w := by
          rcases hcase with ⟨hS, _⟩ | ⟨c, t, hS, _⟩
          · exact ⟨Node.dir, hS⟩
          · exact ⟨Node.file c t true, hS⟩
        obtain ⟨w, hw⟩ := hSmem
        rw [hrels] at hw
        have hSanc := prefix_dir hdcs rest.length rest relp w (Nat.le_refl _) hw
        have hfin := hdirs1 relp hSanc
        rw [← hpeq] at hfin
        exact hfin
    obtain ⟨⟨hndb, hstepB, hzcB, dlB, hdlB⟩, hcondB⟩ := removeWalk_master s r fs fs1
      hind hdcs hr1 hanc1 hrel1 hsafe1 hsrc01 fuel r fs1 log1 f2 l2 (Or.inl rfl)
      hnd1 (rmStep_refl _ _) (zoneClosed_refl _) hb
    obtain ⟨hC, hP⟩ := hcondB hne
    rw [mirrorsB]
    apply List.all_eq_true.mpr
    rintro ⟨k, v⟩ hkv
    have hk2 : getNode f2 k = some v := mem_getNode hndb hkv
    simp only [Bool.and_eq_true, Bool.or_eq_true, Bool.not_eq_true']
    constructor
    · by_cases hus : underB s k = true
      · refine Or.inr ?_
        have hur : underB r k = false := under_s_not_r hind hus
        have hk0 : getNode fs k = some v := by
          rw [← hframe k hur]
          exact hk2
        obtain ⟨relK, hkeqS⟩ := underB_iff.mp hus
        have hmd := hmall k v hk0 hus
        rw [show keyRel s k = relK by rw [hkeqS, keyRel_join]] at hmd
        have hspec : specMap s r k = r ++ '/' :: relK := by
          rw [specMap, hkeqS, tailFrom_join]
        rw [hspec]
        cases v with
        | dir =>
          have hM1 : getNode fs1 (r ++ '/' :: relK) = some Node.dir := by
            apply isdirB_some
            apply hmd.1
            rw [← hkeqS]
            exact hk0
          have hM2 : getNode f2 (r ++ '/' :: relK) = some Node.dir :=
            hP (r ++ '/' :: relK) Node.dir hM1 (underB_join r relK)
              ⟨relK, rfl, Or.inl ⟨by rw [← hkeqS]; exact hk0, rfl⟩⟩
          rw [hM2]
          simp [nodeEq2]
        | file c t rd =>
          obtain ⟨t2, hM1⟩ := hmd.2 c t rd (by rw [← hkeqS]; exact hk0)
          have hM2 := hP (r ++ '/' :: relK) (Node.file c t2 true) hM1 (underB_join r relK)
            ⟨relK, rfl, Or.inr ⟨c, t, rd, t2, by rw [← hkeqS]; exact hk0, rfl⟩⟩
          rw [hM2]
          simp [nodeEq2]
      · exact Or.inl (by simpa using hus)
    · by_cases hur : underB r k = true
      · refine Or.inr ?_
        have hk1v : getNode fs1 k = some v := rm_present_back hstepB hk2
        obtain ⟨relK, hkeqR⟩ := underB_iff.mp hur
        have hspec : specMap r s k = s ++ '/' :: relK := by
          rw [specMap, hkeqR, tailFrom_join]
        have hAstable : getNode f2 (s ++ '/' :: relK) = getNode fs (s ++ '/' :: relK) :=
          hframe _ (under_s_not_r hind (underB_join s relK))
        rw [hspec]
        rcases hstep01 k with h3 | ⟨v', hv', rel, hkeq, hvrel, hcase⟩
        · have hchecks := hC k v hk2 hur
          cases v with
          | dir =>
            have hA1 := isdirB_some (hchecks.1 rfl)
            rw [show s ++ tailFrom r k = s ++ '/' :: relK by rw [hkeqR, tailFrom_join]] at hA1
            rw [hAstable, ← hsrc01 _ (Or.inl (underB_join s relK)), hA1]
            simp [nodeEq2]
          | file c t rd =>
            have hisfA := hchecks.2 c t rd rfl
            rw [show s ++ tailFrom r k = s ++ '/' :: relK
              by rw [hkeqR, tailFrom_join]] at hisfA
            obtain ⟨cA, tA, rdA, hA1⟩ := isfileB_some hisfA
            have hA0 : getNode fs (s ++ '/' :: relK) = some (Node.file cA tA rdA) := by
              rw [← hsrc01 _ (Or.inl (underB_join s relK))]
              exact hA1
            have hmdA := hmall (s ++ '/' :: relK) (Node.file cA tA rdA) hA0
              (underB_join s relK)
            rw [keyRel_join] at hmdA
            obtain ⟨t3, hM⟩ := hmdA.2 cA tA rdA hA0
            rw [← hkeqR] at hM
            rw [hk1v] at hM
            injection hM with hMv
            injection hMv with hcc htt hdd
            rw [hAstable, hA0, ← hcc]
            simp [nodeEq2]
        · have hveq : v' = v := by
            have h4 := hv'.symm.trans hk1v
            exact Option.some.inj h4
          have hrelK : rel = relK := by
            rw [hkeq] at hkeqR
            exact join_inj.mp hkeqR
          subst hrelK
          rcases hcase with ⟨hS, hveq2⟩ | ⟨c, t, hS, hveq2⟩
          · rw [← hveq, hveq2]
            rw [hAstable, hS]
            simp [nodeEq2]
          · rw [← hveq, hveq2]
            rw [hAstable, hS]
            simp [nodeEq2]
      · exact Or.inl (by simpa using hur)

/-- Claim C1 (amended): convergence holds on well-formed inputs. On a
snapshot with distinct keys, independent roots, replace-safe key
suffixes, two honest directory trees, no file-vs-directory conflict
between the trees and every file readable, if one tick of
`sync_folders` completes normally and its log records no errors, the
resulting state mirrors the source: every entry under the source root
has an entry of matching kind and equal content at its mapped replica
path, and every entry under the replica root is matched at its
inverse-mapped source path (no orphan survives). The literal claim,
which assumes nothing beyond valid roots, fails: see the recorded
counterexample, where a tick completes with an empty error log yet the
replica does not match the source. -/
theorem C1_amended_convergence (fuel : Nat) (s r : Path) (fs fs2 : FS) (log2 : Log)
    (hwf : wfInputB fs s r = true) (hrd : readableAllB fs = true)
    (hrun : sync_folders fuel s r fs = SyncResult.ok fs2 log2)
    (hne : noErrorsB log2 = true) :
    mirrorsB fs2 s r = true :=
  (sync_ok_master fuel s r fs fs2 log2 hwf hrd hrun).2 hne

/-- Witness for the amended C1: on the spec's own stale scenario
(content-equal `a/x`, stale `b`, orphan `c`) the tick completes without
errors and the result mirrors the source. -/
theorem C1_amended_convergence_witness :
    mirrorsB (sync_folders 6 sR rR fsStale).fsOf sR rR = true := by
  have hrun : sync_folders 6 sR rR fsStale =
      SyncResult.ok (sync_folders 6 sR rR fsStale).fsOf
        (sync_folders 6 sR rR fsStale).logOf := by
    decide
  exact C1_amended_convergence 6 sR rR fsStale _ _ (by decide) (by decide) hrun (by decide)

/-- Claim C8 (amended): on a well-formed snapshot (independent roots,
replace-safe key suffixes, honest directory trees, no conflicts, all
files readable) a completed tick writes and deletes only under the
replica root: every path not under the replica root — in particular the
source root and everything beneath it — reads exactly as before the
tick, with or without per-entry errors in the log. The literal claim
fails without these hypotheses: see the recorded counterexample, where
a source root nested inside the replica root is itself deleted by the
pruner. -/
theorem C8_amended_replica_only_writes (fuel : Nat) (s r : Path) (fs fs2 : FS) (log2 : Log)
    (hwf : wfInputB fs s r = true) (hrd : readableAllB fs = true)
    (hrun : sync_folders fuel s r fs = SyncResult.ok fs2 log2) :
    (∀ q, underB r q = false → getNode fs2 q = getNode fs q) ∧
    (∀ q, underB s q = true ∨ q = s → getNode fs2 q = getNode fs q) := by
  have hfr := (sync_ok_master fuel s r fs fs2 log2 hwf hrd hrun).1
  refine ⟨hfr, ?_⟩
  intro q hq
  apply hfr
  obtain ⟨_, hind, _, _, _, _⟩ := wfInput_unpack hwf
  rcases hq with hq | rfl
  · exact under_s_not_r hind hq
  · exact (root_not_under hind).2

/-- Witness for the amended C8: syncing `fsW6` copies `/s/b` into the
replica, and the source entries `/s/a` and the source root itself read
unchanged afterwards. -/
theorem C8_amended_replica_only_writes_witness :
    getNode (sync_folders 6 sR rR fsW6).fsOf ['/', 's', '/', 'a'] =
      getNode fsW6 ['/', 's', '/', 'a'] ∧
    getNode (sync_folders 6 sR rR fsW6).fsOf sR = getNode fsW6 sR := by
  have hrun : sync_folders 6 sR rR fsW6 =
      SyncResult.ok (sync_folders 6 sR rR fsW6).fsOf
        (sync_folders 6 sR rR fsW6).logOf := by
    decide
  have h := (C8_amended_replica_only_writes 6 sR rR fsW6 _ _ (by decide) (by decide) hrun).2
  exact ⟨h ['/', 's', '/', 'a'] (Or.inl (by decide)), h sR (Or.inr rfl)⟩

end FolderSync
